import Mathlib

set_option maxRecDepth 8000

/-!
Shallow embedding of the finite-automaton library (src/automaton.py and
src/re_parser.py).

Python strings are embedded as `List Char` (`Str`); Python sets of strings as
duplicate-free `List Str` built by `sinsert`/`sunion` (iteration order of a
Python set is embedded as the list order); Python dicts as insertion-ordered
association lists with `dget`/`dset`.  The transition-symbol keys are
`Option Str`: `none` embeds Python `None` and `some lamS` embeds the textual
marker `"λ"`.  The worklist loops of the source are embedded with an explicit
fuel argument; each call site passes a fuel that is proven (or chosen) large
enough that the loop always reaches its natural exit, matching the unbounded
Python `while` loops.
-/

abbrev Str : Type := List Char

abbrev Symb : Type := Option Str

def lamS : Str := ['λ']

def deadS : Str := ['∅']

def str (s : String) : Str := s.data

/-- Python `set.add`: append the element if it is not already present. -/
def sinsert {α : Type} [DecidableEq α] (l : List α) (x : α) : List α :=
  if x ∈ l then l else l ++ [x]

/-- Python `set.update` / set union: insert each element of `m` into `l`. -/
def sunion {α : Type} [DecidableEq α] (l m : List α) : List α :=
  m.foldl sinsert l

/-- Python set comprehension over a list of elements: deduplicate. -/
def ssetOf {α : Type} [DecidableEq α] (m : List α) : List α :=
  sunion [] m

/-- Python `d[k]` / `k in d`: first-match lookup in an association list. -/
def dget {κ α : Type} [DecidableEq κ] : List (κ × α) → κ → Option α
  | [], _ => none
  | (k, v) :: rest, key => if k = key then some v else dget rest key

/-- Python `d[k] = v`: update in place if present, else append (insertion order). -/
def dset {κ α : Type} [DecidableEq κ] : List (κ × α) → κ → α → List (κ × α)
  | [], key, val => [(key, val)]
  | (k, v) :: rest, key, val =>
    if k = key then (k, val) :: rest else (k, v) :: dset rest key val

abbrev Row : Type := List (Symb × List Str)

abbrev TTab : Type := List (Str × Row)

/-- The automaton value type of `automaton.py` (`FiniteAutomaton.__init__`).
The constructor's list-normalisation of destination values is the identity in
this embedding because destinations are always lists here. -/
structure FiniteAutomaton where
  initial_state : Str
  states : List Str
  symbols : List Symb
  transitions : TTab
  final_states : List Str
deriving DecidableEq, Repr

/-- Python `state in transitions and sym in transitions[state]` followed by
`transitions[state][sym]`. -/
def tlook (tr : TTab) (st : Str) (sym : Symb) : Option (List Str) :=
  match dget tr st with
  | none => none
  | some row => dget row sym

/-- The two epsilon markers checked by `_lambda_closure`: `"λ"` and `None`. -/
def lamDests (tr : TTab) (st : Str) : List Str :=
  ((tlook tr st (some lamS)).getD []) ++ ((tlook tr st none).getD [])

/-- One discovered destination: add it to the closure and push it, unless seen.
The pair is (closure, stack). -/
def pushNew (p : List Str × List Str) (d : Str) : List Str × List Str :=
  if d ∈ p.1 then p else (p.1 ++ [d], d :: p.2)

/-- The worklist loop of `FiniteAutomaton._lambda_closure`.  The Python stack
(append/pop at the end) is embedded as a cons-list popped at the head, which
realises the same last-in-first-out discipline. -/
def closureLoop (tr : TTab) : Nat → List Str → List Str → List Str
  | 0, _, closure => closure
  | fuel + 1, stack, closure =>
    match stack with
    | [] => closure
    | st :: rest =>
      let p := (lamDests tr st).foldl pushNew (closure, rest)
      closureLoop tr fuel p.2 p.1

/-- Total number of destination states mentioned in a transition table. -/
def totalDests (tr : TTab) : Nat :=
  (tr.map (fun row => (row.2.map (fun e => e.2.length)).sum)).sum

def closureFuel (tr : TTab) (init : List Str) : Nat :=
  init.length + totalDests tr + 1

/-- `FiniteAutomaton._lambda_closure`. -/
def lambdaClosure (a : FiniteAutomaton) (s : List Str) : List Str :=
  closureLoop a.transitions (closureFuel a.transitions s) s s

/-- The inner step shared by `accepts` and `to_deterministic`: the union of the
λ-closures of every `sym`-destination of every state of `current`. -/
def moveClosure (a : FiniteAutomaton) (current : List Str) (sym : Symb) : List Str :=
  current.foldl (fun acc st =>
    match tlook a.transitions st sym with
    | some dests => dests.foldl (fun acc2 d => sunion acc2 (lambdaClosure a [d])) acc
    | none => acc) []

/-- The per-symbol loop of `FiniteAutomaton.accepts`. -/
def acceptsFrom (a : FiniteAutomaton) : List Str → List Str → Bool
  | current, [] => current.any (fun st => decide (st ∈ a.final_states))
  | current, symbol :: rest =>
    let next := moveClosure a current (some symbol)
    if next.isEmpty then false else acceptsFrom a next rest

/-- `FiniteAutomaton.accepts`.  An input string is a list of symbol strings
(Python iterates the characters of `cadena`). -/
def accepts (a : FiniteAutomaton) (w : List Str) : Bool :=
  acceptsFrom a (lambdaClosure a [a.initial_state]) w

/-- One decimal digit character. -/
def digitChar (n : Nat) : Char :=
  match n with
  | 0 => '0' | 1 => '1' | 2 => '2' | 3 => '3' | 4 => '4'
  | 5 => '5' | 6 => '6' | 7 => '7' | 8 => '8' | _ => '9'

/-- Decimal rendering of a natural number, with enough structural fuel. -/
def natToStrAux : Nat → Nat → Str
  | 0, _ => []
  | fuel + 1, n =>
    if n < 10 then [digitChar n] else natToStrAux fuel (n / 10) ++ [digitChar (n % 10)]

/-- Python `str(n)` for a nonnegative integer `n`. -/
def natToStr (n : Nat) : Str :=
  natToStrAux (n + 1) n

/-- Python `int(s)` for a decimal-digit string (the only way the source uses it). -/
def strToNat (s : Str) : Nat :=
  s.foldl (fun acc c => acc * 10 + (c.toNat - 48)) 0

/-- Python `s.isdigit()` restricted to ASCII digits. -/
def isDigitStr (s : Str) : Bool :=
  !s.isEmpty && s.all (fun c => '0' ≤ c && c ≤ '9')

/-- Python `max(l)` on a list of naturals (only applied to nonempty lists). -/
def listMax (l : List Nat) : Nat :=
  l.foldl max 0

/-- The error kinds a compilation can surface: `idxErr` embeds Python's
IndexError (pop or index on an empty list); `synErr` embeds the SyntaxError
kind the specification speaks about. -/
inductive PyErr where
  | idxErr
  | synErr
deriving DecidableEq, Repr

/-- The `+` branch of `_re_to_rpn`: pop operators to the output down to an
opening parenthesis (stack head is the Python stack top). -/
def popWhileNotParen : List Char → Str → List Char × Str
  | [], out => ([], out)
  | c :: rest, out =>
    if c = '(' then (c :: rest, out) else popWhileNotParen rest (out ++ [c])

/-- The `.` branch of `_re_to_rpn`: pop equal-precedence `.` operators. -/
def popWhileDot : List Char → Str → List Char × Str
  | [], out => ([], out)
  | c :: rest, out =>
    if c = '.' then popWhileDot rest (out ++ [c]) else (c :: rest, out)

/-- The `)` branch of `_re_to_rpn`: pop to the matching `(` and drop it.
Indexing an empty stack raises IndexError. -/
def popUntilParen : List Char → Str → Except PyErr (List Char × Str)
  | [], _ => .error .idxErr
  | c :: rest, out =>
    if c = '(' then .ok (rest, out) else popUntilParen rest (out ++ [c])

/-- One character of the `_re_to_rpn` scan; the pair is (operator stack, output). -/
def rpnStep (acc : List Char × Str) (x : Char) : Except PyErr (List Char × Str) :=
  if x = '+' then
    let p := popWhileNotParen acc.1 acc.2
    .ok ('+' :: p.1, p.2)
  else if x = '.' then
    let p := popWhileDot acc.1 acc.2
    .ok ('.' :: p.1, p.2)
  else if x = '(' then
    .ok ('(' :: acc.1, acc.2)
  else if x = ')' then
    popUntilParen acc.1 acc.2
  else
    .ok (acc.1, acc.2 ++ [x])

def rpnScan : List Char → List Char × Str → Except PyErr (List Char × Str)
  | [], acc => .ok acc
  | x :: xs, acc =>
    match rpnStep acc x with
    | .ok acc2 => rpnScan xs acc2
    | .error e => .error e

/-- `_re_to_rpn`: the final flush empties the operator stack onto the output
in pop order. -/
def reToRpn (re : Str) : Except PyErr Str :=
  match rpnScan re ([], []) with
  | .ok acc => .ok (acc.2 ++ acc.1)
  | .error e => .error e

/-- `REParser._create_automaton_empty`; the extra `Nat` is `self.state_counter`. -/
def createAutomatonEmpty (c : Nat) : FiniteAutomaton × Nat :=
  let state := natToStr c
  (⟨state, [state], [], [], []⟩, c + 1)

/-- `REParser._create_automaton_lambda`. -/
def createAutomatonLambda (c : Nat) : FiniteAutomaton × Nat :=
  let state := natToStr c
  (⟨state, [state], [], [], [state]⟩, c + 1)

/-- `REParser._create_automaton_symbol`. -/
def createAutomatonSymbol (symbol : Str) (c : Nat) : FiniteAutomaton × Nat :=
  let s1 := natToStr c
  let s2 := natToStr (c + 1)
  (⟨s1, [s1, s2], [some symbol], [(s1, [(some symbol, [s2])])], [s2]⟩, c + 2)

/-- The `add_lambda` helper of `_create_automaton_star`: ensure the source row
exists and append the destination to its λ-list (the source appends
unconditionally, so duplicates are possible). -/
def addLambda (tr : TTab) (src dst : Str) : TTab :=
  let row := (dget tr src).getD []
  match dget row (some lamS) with
  | some existing => dset tr src (dset row (some lamS) (existing ++ [dst]))
  | none => dset tr src (dset row (some lamS) [dst])

/-- `REParser._create_automaton_star`: the value of the returned automaton.
The source's `{s: dict(t) ...}` row copy is shallow, so each λ destination
list that already exists in a copied row is the same object as in the input
automaton's table; the `add_lambda` appends below therefore also mutate the
input exactly when the source row pre-existed with a λ key.  The returned
value is unaffected by the sharing; the effect on the input's table is
threaded explicitly by `createAutomatonStarFull`. -/
def createAutomatonStar (a : FiniteAutomaton) (c : Nat) : FiniteAutomaton × Nat :=
  let newInit := natToStr c
  let newFin := natToStr (c + 1)
  let states := sunion a.states [newInit, newFin]
  let t1 := addLambda a.transitions newInit a.initial_state
  let t2 := addLambda t1 newInit newFin
  let t3 := a.final_states.foldl (fun tr f => addLambda tr f a.initial_state) t2
  let t4 := a.final_states.foldl (fun tr f => addLambda tr f newFin) t3
  (⟨newInit, states, a.symbols, t4, [newFin]⟩, c + 2)

/-- The effect of one `add_lambda` call on the star's INPUT automaton: the
shallow `dict(t)` row copy shares the λ destination list object with the input
whenever the input's row already has a λ key (a row or λ-list created fresh by
`add_lambda` itself belongs only to the copy, and nothing ever rebinds an
existing λ key), so exactly then the append reaches the input's table. -/
def addLambdaSelf (tr : TTab) (src dst : Str) : TTab :=
  match dget tr src with
  | some row =>
    match dget row (some lamS) with
    | some existing => dset tr src (dset row (some lamS) (existing ++ [dst]))
    | none => tr
  | none => tr

/-- `REParser._create_automaton_star` with the observable effect on the INPUT
automaton's `transitions` threaded explicitly: the first component is the
(returned automaton, counter) pair, the second the input's transition table
after the call, replaying the same `add_lambda` sequence through the shared
λ destination lists. -/
def createAutomatonStarFull (a : FiniteAutomaton) (c : Nat) :
    (FiniteAutomaton × Nat) × TTab :=
  let newInit := natToStr c
  let newFin := natToStr (c + 1)
  let m1 := addLambdaSelf a.transitions newInit a.initial_state
  let m2 := addLambdaSelf m1 newInit newFin
  let m3 := a.final_states.foldl (fun tr f => addLambdaSelf tr f a.initial_state) m2
  let m4 := a.final_states.foldl (fun tr f => addLambdaSelf tr f newFin) m3
  (createAutomatonStar a c, m4)

/-- The state offset `_create_automaton_union` computes from its first operand:
one more than the largest integer-named state (0 when there is none). -/
def unionOffset (a1 : FiniteAutomaton) : Nat :=
  let ints := (a1.states.filter (fun s => isDigitStr s)).map strToNat
  if ints.isEmpty then 0 else listMax ints + 1

/-- Python `offset_state`: rename a numeric state by adding the offset. -/
def offsetState (off : Nat) (s : Str) : Str :=
  natToStr (strToNat s + off)

/-- Offset a whole transition table (used by union and concat). -/
def offsetTTab (off : Nat) (tr : TTab) : TTab :=
  tr.map (fun e =>
    (offsetState off e.1, e.2.map (fun d => (d.1, d.2.map (offsetState off)))))

/-- Python `dict.update`: write every entry of `m` into `d`. -/
def dupdate {κ α : Type} [DecidableEq κ] (d m : List (κ × α)) : List (κ × α) :=
  m.foldl (fun acc e => dset acc e.1 e.2) d

/-- `REParser._create_automaton_union`.  Note that the counter is returned
unchanged: the union rule allocates none of its states from it.  The source
builds the result on `automaton1.transitions.copy()`, a shallow copy: the
result shares `automaton1`'s row dicts and destination lists by reference
(without mutating them here), an aliasing that a value embedding cannot
express. -/
def createAutomatonUnion (a1 a2 : FiniteAutomaton) (c : Nat) : FiniteAutomaton × Nat :=
  let off := unionOffset a1
  let a2states := ssetOf (a2.states.map (offsetState off))
  let a2init := offsetState off a2.initial_state
  let a2finals := ssetOf (a2.final_states.map (offsetState off))
  let a2trans := offsetTTab off a2.transitions
  let newInit := natToStr (off + listMax ((a2states.filter (fun s => isDigitStr s)).map strToNat) + 1)
  let states := sunion (sunion a1.states a2states) [newInit]
  let symbols := sunion a1.symbols a2.symbols
  let finals := sunion a1.final_states a2finals
  let trans0 := dupdate a1.transitions a2trans
  let trans := dset trans0 newInit [(some lamS, [a1.initial_state, a2init])]
  (⟨newInit, states, symbols, trans, finals⟩, c)

/-- The λ-link of `_create_automaton_concat`: ensure row and λ-list exist for a
final state of the first operand and append the second operand's initial state
if it is not already there. -/
def concatLink (tr : TTab) (f dst : Str) : TTab :=
  let row := (dget tr f).getD []
  let lst := (dget row (some lamS)).getD []
  let lst2 := if dst ∈ lst then lst else lst ++ [dst]
  dset tr f (dset row (some lamS) lst2)

/-- The state offset `_create_automaton_concat` computes (no digit filter:
the source applies `int` to every state name of the first operand). -/
def concatOffset (a1 : FiniteAutomaton) : Nat :=
  let ints := a1.states.map strToNat
  if ints.isEmpty then 0 else listMax ints + 1

/-- `REParser._create_automaton_concat`. -/
def createAutomatonConcat (a1 a2 : FiniteAutomaton) (c : Nat) : FiniteAutomaton × Nat :=
  let off := concatOffset a1
  let a2trans := offsetTTab off a2.transitions
  let states := sunion a1.states (ssetOf (a2.states.map (offsetState off)))
  let symbols := sunion a1.symbols a2.symbols
  let trans0 := dupdate a1.transitions a2trans
  let a2init := offsetState off a2.initial_state
  let trans := a1.final_states.foldl (fun tr f => concatLink tr f a2init) trans0
  let finals := ssetOf (a2.final_states.map (offsetState off))
  (⟨a1.initial_state, states, symbols, trans, finals⟩, c)

/-- One character of the postfix evaluation in `REParser.create_automaton`;
the pair is (automaton stack, state counter).  Popping an empty stack raises
IndexError. -/
def evalRpnStep (acc : List FiniteAutomaton × Nat) (x : Char) :
    Except PyErr (List FiniteAutomaton × Nat) :=
  if x = '*' then
    match acc.1 with
    | [] => .error .idxErr
    | a :: rest =>
      let p := createAutomatonStar a acc.2
      .ok (p.1 :: rest, p.2)
  else if x = '+' then
    match acc.1 with
    | a2 :: a1 :: rest =>
      let p := createAutomatonUnion a1 a2 acc.2
      .ok (p.1 :: rest, p.2)
    | _ => .error .idxErr
  else if x = '.' then
    match acc.1 with
    | a2 :: a1 :: rest =>
      let p := createAutomatonConcat a1 a2 acc.2
      .ok (p.1 :: rest, p.2)
    | _ => .error .idxErr
  else if x = 'λ' then
    let p := createAutomatonLambda acc.2
    .ok (p.1 :: acc.1, p.2)
  else
    let p := createAutomatonSymbol [x] acc.2
    .ok (p.1 :: acc.1, p.2)

def evalRpn : List Char → List FiniteAutomaton × Nat → Except PyErr (List FiniteAutomaton × Nat)
  | [], acc => .ok acc
  | x :: xs, acc =>
    match evalRpnStep acc x with
    | .ok acc2 => evalRpn xs acc2
    | .error e => .error e

/-- `REParser.create_automaton` on a freshly constructed `REParser` (the
counter starts at 0 and is reset to 0 before the evaluation loop).  The final
`stack.pop()` returns the most recently pushed automaton and raises IndexError
on an empty stack. -/
def createAutomaton (re : Str) : Except PyErr FiniteAutomaton :=
  if re.isEmpty then .ok (createAutomatonEmpty 0).1
  else
    match reToRpn re with
    | .error e => .error e
    | .ok rpn =>
      match evalRpn rpn ([], 0) with
      | .error e => .error e
      | .ok acc =>
        match acc.1 with
        | [] => .error .idxErr
        | a :: _ => .ok a

/-- The alphabet filter at the top of `to_deterministic`: drop `None` and `"λ"`. -/
def realSyms (syms : List Symb) : List Symb :=
  syms.foldl (fun acc s => if s = none ∨ s = some lamS then acc else sinsert acc s) []

/-- Python `sorted` on a list of strings (code-point lexicographic order). -/
def sortStrs (l : List Str) : List Str :=
  List.insertionSort (fun s t : Str => s ≤ t) l

/-- Python `"_".join`. -/
def joinUnderscore : List Str → Str
  | [] => []
  | [s] => s
  | s :: rest => s ++ '_' :: joinUnderscore rest

/-- The `name_state` helper of `to_deterministic`: the empty set is the dead
label `"∅"`, any other set is the sorted underscore-join of its members. -/
def nameState (l : List Str) : Str :=
  if l.isEmpty then deadS else joinUnderscore (sortStrs l)

/-- The loop state of the subset construction: the worklist of unprocessed
DFA states (each a set of source states), the registered DFA state names, the
DFA transition table, and the DFA final-state names. -/
structure DetState where
  unchecked : List (List Str)
  dfaStates : List Str
  dfaTrans : TTab
  dfaFinals : List Str
deriving Repr

/-- The inner `for symbol in symbols` body of `to_deterministic`: compute the
successor set, record the transition, and register/enqueue the successor name
when it is new (marking it final when it intersects the original finals). -/
def detSymStep (a : FiniteAutomaton) (current : List Str) (currentName : Str)
    (st : DetState) (sym : Symb) : DetState :=
  let nextSet := moveClosure a current sym
  let nextName := nameState nextSet
  let row := (dget st.dfaTrans currentName).getD []
  let trans2 := dset st.dfaTrans currentName (dset row sym [nextName])
  if nextName ∈ st.dfaStates then
    { st with dfaTrans := trans2 }
  else
    { unchecked := nextSet :: st.unchecked,
      dfaStates := st.dfaStates ++ [nextName],
      dfaTrans := trans2,
      dfaFinals :=
        if nextSet.any (fun s => decide (s ∈ a.final_states)) then
          st.dfaFinals ++ [nextName]
        else st.dfaFinals }

/-- The `while unchecked_states` worklist of `to_deterministic`.  The Python
list used as a stack (append/pop at the end) is embedded as a cons-list popped
at the head: the same last-in-first-out discipline. -/
def detLoop (a : FiniteAutomaton) (syms : List Symb) : Nat → DetState → DetState
  | 0, st => st
  | fuel + 1, st =>
    match st.unchecked with
    | [] => st
    | current :: rest =>
      let currentName := nameState current
      let trans1 :=
        if (dget st.dfaTrans currentName).isSome then st.dfaTrans
        else dset st.dfaTrans currentName []
      let st1 : DetState := ⟨rest, st.dfaStates, trans1, st.dfaFinals⟩
      detLoop a syms fuel (syms.foldl (detSymStep a current currentName) st1)

/-- All destination states mentioned anywhere in a transition table. -/
def transDests (tr : TTab) : List Str :=
  (tr.map (fun row => (row.2.map (fun e => e.2)).flatten)).flatten

/-- Every state that a subset-construction set can mention: the initial state
together with every destination in the table. -/
def detUniverse (a : FiniteAutomaton) : List Str :=
  a.initial_state :: transDests a.transitions

/-- Enough fuel for the worklist: each iteration pops one entry and each
registered name is enqueued at most once, and there are at most
`2 ^ |universe|` distinct canonical names. -/
def detFuel (a : FiniteAutomaton) : Nat :=
  2 ^ (detUniverse a).length + 1

/-- The initial worklist state of `to_deterministic`: the closure of the
initial state is registered, enqueued, and marked final when it intersects the
original final states. -/
def detStart (a : FiniteAutomaton) : DetState :=
  ⟨[lambdaClosure a [a.initial_state]],
   [nameState (lambdaClosure a [a.initial_state])],
   [],
   if (lambdaClosure a [a.initial_state]).any (fun s => decide (s ∈ a.final_states)) then
     [nameState (lambdaClosure a [a.initial_state])]
   else []⟩

/-- The worklist state after the `while unchecked_states` loop finishes. -/
def detFinalState (a : FiniteAutomaton) : DetState :=
  detLoop a (realSyms a.symbols) (detFuel a) (detStart a)

/-- `FiniteAutomaton.to_deterministic`. -/
def toDeterministic (a : FiniteAutomaton) : FiniteAutomaton :=
  ⟨nameState (lambdaClosure a [a.initial_state]),
   (detFinalState a).dfaStates,
   realSyms a.symbols,
   (detFinalState a).dfaTrans,
   (detFinalState a).dfaFinals⟩

/-- The alphabet normalisation of `to_minimized`: the sorted real symbols. -/
def minSymbols (syms : List Symb) : List Str :=
  sortStrs (ssetOf (syms.filterMap (fun s =>
    match s with
    | none => none
    | some x => if x = lamS then none else some x)))

/-- Number of destination entries of one state's row, restricted to `syms`
(how many appends processing this state can perform in the reachability scan). -/
def rowCount (tr : TTab) (syms : List Str) (st : Str) : Nat :=
  (syms.map (fun sym => ((tlook tr st (some sym)).getD []).length)).sum

/-- Every state the reachability scan can ever enqueue. -/
def bfsUniverse (tr : TTab) (init : Str) : List Str :=
  init :: deadS :: transDests tr

def bfsFuel (tr : TTab) (syms : List Str) (init : Str) : Nat :=
  ((bfsUniverse tr init).map (rowCount tr syms)).sum + 3

/-- The breadth-first reachability loop of `to_minimized` (queue popped at the
front).  A missing or empty destination set enqueues the dead state, guarded by
membership in both the reachable set and the queue. -/
def bfsLoop (tr : TTab) (syms : List Str) : Nat → List Str → List Str → List Str
  | 0, _, reachable => reachable
  | fuel + 1, queue, reachable =>
    match queue with
    | [] => reachable
    | st :: rest =>
      if st ∈ reachable then bfsLoop tr syms fuel rest reachable
      else
        let r2 := reachable ++ [st]
        let q2 := syms.foldl (fun q sym =>
          match tlook tr st (some sym) with
          | some dests =>
            if dests.isEmpty then
              if deadS ∈ r2 ∨ deadS ∈ q then q else q ++ [deadS]
            else
              dests.foldl (fun q3 d => if d ∈ r2 then q3 else q3 ++ [d]) q
          | none => if deadS ∈ r2 ∨ deadS ∈ q then q else q ++ [deadS]) rest
        bfsLoop tr syms fuel q2 r2

/-- The reachable-state set computed at the top of `to_minimized`. -/
def reachableOf (a : FiniteAutomaton) : List Str :=
  let syms := minSymbols a.symbols
  bfsLoop a.transitions syms (bfsFuel a.transitions syms a.initial_state)
    [a.initial_state] []

/-- The in-place completion of the input's transition table when the dead
state is reachable: ensure a row for `"∅"` and a self-loop default on every
symbol (`setdefault` appends missing keys in symbol order). -/
def addDeadRows (tr : TTab) (syms : List Str) : TTab :=
  let row := (dget tr deadS).getD []
  let row2 := syms.foldl (fun r sym =>
    if (dget r (some sym)).isSome then r else r ++ [(some sym, [deadS])]) row
  dset tr deadS row2

/-- `self.transitions` after `to_minimized` returns: the source mutates the
input automaton's table exactly when the dead state became reachable. -/
def minSelfTTab (a : FiniteAutomaton) : TTab :=
  let syms := minSymbols a.symbols
  if deadS ∈ reachableOf a then addDeadRows a.transitions syms else a.transitions

/-- The single-destination table `dtrans` of `to_minimized`: first listed
destination when one exists, otherwise the dead state. -/
def dtransOf (tr2 : TTab) (syms : List Str) (states : List Str) : TTab :=
  states.map (fun s => (s, syms.map (fun sym =>
    (some sym,
      match tlook tr2 s (some sym) with
      | some dests => if dests.isEmpty then [deadS] else [dests.headI]
      | none => [deadS]))))

/-- The destination read `dtrans[st][sym][0]`. -/
def dtransDest (dtr : TTab) (st : Str) (sym : Str) : Str :=
  ((tlook dtr st (some sym)).getD []).headI

/-- `build_class_map` as a function: the index of the (unique, by disjointness)
block containing a state. -/
def classOf (parts : List (List Str)) (s : Str) : Nat :=
  parts.findIdx (fun p => decide (s ∈ p))

/-- The refinement signature of a state: the block index of its destination
for each symbol, in the fixed sorted symbol order. -/
def sigOf (dtr : TTab) (syms : List Str) (parts : List (List Str)) (st : Str) : List Nat :=
  syms.map (fun sym => classOf parts (dtransDest dtr st sym))

/-- `groups.setdefault(sig, set()).add(st)`. -/
def groupInsert (groups : List (List Nat × List Str)) (sig : List Nat) (st : Str) :
    List (List Nat × List Str) :=
  match dget groups sig with
  | some g => dset groups sig (sinsert g st)
  | none => groups ++ [(sig, [st])]

/-- Refine one block: group its states (in sorted order) by signature; a block
with a single group is kept as is, otherwise the groups replace it and the
pass is marked as changed. -/
def refinePart (dtr : TTab) (syms : List Str) (parts : List (List Str))
    (part : List Str) : List (List Str) × Bool :=
  let groups := (sortStrs part).foldl
    (fun gs st => groupInsert gs (sigOf dtr syms parts st) st) []
  if groups.length = 1 then ([part], false) else (groups.map (fun g => g.2), true)

/-- One full refinement pass over all blocks. -/
def refinePass (dtr : TTab) (syms : List Str) (parts : List (List Str)) :
    List (List Str) × Bool :=
  parts.foldl (fun acc part =>
    let r := refinePart dtr syms parts part
    (acc.1 ++ r.1, acc.2 || r.2)) ([], false)

/-- The `while changed` refinement loop.  Each changed pass strictly increases
the number of blocks, which is bounded by the number of states, so the fuel
passed by `toMinimizedFull` (number of states + 1) always reaches the
fixpoint. -/
def refineLoop (dtr : TTab) (syms : List Str) : Nat → List (List Str) → List (List Str)
  | 0, parts => parts
  | fuel + 1, parts =>
    let r := refinePass dtr syms parts
    if r.2 then refineLoop dtr syms fuel r.1 else r.1

/-- Block name `"C{i}"`. -/
def className (i : Nat) : Str :=
  'C' :: natToStr i

/-- The single-destination table `dtrans` that `to_minimized` builds over the
reachable states from the (possibly dead-completed) transition table. -/
def minDtr (a : FiniteAutomaton) : TTab :=
  dtransOf (minSelfTTab a) (minSymbols a.symbols) (reachableOf a)

/-- The reachable final states (`finals` in `to_minimized`). -/
def minFinalsOf (a : FiniteAutomaton) : List Str :=
  a.final_states.filter (fun s => decide (s ∈ reachableOf a))

/-- The initial partition: the non-final block then the final block, each only
when nonempty. -/
def minParts0 (a : FiniteAutomaton) : List (List Str) :=
  let finals := minFinalsOf a
  let nonfinals := (reachableOf a).filter (fun s => decide (s ∉ finals))
  (if nonfinals.isEmpty then [] else [nonfinals]) ++
    (if finals.isEmpty then [] else [finals])

/-- The partition at the refinement fixpoint. -/
def minParts (a : FiniteAutomaton) : List (List Str) :=
  refineLoop (minDtr a) (minSymbols a.symbols) ((reachableOf a).length + 1) (minParts0 a)

/-- `FiniteAutomaton.to_minimized`, threading the observable effect on
`self.transitions` explicitly: the first component is the returned minimal
automaton, the second is the input's transition table after the call. -/
def toMinimizedFull (a : FiniteAutomaton) : FiniteAutomaton × TTab :=
  let syms := minSymbols a.symbols
  let dtr := minDtr a
  let finals := minFinalsOf a
  let parts := minParts a
  let minStates := (List.range parts.length).map className
  let minInitial := className (classOf parts a.initial_state)
  let minFinals := ((List.range parts.length).filter (fun i =>
    (parts.getD i []).any (fun s => decide (s ∈ finals)))).map className
  let minTrans := (List.range parts.length).map (fun i =>
    (className i, syms.map (fun sym =>
      (some sym, [className (classOf parts (dtransDest dtr (parts.getD i []).headI sym))]))))
  (⟨minInitial, minStates, syms.map some, minTrans, minFinals⟩, minSelfTTab a)

/-- The returned automaton of `to_minimized`. -/
def toMinimized (a : FiniteAutomaton) : FiniteAutomaton :=
  (toMinimizedFull a).1

/-! Proof-support definitions: reachability predicates over the embedded
tables, decidable validity predicates used as theorem hypotheses, and small
helper functions used to state concrete counterexamples. -/

/-- One λ-edge of a transition table. -/
inductive LamStep (tr : TTab) : Str → Str → Prop where
  | mk (s d : Str) : d ∈ lamDests tr s → LamStep tr s d

/-- λ-reachability from a set of start states. -/
def LamReach (tr : TTab) (S : List Str) (x : Str) : Prop :=
  ∃ s ∈ S, Relation.ReflTransGen (LamStep tr) s x

/-- The family of subset-construction sets the worklist of `to_deterministic`
explores: the initial closure and everything obtained from it by a move on a
real alphabet symbol. -/
inductive DetReach (a : FiniteAutomaton) : List Str → Prop where
  | start : DetReach a (lambdaClosure a [a.initial_state])
  | step (S : List Str) (sym : Symb) : DetReach a S → sym ∈ realSyms a.symbols →
      DetReach a (moveClosure a S sym)

/-- A state name on which the canonical sorted-join naming of
`to_deterministic` is collision-free: nonempty, without the join separator,
and different from the dead label. -/
def cleanNameB (s : Str) : Bool :=
  !s.isEmpty && !s.contains '_' && !(s == deadS)

/-- The structural invariants of the Automaton Model used as hypotheses for
the subset construction: the initial state is a state, every transition
destination is a state, and every non-epsilon transition symbol is in the
alphabet. -/
def nfaValidB (a : FiniteAutomaton) : Bool :=
  decide (a.initial_state ∈ a.states) &&
  a.transitions.all (fun e => e.2.all (fun d =>
    d.2.all (fun x => decide (x ∈ a.states)) &&
    (d.1 == none || d.1 == some lamS || decide (d.1 ∈ a.symbols))))

/-- Every state name of the automaton is collision-free for sorted-join
naming. -/
def cleanStatesB (a : FiniteAutomaton) : Bool :=
  a.states.all cleanNameB

/-- The transition of a deterministic total table: exactly one destination,
and that destination is a known state. -/
def destOkB (tr : TTab) (states : List Str) (s : Str) (sym : Str) : Bool :=
  match tlook tr s (some sym) with
  | some [d] => decide (d ∈ states)
  | _ => false

/-- A deterministic, total automaton in the sense of the Minimizer's
precondition: valid Model (with the duplicate-freeness that Python sets give
for free), every transition key a real alphabet symbol (no epsilon rows), and
for every state and every real symbol exactly one destination, which is a
state.  The reserved dead name `∅` may occur as an ordinary state. -/
def dfaValidB (a : FiniteAutomaton) : Bool :=
  decide (a.initial_state ∈ a.states) &&
  decide (a.states.Nodup) &&
  decide (a.final_states.Nodup) &&
  a.final_states.all (fun s => decide (s ∈ a.states)) &&
  a.transitions.all (fun e => e.2.all (fun d =>
    d.1.any (fun x => decide (x ∈ minSymbols a.symbols)))) &&
  a.states.all (fun s => (minSymbols a.symbols).all (fun sym =>
    destOkB a.transitions a.states s sym))

/-- Some reachable state is missing a transition on some alphabet symbol (the
transition function is partial on the reachable part). -/
def minPartialB (a : FiniteAutomaton) : Bool :=
  (reachableOf a).any (fun s => (minSymbols a.symbols).any (fun sym =>
    match tlook a.transitions s (some sym) with
    | some dests => dests.isEmpty
    | none => true))

/-- Every destination set of the table has at most one element (deterministic
table shape). -/
def detTableB (tr : TTab) : Bool :=
  tr.all (fun e => e.2.all (fun d => decide (d.2.length ≤ 1)))

/-- Helper for a concrete counterexample: the postfix evaluation reached a
state in which the star rule is about to allocate, as its fresh initial state,
a name that already belongs to its operand. -/
def starCallCollides (r : Except PyErr (List FiniteAutomaton × Nat)) : Bool :=
  match r with
  | .ok (u :: _, c) => decide (natToStr c ∈ u.states)
  | _ => false

/-- Number of states of a compilation result (0 on error). -/
def statesCount (r : Except PyErr FiniteAutomaton) : Nat :=
  match r with
  | .ok a => a.states.length
  | .error _ => 0

/-- Acceptance through a compilation result (false on error). -/
def acceptsE (r : Except PyErr FiniteAutomaton) (w : List Str) : Bool :=
  match r with
  | .ok a => accepts a w
  | .error _ => false

/-- The name-collision automaton refuting language preservation of the subset
construction: the state literally named `"a_b"` shares its canonical name with
the two-element set of the states named `"a"` and `"b"`. -/
def cexN : FiniteAutomaton :=
  ⟨str "q0", [str "q0", str "a", str "b", str "a_b"],
   [some (str "x"), some (str "y")],
   [(str "q0", [(some (str "x"), [str "a", str "b"]), (some (str "y"), [str "a_b"])])],
   [str "a"]⟩

/-- A one-state automaton with an alphabet symbol but no transitions: its
transition function is partial, so `to_minimized` mutates its table. -/
def partialA : FiniteAutomaton :=
  ⟨str "0", [str "0"], [some (str "a")], [], []⟩

/-- The symbol automaton for `a` as built by the compiler (counter 0). -/
def symA : FiniteAutomaton := (createAutomatonSymbol (str "a") 0).1

/-- The symbol automaton for `b` as built by the compiler (counter 2). -/
def symB : FiniteAutomaton := (createAutomatonSymbol (str "b") 2).1

/-- How many elements of `l` are not yet in `C`. -/
def countMissing (l C : List Str) : Nat :=
  (l.filter (fun x => decide (x ∉ C))).length

/-- Termination measure of the closure worklist: stack length plus the
destinations not yet absorbed. -/
def closureMu (tr : TTab) (stack closure : List Str) : Nat :=
  stack.length + countMissing (transDests tr) closure

/-- Termination measure of the subset-construction worklist. -/
def detMu (a : FiniteAutomaton) (st : DetState) : Nat :=
  (2 ^ (detUniverse a).length - st.dfaStates.length) + st.unchecked.length

/-- Termination measure of the reachability scan of `to_minimized`. -/
def bfsMu (tr : TTab) (syms : List Str) (init : Str) (queue reachable : List Str) : Nat :=
  queue.length +
  (if deadS ∈ reachable ∨ deadS ∈ queue then 0 else 1) +
  (((bfsUniverse tr init).filter (fun x => decide (x ∉ reachable))).map
    (rowCount tr syms)).sum

/-- The states the reachability scan of `to_minimized` must discover: the
initial state, every listed destination of a reachable state, and the dead
state as soon as some reachable state has a missing or empty destination set
on some alphabet symbol. -/
inductive BfsReach (tr : TTab) (syms : List Str) (init : Str) : Str → Prop where
  | start : BfsReach tr syms init init
  | step (s d : Str) (sym : Str) (ds : List Str) : BfsReach tr syms init s →
      sym ∈ syms → tlook tr s (some sym) = some ds → d ∈ ds →
      BfsReach tr syms init d
  | dead (s : Str) (sym : Str) : BfsReach tr syms init s → sym ∈ syms →
      (tlook tr s (some sym) = none ∨ tlook tr s (some sym) = some []) →
      BfsReach tr syms init deadS

instance {ε α : Type} [DecidableEq ε] [DecidableEq α] : DecidableEq (Except ε α) := fun a b =>
  match a, b with
  | .ok x, .ok y =>
    match decEq x y with
    | isTrue h => isTrue (by rw [h])
    | isFalse h => isFalse (by intro hc; cases hc; exact h rfl)
  | .error x, .error y =>
    match decEq x y with
    | isTrue h => isTrue (by rw [h])
    | isFalse h => isFalse (by intro hc; cases hc; exact h rfl)
  | .ok _, .error _ => isFalse (by intro hc; cases hc)
  | .error _, .ok _ => isFalse (by intro hc; cases hc)
/-- A row of the subset construction is complete for the processed symbols:
each processed symbol maps to the singleton of the canonical name of the
successor set, that name is registered, and only processed symbols occur. -/
def rowComplete (a : FiniteAutomaton) (row : Row) (S : List Str) (done : List Symb)
    (states : List Str) : Prop :=
  (∀ sym ∈ done, dget row sym = some [nameState (moveClosure a S sym)] ∧
    nameState (moveClosure a S sym) ∈ states) ∧
  (∀ sym, dget row sym ≠ none → sym ∈ done)

/-- The invariant of the subset-construction worklist between iterations. -/
def DetInv (a : FiniteAutomaton) (st : DetState) : Prop :=
  (∀ T ∈ st.unchecked, DetReach a T ∧ nameState T ∈ st.dfaStates ∧
    dget st.dfaTrans (nameState T) = none) ∧
  (st.unchecked.map nameState).Nodup ∧
  (∀ m ∈ st.dfaStates, ∃ T, DetReach a T ∧ m = nameState T ∧
    (m ∈ st.dfaFinals ↔ ∃ x ∈ T, x ∈ a.final_states)) ∧
  (∀ m ∈ st.dfaFinals, m ∈ st.dfaStates) ∧
  (∀ m row, dget st.dfaTrans m = some row → m ∈ st.dfaStates ∧
    ∃ T, DetReach a T ∧ m = nameState T ∧
      rowComplete a row T (realSyms a.symbols) st.dfaStates) ∧
  st.dfaStates.Nodup ∧
  (∀ m ∈ st.dfaStates, dget st.dfaTrans m = none → m ∈ st.unchecked.map nameState)

/-- The invariant inside one iteration of the worklist, while the row of the
popped set `S` is being filled symbol by symbol (`done` is the processed
prefix of the alphabet). -/
def DetMid (a : FiniteAutomaton) (S : List Str) (done : List Symb) (st : DetState) : Prop :=
  (∀ T ∈ st.unchecked, DetReach a T ∧ nameState T ∈ st.dfaStates ∧
    dget st.dfaTrans (nameState T) = none) ∧
  (st.unchecked.map nameState).Nodup ∧
  (∀ m ∈ st.dfaStates, ∃ T, DetReach a T ∧ m = nameState T ∧
    (m ∈ st.dfaFinals ↔ ∃ x ∈ T, x ∈ a.final_states)) ∧
  (∀ m ∈ st.dfaFinals, m ∈ st.dfaStates) ∧
  (∀ m row, m ≠ nameState S → dget st.dfaTrans m = some row → m ∈ st.dfaStates ∧
    ∃ T, DetReach a T ∧ m = nameState T ∧
      rowComplete a row T (realSyms a.symbols) st.dfaStates) ∧
  (∃ row, dget st.dfaTrans (nameState S) = some row ∧
    rowComplete a row S done st.dfaStates) ∧
  nameState S ∈ st.dfaStates ∧
  st.dfaStates.Nodup ∧
  (∀ m ∈ st.dfaStates, dget st.dfaTrans m = none → m ∈ st.unchecked.map nameState)

/-- A small clean-named automaton with a λ-transition, used to witness the
language-preservation theorem of the subset construction. -/
def wA : FiniteAutomaton :=
  ⟨str "p", [str "p", str "q"], [some (str "x")],
   [(str "p", [(some lamS, [str "q"]), (some (str "x"), [str "q"])])],
   [str "q"]⟩

/-- The invariant of the reachability scan: every obligation of an already
reachable state is either satisfied in `reachable` or still pending in the
queue. -/
def BfsInv (tr : TTab) (syms : List Str) (queue reachable : List Str) : Prop :=
  ∀ s ∈ reachable, ∀ sym ∈ syms,
    (∀ ds, tlook tr s (some sym) = some ds → ∀ d ∈ ds, d ∈ reachable ∨ d ∈ queue) ∧
    ((tlook tr s (some sym) = none ∨ tlook tr s (some sym) = some []) →
      deadS ∈ reachable ∨ deadS ∈ queue)

/-- The invariant of the signature-grouping fold inside one refinement step:
groups are nonempty, hold exactly the processed states keyed by their
signature, have pairwise distinct keys, and duplicate-free members. -/
def GroupsInv (dtr : TTab) (syms : List Str) (parts : List (List Str))
    (processed : List Str) (groups : List (List Nat × List Str)) : Prop :=
  (∀ kg ∈ groups, kg.2 ≠ []) ∧
  (∀ kg ∈ groups, ∀ s ∈ kg.2, s ∈ processed ∧ sigOf dtr syms parts s = kg.1) ∧
  (∀ s ∈ processed, ∃ kg ∈ groups, s ∈ kg.2) ∧
  (groups.map Prod.fst).Nodup ∧
  (∀ kg ∈ groups, kg.2.Nodup)

/-- The invariant of the partition list maintained by the refinement loop:
blocks are nonempty duplicate-free subsets of the reachable states, cover
them, are pairwise disjoint, and each block is final-homogeneous. -/
def PartsInv (reach finals : List Str) (parts : List (List Str)) : Prop :=
  (∀ p ∈ parts, p ≠ []) ∧
  (∀ p ∈ parts, ∀ s ∈ p, s ∈ reach) ∧
  (∀ s ∈ reach, ∃ p ∈ parts, s ∈ p) ∧
  List.Pairwise (fun p q => ∀ x ∈ p, x ∉ q) parts ∧
  (∀ p ∈ parts, p.Nodup) ∧
  (∀ p ∈ parts, (∀ s ∈ p, s ∈ finals) ∨ (∀ s ∈ p, s ∉ finals))

/-! Claim theorems. -/

/-- C8: the automaton compiled from `"(a+b).c"` accepts `"ac"` and `"bc"` and
rejects `"a"`, `"c"` and `"abc"`. -/
theorem compile_union_concat_example :
    (createAutomaton (str "(a+b).c")).isOk = true ∧
    acceptsE (createAutomaton (str "(a+b).c")) [str "a", str "c"] = true ∧
    acceptsE (createAutomaton (str "(a+b).c")) [str "b", str "c"] = true ∧
    acceptsE (createAutomaton (str "(a+b).c")) [str "a"] = false ∧
    acceptsE (createAutomaton (str "(a+b).c")) [str "c"] = false ∧
    acceptsE (createAutomaton (str "(a+b).c")) [str "a", str "b", str "c"] = false := by
  refine ⟨?_, ?_, ?_, ?_, ?_, ?_⟩ <;> decide

/-- C9: compiling the empty expression yields the one-state automaton with no
final states and no transitions, and that automaton rejects every string. -/
theorem compile_empty_regex :
    createAutomaton [] = .ok ⟨['0'], [['0']], [], [], []⟩ ∧
    ∀ w : List Str, accepts ⟨['0'], [['0']], [], [], []⟩ w = false := by
  refine ⟨by decide, ?_⟩
  intro w
  cases w with
  | nil => rfl
  | cons x rest => rfl

/-- C1 (counterexample): on the automaton `cexN`, whose state `"a_b"` shares
its canonical sorted-join name with the set of states `"a"` and `"b"`, the
subset construction changes the language: the one-symbol string `"y"` is
rejected by the automaton but accepted by its determinization. -/
theorem determinize_name_collision_cex :
    accepts cexN [str "y"] = false ∧
    accepts (toDeterministic cexN) [str "y"] = true := by
  refine ⟨?_, ?_⟩ <;> decide

/-- C3 (counterexample): the unbalanced expression `")"` makes compilation
fail with the IndexError kind rather than the SyntaxError kind, and the
unbalanced expression `"(a"` does not fail at all (the dangling parenthesis is
compiled as an ordinary literal symbol). -/
theorem malformed_regex_error_kind_cex :
    createAutomaton (str ")") = .error .idxErr ∧
    createAutomaton (str ")") ≠ .error .synErr ∧
    (createAutomaton (str "(a")).isOk = true := by
  refine ⟨by decide, by decide, by decide⟩

/-- C4 (counterexample): evaluating the postfix form `"ab+"` of `"(a+b)"`
leaves the state counter at 4 while the union automaton on the stack already
owns a state named `"4"`, so the star rule of `"(a+b)*"` allocates its new
initial state as `"4"`: a collision with an operand state.  Consequently the
compiled automaton for `"(a+b)*"` has only the 5 operand states instead of
gaining two fresh ones. -/
theorem star_state_collision_cex :
    starCallCollides (evalRpn (str "ab+") ([], 0)) = true ∧
    statesCount (createAutomaton (str "(a+b)*")) = 5 := by
  refine ⟨?_, ?_⟩ <;> decide

/-- C5 (counterexample): `to_minimized` called on the partial one-state
automaton `partialA` mutates its input: the input's transition table acquires
a dead-state row. -/
theorem minimize_mutates_partial_input_cex :
    minSelfTTab partialA ≠ partialA.transitions ∧
    minSelfTTab partialA = [(deadS, [(some (str "a"), [deadS])])] := by
  refine ⟨by decide, by decide⟩

/-- C7 (counterexample): the union of the two symbol automata for `a` and `b`
has no new final state: its final states are exactly the operand final states
(`"1"` of the first operand and `"5"`, the offset copy of the second
operand's final state), and the final state `"1"` has no outgoing λ-edge at
all, so no λ-edge into a new final state exists. -/
theorem union_no_new_final_cex :
    (createAutomatonUnion symA symB 4).1.final_states = [str "1", str "5"] ∧
    str "1" ∈ symA.states ∧
    str "5" ∈ symB.states.map (offsetState (unionOffset symA)) ∧
    tlook (createAutomatonUnion symA symB 4).1.transitions (str "1") (some lamS) = none ∧
    tlook (createAutomatonUnion symA symB 4).1.transitions (str "5") (some lamS) = none := by
  refine ⟨by decide, by decide, by decide, by decide, by decide⟩

theorem popUntilParen_ne_synErr (st : List Char) :
    ∀ out, popUntilParen st out ≠ .error .synErr := by
  induction st with
  | nil => intro out h; cases h
  | cons c rest ih =>
    intro out
    by_cases hc : c = '('
    · simp [popUntilParen, hc]
    · simp only [popUntilParen, if_neg hc]
      exact ih (out ++ [c])

theorem rpnStep_ne_synErr (acc : List Char × Str) (x : Char) :
    rpnStep acc x ≠ .error .synErr := by
  unfold rpnStep
  split
  · simp
  · split
    · simp
    · split
      · simp
      · split
        · exact popUntilParen_ne_synErr acc.1 acc.2
        · simp

theorem rpnScan_ne_synErr (xs : List Char) :
    ∀ acc, rpnScan xs acc ≠ .error .synErr := by
  induction xs with
  | nil => intro acc h; cases h
  | cons x rest ih =>
    intro acc
    simp only [rpnScan]
    cases hstep : rpnStep acc x with
    | ok acc2 => exact ih acc2
    | error e =>
      intro h
      cases h
      exact rpnStep_ne_synErr acc x (by rw [hstep])

theorem reToRpn_ne_synErr (re : Str) : reToRpn re ≠ .error .synErr := by
  unfold reToRpn
  cases hscan : rpnScan re ([], []) with
  | ok acc => simp
  | error e =>
    intro h
    cases h
    exact rpnScan_ne_synErr re ([], []) (by rw [hscan])

theorem evalRpnStep_ne_synErr (acc : List FiniteAutomaton × Nat) (x : Char) :
    evalRpnStep acc x ≠ .error .synErr := by
  unfold evalRpnStep
  split
  · split <;> simp
  · split
    · split <;> simp
    · split
      · split <;> simp
      · split <;> simp

theorem evalRpn_ne_synErr (xs : List Char) :
    ∀ acc, evalRpn xs acc ≠ .error .synErr := by
  induction xs with
  | nil => intro acc h; cases h
  | cons x rest ih =>
    intro acc
    simp only [evalRpn]
    cases hstep : evalRpnStep acc x with
    | ok acc2 => exact ih acc2
    | error e =>
      intro h
      cases h
      exact evalRpnStep_ne_synErr acc x (by rw [hstep])

/-- C3 (amended): compilation never surfaces the SyntaxError kind for any
input expression; every failure any stage can produce is the IndexError kind
(an empty-stack pop or index), and some malformed inputs do not fail at all. -/
theorem createAutomaton_never_synErr (re : Str) :
    createAutomaton re ≠ .error .synErr := by
  unfold createAutomaton
  split
  · simp
  · cases hr : reToRpn re with
    | error e =>
      simp only [hr]
      intro h
      injection h with h1
      exact reToRpn_ne_synErr re (by rw [hr, h1])
    | ok rpn =>
      simp only [hr]
      cases he : evalRpn rpn ([], 0) with
      | error e =>
        simp only [he]
        intro h
        injection h with h1
        exact evalRpn_ne_synErr rpn ([], 0) (by rw [he, h1])
      | ok acc =>
        simp only [he]
        cases acc.1 with
        | nil => simp
        | cons a rest => simp

/-! Library lemmas about the embedded set and dict operations. -/

theorem mem_sinsert {α : Type} [DecidableEq α] (l : List α) (y x : α) :
    x ∈ sinsert l y ↔ x ∈ l ∨ x = y := by
  unfold sinsert
  split
  · constructor
    · intro h; exact Or.inl h
    · intro h
      cases h with
      | inl h => exact h
      | inr h => subst h; assumption
  · simp

theorem mem_sunion {α : Type} [DecidableEq α] (m : List α) :
    ∀ (l : List α) (x : α), x ∈ sunion l m ↔ x ∈ l ∨ x ∈ m := by
  induction m with
  | nil => intro l x; simp [sunion]
  | cons y rest ih =>
    intro l x
    have : sunion l (y :: rest) = sunion (sinsert l y) rest := rfl
    rw [this, ih, mem_sinsert]
    constructor
    · intro h
      rcases h with (h | h) | h
      · exact Or.inl h
      · subst h; exact Or.inr (List.mem_cons_self _ _)
      · exact Or.inr (List.mem_cons_of_mem _ h)
    · intro h
      rcases h with h | h
      · exact Or.inl (Or.inl h)
      · rcases List.mem_cons.1 h with h | h
        · exact Or.inl (Or.inr h)
        · exact Or.inr h

theorem mem_ssetOf {α : Type} [DecidableEq α] (m : List α) (x : α) :
    x ∈ ssetOf m ↔ x ∈ m := by
  unfold ssetOf
  rw [mem_sunion]
  simp

theorem nodup_sinsert {α : Type} [DecidableEq α] (l : List α) (y : α) (h : l.Nodup) :
    (sinsert l y).Nodup := by
  unfold sinsert
  split
  · exact h
  · rename_i hy
    simpa [List.nodup_append] using ⟨h, hy⟩

theorem nodup_sunion {α : Type} [DecidableEq α] (m : List α) :
    ∀ (l : List α), l.Nodup → (sunion l m).Nodup := by
  induction m with
  | nil => intro l h; exact h
  | cons y rest ih =>
    intro l h
    exact ih (sinsert l y) (nodup_sinsert l y h)

theorem dget_dset {κ α : Type} [DecidableEq κ] (d : List (κ × α)) (k : κ) (v : α) (k2 : κ) :
    dget (dset d k v) k2 = if k = k2 then some v else dget d k2 := by
  induction d with
  | nil =>
    by_cases h : k = k2 <;> simp [dset, dget, h]
  | cons e rest ih =>
    cases e with
    | mk k1 v1 =>
      by_cases he : k1 = k
      · subst he
        simp only [dset, if_pos rfl]
        by_cases h2 : k1 = k2
        · subst h2; simp [dget]
        · simp [dget, h2]
      · simp only [dset, if_neg he]
        by_cases h3 : k1 = k2
        · subst h3
          have hne : ¬ k = k1 := fun hh => he hh.symm
          simp [dget, hne]
        · simp [dget, h3, ih]

theorem dget_dset_self {κ α : Type} [DecidableEq κ] (d : List (κ × α)) (k : κ) (v : α) :
    dget (dset d k v) k = some v := by
  rw [dget_dset]; simp

theorem dget_dset_ne {κ α : Type} [DecidableEq κ] (d : List (κ × α)) (k : κ) (v : α)
    (k2 : κ) (h : k ≠ k2) :
    dget (dset d k v) k2 = dget d k2 := by
  rw [dget_dset]; simp [h]

theorem dget_mem {κ α : Type} [DecidableEq κ] (d : List (κ × α)) (k : κ) (v : α)
    (h : dget d k = some v) : (k, v) ∈ d := by
  induction d with
  | nil => cases h
  | cons e rest ih =>
    cases e with
    | mk k1 v1 =>
      by_cases hk : k1 = k
      · subst hk
        simp [dget] at h
        subst h
        exact List.mem_cons_self _ _
      · simp [dget, hk] at h
        exact List.mem_cons_of_mem _ (ih h)

/-- C7 (amended): the union composition adds one new state, the new initial
state, with λ-edges to the initial states of the first operand and of the
(offset-renamed) second operand; but it adds no new final state: the result's
final states are exactly the final states of the first operand together with
the offset-renamed final states of the second operand, and the counter is
returned unchanged. -/
theorem union_structure (a1 a2 : FiniteAutomaton) (c : Nat) :
    (∀ f, f ∈ (createAutomatonUnion a1 a2 c).1.final_states ↔
      (f ∈ a1.final_states ∨ f ∈ a2.final_states.map (offsetState (unionOffset a1)))) ∧
    dget (createAutomatonUnion a1 a2 c).1.transitions
        (createAutomatonUnion a1 a2 c).1.initial_state =
      some [(some lamS, [a1.initial_state, offsetState (unionOffset a1) a2.initial_state])] ∧
    (createAutomatonUnion a1 a2 c).2 = c := by
  refine ⟨?_, ?_, rfl⟩
  · intro f
    show f ∈ sunion a1.final_states (ssetOf (a2.final_states.map (offsetState (unionOffset a1)))) ↔ _
    rw [mem_sunion, mem_ssetOf]
  · exact dget_dset_self _ _ _

/-! Lemmas about the decimal state-name rendering. -/

theorem natToStrAux_fuel : ∀ (fuel n : Nat), n < fuel → ∀ (fuel2 : Nat), n < fuel2 →
    natToStrAux fuel n = natToStrAux fuel2 n := by
  intro fuel
  induction fuel with
  | zero => intro n h; omega
  | succ f ih =>
    intro n h fuel2 h2
    cases fuel2 with
    | zero => omega
    | succ f2 =>
      simp only [natToStrAux]
      by_cases h10 : n < 10
      · simp [h10]
      · simp only [if_neg h10]
        have hd : n / 10 < n := Nat.div_lt_self (by omega) (by norm_num)
        rw [ih (n / 10) (by omega) f2 (by omega)]

theorem natToStr_unfold (n : Nat) :
    natToStr n = if n < 10 then [digitChar n]
      else natToStr (n / 10) ++ [digitChar (n % 10)] := by
  unfold natToStr
  conv_lhs => rw [natToStrAux]
  by_cases h10 : n < 10
  · simp [h10]
  · simp only [if_neg h10]
    have hd : n / 10 < n := Nat.div_lt_self (by omega) (by norm_num)
    rw [natToStrAux_fuel n (n / 10) (by omega) (n / 10 + 1) (by omega)]

theorem digitChar_toNat (n : Nat) (h : n < 10) : (digitChar n).toNat = 48 + n := by
  interval_cases n <;> rfl

theorem digitChar_isDigit (n : Nat) (h : n < 10) :
    ('0' ≤ digitChar n && digitChar n ≤ '9') = true := by
  interval_cases n <;> decide

theorem strToNat_append_digit (l : Str) (c : Char) :
    strToNat (l ++ [c]) = strToNat l * 10 + (c.toNat - 48) := by
  unfold strToNat
  rw [List.foldl_append]
  rfl

theorem strToNat_natToStr (n : Nat) : strToNat (natToStr n) = n := by
  induction n using Nat.strong_induction_on with
  | _ n ih =>
    rw [natToStr_unfold]
    by_cases h10 : n < 10
    · simp only [if_pos h10]
      show strToNat ([] ++ [digitChar n]) = n
      rw [strToNat_append_digit, digitChar_toNat n h10]
      simp [strToNat]
    · simp only [if_neg h10]
      rw [strToNat_append_digit]
      have hd : n / 10 < n := Nat.div_lt_self (by omega) (by norm_num)
      rw [ih (n / 10) hd, digitChar_toNat (n % 10) (Nat.mod_lt n (by norm_num))]
      omega

theorem natToStr_isDigit (n : Nat) : isDigitStr (natToStr n) = true := by
  induction n using Nat.strong_induction_on with
  | _ n ih =>
    rw [natToStr_unfold]
    by_cases h10 : n < 10
    · simp only [if_pos h10]
      simp [isDigitStr, digitChar_isDigit n h10]
    · simp only [if_neg h10]
      have hd : n / 10 < n := Nat.div_lt_self (by omega) (by norm_num)
      have hrec := ih (n / 10) hd
      simp only [isDigitStr, Bool.and_eq_true, List.all_eq_true] at hrec ⊢
      refine ⟨?_, ?_⟩
      · simp
      · intro c hc
        rcases List.mem_append.1 hc with h | h
        · exact hrec.2 c h
        · simp only [List.mem_singleton] at h
          subst h
          have := digitChar_isDigit (n % 10) (Nat.mod_lt n (by norm_num))
          simpa using this

theorem foldl_max_init_le : ∀ (l : List Nat) (init : Nat), init ≤ l.foldl max init := by
  intro l
  induction l with
  | nil => intro init; exact le_refl _
  | cons y rest ih =>
    intro init
    exact le_trans (le_max_left init y) (ih (max init y))

theorem le_listMax (l : List Nat) (x : Nat) (h : x ∈ l) : x ≤ listMax l := by
  unfold listMax
  have aux : ∀ (l : List Nat) (init : Nat) (x : Nat), x ∈ l → x ≤ l.foldl max init := by
    intro l
    induction l with
    | nil => intro init x h; cases h
    | cons y rest ih =>
      intro init x h
      rcases List.mem_cons.1 h with h | h
      · subst h
        exact le_trans (le_max_right init x) (foldl_max_init_le rest (max init x))
      · exact ih (max init y) x h
  exact aux l 0 x h

/-- A decimal-named state whose value is at least the union offset cannot be a
state of the first operand. -/
theorem union_digit_fresh (a1 : FiniteAutomaton) (t : Str)
    (hd : isDigitStr t = true) (hv : unionOffset a1 ≤ strToNat t) :
    t ∉ a1.states := by
  intro hmem
  have hf : t ∈ a1.states.filter (fun s => isDigitStr s) := by
    rw [List.mem_filter]
    exact ⟨hmem, hd⟩
  have hints : strToNat t ∈ (a1.states.filter (fun s => isDigitStr s)).map strToNat :=
    List.mem_map_of_mem strToNat hf
  have hne : ((a1.states.filter (fun s => isDigitStr s)).map strToNat).isEmpty = false := by
    cases hl : (a1.states.filter (fun s => isDigitStr s)).map strToNat with
    | nil => rw [hl] at hints; cases hints
    | cons x rest => rfl
  have hle := le_listMax _ _ hints
  unfold unionOffset at hv
  simp only [hne] at hv
  simp at hv
  omega

/-- C4 (amended): the union rule does renumber its second operand away from
the first: for decimal state names (the only ones `int` accepts), the offset
copies of the second operand's states are disjoint from the first operand's
states, and the new initial state the union allocates is fresh with respect to
both operands.  The star rule however takes its two new states from the
instance counter, which the union rule never advances, so a star over a union
reuses operand state names (see the counterexample). -/
theorem union_offset_states_fresh (a1 a2 : FiniteAutomaton) (c : Nat)
    (_h2 : ∀ s ∈ a2.states, isDigitStr s = true) :
    (∀ t ∈ a2.states.map (offsetState (unionOffset a1)), t ∉ a1.states) ∧
    (createAutomatonUnion a1 a2 c).1.initial_state ∉ a1.states ∧
    (createAutomatonUnion a1 a2 c).1.initial_state ∉
      a2.states.map (offsetState (unionOffset a1)) := by
  have hinit : (createAutomatonUnion a1 a2 c).1.initial_state
      = natToStr (unionOffset a1 +
          listMax (((ssetOf (a2.states.map (offsetState (unionOffset a1)))).filter
            (fun s => isDigitStr s)).map strToNat) + 1) := rfl
  refine ⟨?_, ?_, ?_⟩
  · intro t ht
    rcases List.mem_map.1 ht with ⟨s2, hs2, rfl⟩
    apply union_digit_fresh a1 _ (natToStr_isDigit _)
    show unionOffset a1 ≤ strToNat (natToStr (strToNat s2 + unionOffset a1))
    rw [strToNat_natToStr]
    omega
  · rw [hinit]
    apply union_digit_fresh a1 _ (natToStr_isDigit _)
    rw [strToNat_natToStr]
    omega
  · rw [hinit]
    intro hmem
    rcases List.mem_map.1 hmem with ⟨s2, hs2, heq⟩
    have hval : strToNat (offsetState (unionOffset a1) s2) = strToNat s2 + unionOffset a1 := by
      simp only [offsetState, strToNat_natToStr]
    have hset : offsetState (unionOffset a1) s2 ∈
        ssetOf (a2.states.map (offsetState (unionOffset a1))) :=
      (mem_ssetOf _ _).2 (List.mem_map_of_mem _ hs2)
    have hfil : offsetState (unionOffset a1) s2 ∈
        (ssetOf (a2.states.map (offsetState (unionOffset a1)))).filter
          (fun s => isDigitStr s) := by
      rw [List.mem_filter]
      exact ⟨hset, natToStr_isDigit _⟩
    have hm2 := le_listMax _ _ (List.mem_map_of_mem strToNat hfil)
    have heqv : strToNat (offsetState (unionOffset a1) s2)
        = strToNat (natToStr (unionOffset a1 +
            listMax (((ssetOf (a2.states.map (offsetState (unionOffset a1)))).filter
              (fun s => isDigitStr s)).map strToNat) + 1)) := by rw [heq]
    rw [hval, strToNat_natToStr] at heqv
    omega

theorem union_offset_states_fresh_witness :
    (∀ s ∈ symB.states, isDigitStr s = true) ∧
    ((∀ t ∈ symB.states.map (offsetState (unionOffset symA)), t ∉ symA.states) ∧
    (createAutomatonUnion symA symB 4).1.initial_state ∉ symA.states ∧
    (createAutomatonUnion symA symB 4).1.initial_state ∉
      symB.states.map (offsetState (unionOffset symA))) :=
  ⟨by decide, union_offset_states_fresh symA symB 4 (by decide)⟩

/-! Characterisation of the λ-closure worklist. -/

theorem tlook_some (tr : TTab) (st : Str) (sym : Symb) (ds : List Str)
    (h : tlook tr st sym = some ds) :
    ∃ row, dget tr st = some row ∧ dget row sym = some ds := by
  unfold tlook at h
  cases hrow : dget tr st with
  | none => rw [hrow] at h; cases h
  | some row => rw [hrow] at h; exact ⟨row, rfl, h⟩

theorem dests_subset_transDests (tr : TTab) (st : Str) (sym : Symb) (ds : List Str)
    (h : tlook tr st sym = some ds) : ∀ d ∈ ds, d ∈ transDests tr := by
  rcases tlook_some tr st sym ds h with ⟨row, hr, hd⟩
  intro d hdm
  unfold transDests
  rw [List.mem_flatten]
  refine ⟨(row.map (fun e => e.2)).flatten, ?_, ?_⟩
  · rw [List.mem_map]
    exact ⟨(st, row), dget_mem _ _ _ hr, rfl⟩
  · rw [List.mem_flatten]
    exact ⟨ds, List.mem_map.2 ⟨(sym, ds), dget_mem _ _ _ hd, rfl⟩, hdm⟩

theorem lamDests_subset_transDests (tr : TTab) (st : Str) :
    ∀ d ∈ lamDests tr st, d ∈ transDests tr := by
  intro d hd
  unfold lamDests at hd
  rcases List.mem_append.1 hd with h | h
  · cases hl : tlook tr st (some lamS) with
    | none => rw [hl] at h; cases h
    | some ds =>
      rw [hl] at h
      exact dests_subset_transDests tr st (some lamS) ds hl d h
  · cases hl : tlook tr st none with
    | none => rw [hl] at h; cases h
    | some ds =>
      rw [hl] at h
      exact dests_subset_transDests tr st none ds hl d h

theorem countMissing_cons (x : Str) (l C : List Str) :
    countMissing (x :: l) C = (if x ∈ C then 0 else 1) + countMissing l C := by
  unfold countMissing
  by_cases h : x ∈ C <;> simp [h] <;> omega

theorem countMissing_snoc_le (l C : List Str) (d : Str) :
    countMissing l (C ++ [d]) ≤ countMissing l C := by
  induction l with
  | nil => simp [countMissing]
  | cons x rest ih =>
    rw [countMissing_cons, countMissing_cons]
    by_cases hx : x ∈ C
    · simp [hx, List.mem_append, Or.inl hx]
      omega
    · by_cases hxd : x ∈ C ++ [d] <;> simp [hx, hxd] <;> omega

theorem countMissing_snoc_lt (l C : List Str) (d : Str) (hdl : d ∈ l) (hdc : d ∉ C) :
    countMissing l (C ++ [d]) < countMissing l C := by
  induction l with
  | nil => cases hdl
  | cons x rest ih =>
    rw [countMissing_cons, countMissing_cons]
    rcases List.mem_cons.1 hdl with hx | hx
    · have hxd : x = d := hx.symm
      subst hxd
      have h1 : x ∈ C ++ [x] := List.mem_append.2 (Or.inr (List.mem_singleton.2 rfl))
      rw [if_pos h1, if_neg hdc]
      have := countMissing_snoc_le rest C x
      omega
    · have := ih hx
      by_cases hxc : x ∈ C
      · have h1 : x ∈ C ++ [d] := List.mem_append.2 (Or.inl hxc)
        simp [hxc, h1]
        omega
      · by_cases hxd : x ∈ C ++ [d] <;> simp [hxc, hxd] <;> omega

theorem pushNew_fold_closure_suffix (ds : List Str) :
    ∀ C S, ∃ t, (ds.foldl pushNew (C, S)).1 = C ++ t ∧ (∀ x ∈ t, x ∈ ds) := by
  induction ds with
  | nil => intro C S; exact ⟨[], by simp, by simp⟩
  | cons d rest ih =>
    intro C S
    show ∃ t, (rest.foldl pushNew (pushNew (C, S) d)).1 = C ++ t ∧ _
    unfold pushNew
    by_cases hd : d ∈ C
    · simp only [hd, if_pos]
      rcases ih C S with ⟨t, ht, hts⟩
      exact ⟨t, ht, fun x hx => List.mem_cons_of_mem d (hts x hx)⟩
    · simp only [hd, if_neg, not_false_iff]
      rcases ih (C ++ [d]) (d :: S) with ⟨t, ht, hts⟩
      refine ⟨[d] ++ t, by simpa using ht, ?_⟩
      intro x hx
      rcases List.mem_append.1 hx with hx | hx
      · simp only [List.mem_singleton] at hx
        subst hx
        exact List.mem_cons_self _ _
      · exact List.mem_cons_of_mem d (hts x hx)

theorem pushNew_fold_mem_ds (ds : List Str) :
    ∀ C S, ∀ d ∈ ds, d ∈ (ds.foldl pushNew (C, S)).1 := by
  induction ds with
  | nil => intro C S d hd; cases hd
  | cons e rest ih =>
    intro C S d hd
    show d ∈ (rest.foldl pushNew (pushNew (C, S) e)).1
    rcases List.mem_cons.1 hd with hde | hde
    · subst hde
      rcases pushNew_fold_closure_suffix rest (pushNew (C, S) d).1 (pushNew (C, S) d).2
        with ⟨t, ht, _⟩
      have hdc : d ∈ (pushNew (C, S) d).1 := by
        unfold pushNew
        by_cases hd2 : d ∈ C <;> simp [hd2]
      have : (rest.foldl pushNew (pushNew (C, S) d)).1 = (pushNew (C, S) d).1 ++ t := ht
      rw [this]
      exact List.mem_append.2 (Or.inl hdc)
    · exact ih _ _ d hde

theorem pushNew_fold_stack_sub (ds : List Str) :
    ∀ C S, ∀ x ∈ S, x ∈ (ds.foldl pushNew (C, S)).2 := by
  induction ds with
  | nil => intro C S x hx; exact hx
  | cons d rest ih =>
    intro C S x hx
    show x ∈ (rest.foldl pushNew (pushNew (C, S) d)).2
    unfold pushNew
    by_cases hd : d ∈ C
    · simp only [hd, if_pos]
      exact ih C S x hx
    · simp only [hd, if_neg, not_false_iff]
      exact ih (C ++ [d]) (d :: S) x (List.mem_cons_of_mem d hx)

theorem pushNew_fold_stack_mem (ds : List Str) :
    ∀ C S, ∀ x ∈ (ds.foldl pushNew (C, S)).2, x ∈ S ∨ x ∈ ds := by
  induction ds with
  | nil => intro C S x hx; exact Or.inl hx
  | cons d rest ih =>
    intro C S x hx
    have hx2 : x ∈ (rest.foldl pushNew (pushNew (C, S) d)).2 := hx
    unfold pushNew at hx2
    by_cases hd : d ∈ C
    · simp only [hd, if_pos] at hx2
      rcases ih C S x hx2 with h | h
      · exact Or.inl h
      · exact Or.inr (List.mem_cons_of_mem d h)
    · simp only [hd, if_neg, not_false_iff] at hx2
      rcases ih (C ++ [d]) (d :: S) x hx2 with h | h
      · rcases List.mem_cons.1 h with h | h
        · subst h; exact Or.inr (List.mem_cons_self _ _)
        · exact Or.inl h
      · exact Or.inr (List.mem_cons_of_mem d h)

theorem pushNew_fold_stack_in_closure (ds : List Str) :
    ∀ C S, (∀ x ∈ S, x ∈ C) → ∀ x ∈ (ds.foldl pushNew (C, S)).2,
      x ∈ (ds.foldl pushNew (C, S)).1 := by
  induction ds with
  | nil => intro C S h x hx; exact h x hx
  | cons d rest ih =>
    intro C S h x hx
    show x ∈ (rest.foldl pushNew (pushNew (C, S) d)).1
    have hx2 : x ∈ (rest.foldl pushNew (pushNew (C, S) d)).2 := hx
    unfold pushNew at hx2 ⊢
    by_cases hd : d ∈ C
    · simp only [hd, if_pos] at hx2 ⊢
      exact ih C S h x hx2
    · simp only [hd, if_neg, not_false_iff] at hx2 ⊢
      refine ih (C ++ [d]) (d :: S) ?_ x hx2
      intro y hy
      rcases List.mem_cons.1 hy with hy | hy
      · subst hy; exact List.mem_append.2 (Or.inr (by simp))
      · exact List.mem_append.2 (Or.inl (h y hy))

theorem pushNew_fold_new_in_stack (ds : List Str) :
    ∀ C S, ∀ x ∈ (ds.foldl pushNew (C, S)).1, x ∉ C → x ∈ (ds.foldl pushNew (C, S)).2 := by
  induction ds with
  | nil => intro C S x hx hnc; exact absurd hx hnc
  | cons d rest ih =>
    intro C S x hx hnc
    show x ∈ (rest.foldl pushNew (pushNew (C, S) d)).2
    have hx2 : x ∈ (rest.foldl pushNew (pushNew (C, S) d)).1 := hx
    unfold pushNew at hx2 ⊢
    by_cases hd : d ∈ C
    · simp only [hd, if_pos] at hx2 ⊢
      exact ih C S x hx2 hnc
    · simp only [hd, if_neg, not_false_iff] at hx2 ⊢
      by_cases hxd : x ∈ C ++ [d]
      · rcases List.mem_append.1 hxd with h | h
        · exact absurd h hnc
        · simp only [List.mem_singleton] at h
          subst h
          exact pushNew_fold_stack_sub rest _ _ x (List.mem_cons_self _ _)
      · exact ih (C ++ [d]) (d :: S) x hx2 hxd

theorem pushNew_fold_nodup (ds : List Str) :
    ∀ C S, C.Nodup → (ds.foldl pushNew (C, S)).1.Nodup := by
  induction ds with
  | nil => intro C S h; exact h
  | cons d rest ih =>
    intro C S h
    show ((rest.foldl pushNew (pushNew (C, S) d)).1).Nodup
    unfold pushNew
    by_cases hd : d ∈ C
    · simp only [hd, if_pos]
      exact ih C S h
    · simp only [hd, if_neg, not_false_iff]
      refine ih (C ++ [d]) (d :: S) ?_
      simpa [List.nodup_append] using ⟨h, hd⟩

theorem pushNew_fold_mu (ds : List Str) :
    ∀ C S (U : List Str), (∀ d ∈ ds, d ∈ U) →
      (ds.foldl pushNew (C, S)).2.length + countMissing U (ds.foldl pushNew (C, S)).1 ≤
        S.length + countMissing U C := by
  induction ds with
  | nil => intro C S U h; exact le_refl _
  | cons d rest ih =>
    intro C S U h
    show (rest.foldl pushNew (pushNew (C, S) d)).2.length +
      countMissing U (rest.foldl pushNew (pushNew (C, S) d)).1 ≤ _
    by_cases hd : d ∈ C
    · rw [show pushNew (C, S) d = (C, S) from by simp [pushNew, hd]]
      exact ih C S U (fun e he => h e (List.mem_cons_of_mem d he))
    · rw [show pushNew (C, S) d = (C ++ [d], d :: S) from by simp [pushNew, hd]]
      have h1 := ih (C ++ [d]) (d :: S) U (fun e he => h e (List.mem_cons_of_mem d he))
      have h2 : countMissing U (C ++ [d]) < countMissing U C :=
        countMissing_snoc_lt U C d (h d (List.mem_cons_self _ _)) hd
      simp only [List.length_cons] at h1
      omega

theorem closureLoop_grows (tr : TTab) :
    ∀ (fuel : Nat) (stack closure : List Str), ∀ x ∈ closure,
      x ∈ closureLoop tr fuel stack closure := by
  intro fuel
  induction fuel with
  | zero => intro stack closure x hx; exact hx
  | succ f ih =>
    intro stack closure x hx
    cases stack with
    | nil => exact hx
    | cons st rest =>
      show x ∈ closureLoop tr f _ _
      apply ih
      rcases pushNew_fold_closure_suffix (lamDests tr st) closure rest with ⟨t, ht, _⟩
      rw [ht]
      exact List.mem_append.2 (Or.inl hx)

theorem closureLoop_subset (tr : TTab) :
    ∀ (fuel : Nat) (stack closure : List Str), ∀ x ∈ closureLoop tr fuel stack closure,
      x ∈ closure ∨ x ∈ transDests tr := by
  intro fuel
  induction fuel with
  | zero => intro stack closure x hx; exact Or.inl hx
  | succ f ih =>
    intro stack closure x hx
    cases stack with
    | nil => exact Or.inl hx
    | cons st rest =>
      rcases ih _ _ x hx with h | h
      · rcases pushNew_fold_closure_suffix (lamDests tr st) closure rest with ⟨t, ht, hts⟩
        rw [ht] at h
        rcases List.mem_append.1 h with h | h
        · exact Or.inl h
        · exact Or.inr (lamDests_subset_transDests tr st x (hts x h))
      · exact Or.inr h

theorem closureLoop_nodup (tr : TTab) :
    ∀ (fuel : Nat) (stack closure : List Str), closure.Nodup →
      (closureLoop tr fuel stack closure).Nodup := by
  intro fuel
  induction fuel with
  | zero => intro stack closure h; exact h
  | succ f ih =>
    intro stack closure h
    cases stack with
    | nil => exact h
    | cons st rest =>
      exact ih _ _ (pushNew_fold_nodup (lamDests tr st) closure rest h)

theorem closureLoop_sound (tr : TTab) (S0 : List Str) :
    ∀ (fuel : Nat) (stack closure : List Str),
      (∀ x ∈ closure, LamReach tr S0 x) → (∀ x ∈ stack, x ∈ closure) →
      ∀ x ∈ closureLoop tr fuel stack closure, LamReach tr S0 x := by
  intro fuel
  induction fuel with
  | zero => intro stack closure hc hs x hx; exact hc x hx
  | succ f ih =>
    intro stack closure hc hs x hx
    cases stack with
    | nil => exact hc x hx
    | cons st rest =>
      refine ih _ _ ?_ ?_ x hx
      · intro y hy
        rcases pushNew_fold_closure_suffix (lamDests tr st) closure rest with ⟨t, ht, hts⟩
        rw [ht] at hy
        rcases List.mem_append.1 hy with h | h
        · exact hc y h
        · have hst : LamReach tr S0 st := hc st (hs st (List.mem_cons_self _ _))
          rcases hst with ⟨s0, hs0, hpath⟩
          exact ⟨s0, hs0, Relation.ReflTransGen.tail hpath (LamStep.mk st y (hts y h))⟩
      · exact pushNew_fold_stack_in_closure (lamDests tr st) closure rest
          (fun y hy => hs y (List.mem_cons_of_mem st hy))

theorem closureLoop_complete (tr : TTab) :
    ∀ (fuel : Nat) (stack closure : List Str),
      closureMu tr stack closure < fuel →
      (∀ x ∈ stack, x ∈ closure) →
      (∀ x ∈ closure, x ∉ stack → ∀ d ∈ lamDests tr x, d ∈ closure) →
      ∀ x ∈ closureLoop tr fuel stack closure, ∀ d ∈ lamDests tr x,
        d ∈ closureLoop tr fuel stack closure := by
  intro fuel
  induction fuel with
  | zero => intro stack closure hmu; omega
  | succ f ih =>
    intro stack closure hmu hs hinv
    cases stack with
    | nil =>
      intro x hx d hd
      exact hinv x hx (by simp) d hd
    | cons st rest =>
      have hds : ∀ e ∈ lamDests tr st, e ∈ transDests tr :=
        lamDests_subset_transDests tr st
      have hmu2 : closureMu tr
          ((lamDests tr st).foldl pushNew (closure, rest)).2
          ((lamDests tr st).foldl pushNew (closure, rest)).1 < f := by
        have := pushNew_fold_mu (lamDests tr st) closure rest (transDests tr) hds
        unfold closureMu at hmu ⊢
        simp only [List.length_cons] at hmu
        omega
      refine ih _ _ hmu2 ?_ ?_
      · exact pushNew_fold_stack_in_closure (lamDests tr st) closure rest
          (fun y hy => hs y (List.mem_cons_of_mem st hy))
      · intro x hx hnstack d hd
        rcases pushNew_fold_closure_suffix (lamDests tr st) closure rest with ⟨t, ht, hts⟩
        by_cases hxst : x = st
        · subst hxst
          exact pushNew_fold_mem_ds (lamDests tr x) closure rest d hd
        · by_cases hxc : x ∈ closure
          · have hxnotrest : x ∉ rest := by
              intro hxr
              exact hnstack (pushNew_fold_stack_sub (lamDests tr st) closure rest x hxr)
            have hxnotstack : x ∉ st :: rest := by
              intro hxs
              rcases List.mem_cons.1 hxs with h | h
              · exact hxst h
              · exact hxnotrest h
            have := hinv x hxc hxnotstack d hd
            rw [ht]
            exact List.mem_append.2 (Or.inl this)
          · exact absurd (pushNew_fold_new_in_stack (lamDests tr st) closure rest x hx hxc)
              hnstack

theorem transDests_length (tr : TTab) : (transDests tr).length = totalDests tr := by
  unfold transDests totalDests
  rw [List.length_flatten, List.map_map]
  congr 1
  apply List.map_congr_left
  intro row hrow
  simp only [Function.comp]
  rw [List.length_flatten, List.map_map]
  rfl

theorem countMissing_le (U C : List Str) : countMissing U C ≤ U.length := by
  unfold countMissing
  exact List.length_filter_le _ _

theorem closureFuel_enough (tr : TTab) (S : List Str) :
    closureMu tr S S < closureFuel tr S := by
  unfold closureMu closureFuel
  have h1 := countMissing_le (transDests tr) S
  have h2 := transDests_length tr
  omega

theorem lambdaClosure_lamClosed (a : FiniteAutomaton) (S : List Str) :
    ∀ x ∈ lambdaClosure a S, ∀ d ∈ lamDests a.transitions x, d ∈ lambdaClosure a S := by
  unfold lambdaClosure
  exact closureLoop_complete a.transitions (closureFuel a.transitions S) S S
    (closureFuel_enough a.transitions S) (fun x hx => hx)
    (fun x hx hnx => absurd hx hnx)

theorem mem_lambdaClosure (a : FiniteAutomaton) (S : List Str) (x : Str) :
    x ∈ lambdaClosure a S ↔ LamReach a.transitions S x := by
  constructor
  · intro hx
    exact closureLoop_sound a.transitions S _ S S
      (fun y hy => ⟨y, hy, Relation.ReflTransGen.refl⟩) (fun y hy => hy) x hx
  · rintro ⟨s, hs, hpath⟩
    induction hpath with
    | refl =>
      exact closureLoop_grows a.transitions _ S S s hs
    | tail hp hstep ih =>
      rename_i y d
      cases hstep with
      | mk hd =>
        exact lambdaClosure_lamClosed a S y ih d hd

theorem lambdaClosure_nodup (a : FiniteAutomaton) (S : List Str) (h : S.Nodup) :
    (lambdaClosure a S).Nodup :=
  closureLoop_nodup a.transitions _ S S h

theorem lambdaClosure_subset (a : FiniteAutomaton) (S : List Str) :
    ∀ x ∈ lambdaClosure a S, x ∈ S ∨ x ∈ transDests a.transitions :=
  closureLoop_subset a.transitions _ S S

theorem lambdaClosure_grows (a : FiniteAutomaton) (S : List Str) :
    ∀ x ∈ S, x ∈ lambdaClosure a S :=
  closureLoop_grows a.transitions _ S S

/-! Characterisation of the shared move-and-close step. -/

theorem mem_destsFold (a : FiniteAutomaton) (dests : List Str) :
    ∀ (acc : List Str) (x : Str),
      x ∈ dests.foldl (fun acc2 d => sunion acc2 (lambdaClosure a [d])) acc ↔
        x ∈ acc ∨ ∃ d ∈ dests, x ∈ lambdaClosure a [d] := by
  induction dests with
  | nil => intro acc x; simp
  | cons d rest ih =>
    intro acc x
    show x ∈ rest.foldl _ (sunion acc (lambdaClosure a [d])) ↔ _
    rw [ih, mem_sunion]
    constructor
    · intro h
      rcases h with (h | h) | ⟨e, he, hx⟩
      · exact Or.inl h
      · exact Or.inr ⟨d, List.mem_cons_self _ _, h⟩
      · exact Or.inr ⟨e, List.mem_cons_of_mem d he, hx⟩
    · intro h
      rcases h with h | ⟨e, he, hx⟩
      · exact Or.inl (Or.inl h)
      · rcases List.mem_cons.1 he with he2 | he2
        · subst he2
          exact Or.inl (Or.inr hx)
        · exact Or.inr ⟨e, he2, hx⟩

theorem nodup_destsFold (a : FiniteAutomaton) (dests : List Str) :
    ∀ (acc : List Str), acc.Nodup →
      (dests.foldl (fun acc2 d => sunion acc2 (lambdaClosure a [d])) acc).Nodup := by
  induction dests with
  | nil => intro acc h; exact h
  | cons d rest ih =>
    intro acc h
    exact ih _ (nodup_sunion _ _ h)

theorem mem_moveClosure (a : FiniteAutomaton) (S : List Str) (sym : Symb) (x : Str) :
    x ∈ moveClosure a S sym ↔
      ∃ st ∈ S, ∃ ds, tlook a.transitions st sym = some ds ∧
        ∃ d ∈ ds, x ∈ lambdaClosure a [d] := by
  unfold moveClosure
  have aux : ∀ (l : List Str) (acc : List Str),
      x ∈ l.foldl (fun acc st =>
        match tlook a.transitions st sym with
        | some dests => dests.foldl (fun acc2 d => sunion acc2 (lambdaClosure a [d])) acc
        | none => acc) acc ↔
      x ∈ acc ∨ ∃ st ∈ l, ∃ ds, tlook a.transitions st sym = some ds ∧
        ∃ d ∈ ds, x ∈ lambdaClosure a [d] := by
    intro l
    induction l with
    | nil => intro acc; simp
    | cons st rest ih =>
      intro acc
      rw [List.foldl_cons, ih]
      cases htl : tlook a.transitions st sym with
      | none =>
        simp only []
        constructor
        · intro h
          rcases h with h | ⟨st2, hst2, hrest⟩
          · exact Or.inl h
          · exact Or.inr ⟨st2, List.mem_cons_of_mem st hst2, hrest⟩
        · intro h
          rcases h with h | ⟨st2, hst2, ds, hds, hrest⟩
          · exact Or.inl h
          · rcases List.mem_cons.1 hst2 with he | he
            · subst he
              rw [htl] at hds
              cases hds
            · exact Or.inr ⟨st2, he, ds, hds, hrest⟩
      | some dests =>
        simp only []
        rw [mem_destsFold]
        constructor
        · intro h
          rcases h with (h | h) | ⟨st2, hst2, hrest⟩
          · exact Or.inl h
          · exact Or.inr ⟨st, List.mem_cons_self _ _, dests, htl, h⟩
          · exact Or.inr ⟨st2, List.mem_cons_of_mem st hst2, hrest⟩
        · intro h
          rcases h with h | ⟨st2, hst2, ds, hds, hrest⟩
          · exact Or.inl (Or.inl h)
          · rcases List.mem_cons.1 hst2 with he | he
            · subst he
              rw [htl] at hds
              injection hds with hds2
              subst hds2
              exact Or.inl (Or.inr hrest)
            · exact Or.inr ⟨st2, he, ds, hds, hrest⟩
  rw [aux S []]
  simp

theorem moveClosure_nodup (a : FiniteAutomaton) (S : List Str) (sym : Symb) :
    (moveClosure a S sym).Nodup := by
  unfold moveClosure
  have aux : ∀ (l : List Str) (acc : List Str), acc.Nodup →
      (l.foldl (fun acc st =>
        match tlook a.transitions st sym with
        | some dests => dests.foldl (fun acc2 d => sunion acc2 (lambdaClosure a [d])) acc
        | none => acc) acc).Nodup := by
    intro l
    induction l with
    | nil => intro acc h; exact h
    | cons st rest ih =>
      intro acc h
      rw [List.foldl_cons]
      cases htl : tlook a.transitions st sym with
      | none => exact ih acc h
      | some dests => exact ih _ (nodup_destsFold a dests acc h)
  exact aux S [] List.nodup_nil

theorem moveClosure_subset_transDests (a : FiniteAutomaton) (S : List Str) (sym : Symb) :
    ∀ x ∈ moveClosure a S sym, x ∈ transDests a.transitions := by
  intro x hx
  rcases (mem_moveClosure a S sym x).1 hx with ⟨st, hst, ds, hds, d, hd, hcl⟩
  rcases lambdaClosure_subset a [d] x hcl with h | h
  · simp only [List.mem_singleton] at h
    subst h
    exact dests_subset_transDests a.transitions st sym ds hds x hd
  · exact h

theorem moveClosure_set_eq (a : FiniteAutomaton) (S T : List Str) (sym : Symb)
    (h : ∀ x, x ∈ S ↔ x ∈ T) :
    ∀ x, x ∈ moveClosure a S sym ↔ x ∈ moveClosure a T sym := by
  intro x
  rw [mem_moveClosure, mem_moveClosure]
  constructor
  · rintro ⟨st, hst, hrest⟩
    exact ⟨st, (h st).1 hst, hrest⟩
  · rintro ⟨st, hst, hrest⟩
    exact ⟨st, (h st).2 hst, hrest⟩

/-! The canonical sorted-join naming and its injectivity on clean names. -/

theorem sortStrs_sorted (l : List Str) :
    List.Sorted (fun s t : Str => s ≤ t) (sortStrs l) :=
  List.sorted_insertionSort _ l

theorem sortStrs_perm (l : List Str) : (sortStrs l).Perm l :=
  List.perm_insertionSort _ l

theorem sortStrs_eq_of_set_eq (S T : List Str) (hS : S.Nodup) (hT : T.Nodup)
    (h : ∀ x, x ∈ S ↔ x ∈ T) : sortStrs S = sortStrs T := by
  have hperm : S.Perm T := (List.perm_ext_iff_of_nodup hS hT).2 h
  have hperm2 : (sortStrs S).Perm (sortStrs T) :=
    ((sortStrs_perm S).trans hperm).trans (sortStrs_perm T).symm
  exact List.eq_of_perm_of_sorted hperm2 (sortStrs_sorted S) (sortStrs_sorted T)

theorem joinUnderscore_cons (s : Str) (r : List Str) (h : r ≠ []) :
    joinUnderscore (s :: r) = s ++ '_' :: joinUnderscore r := by
  cases r with
  | nil => exact absurd rfl h
  | cons t r2 => rfl

theorem underscore_split (s : Str) :
    ∀ (t : Str) (u v : List Char), '_' ∉ s → '_' ∉ t →
      s ++ '_' :: u = t ++ '_' :: v → s = t ∧ u = v := by
  induction s with
  | nil =>
    intro t u v hs ht h
    cases t with
    | nil =>
      simp only [List.nil_append] at h
      injection h with h1 h2
      exact ⟨rfl, h2⟩
    | cons c t2 =>
      simp only [List.nil_append, List.cons_append] at h
      injection h with h1 h2
      have hmem : '_' ∈ c :: t2 := by rw [h1]; exact List.mem_cons_self _ _
      exact absurd hmem ht
  | cons c s2 ih =>
    intro t u v hs ht h
    cases t with
    | nil =>
      simp only [List.cons_append, List.nil_append] at h
      injection h with h1 h2
      have hmem : '_' ∈ c :: s2 := by rw [h1]; exact List.mem_cons_self _ _
      exact absurd hmem hs
    | cons d t2 =>
      simp only [List.cons_append] at h
      injection h with h1 h2
      have hs2 : '_' ∉ s2 := fun hc => hs (List.mem_cons_of_mem c hc)
      have ht2 : '_' ∉ t2 := fun hc => ht (List.mem_cons_of_mem d hc)
      rcases ih t2 u v hs2 ht2 h2 with ⟨hst, huv⟩
      exact ⟨by rw [h1, hst], huv⟩

theorem joinUnderscore_inj (l : List Str) :
    ∀ (m : List Str),
      (∀ s ∈ l, s ≠ [] ∧ '_' ∉ s) → (∀ s ∈ m, s ≠ [] ∧ '_' ∉ s) →
      joinUnderscore l = joinUnderscore m → l = m := by
  induction l with
  | nil =>
    intro m hl hm h
    cases m with
    | nil => rfl
    | cons t r =>
      cases r with
      | nil =>
        exact absurd h.symm (hm t (List.mem_cons_self _ _)).1
      | cons t2 r2 =>
        rw [joinUnderscore_cons t (t2 :: r2) (by simp)] at h
        have hlen := congrArg List.length h
        simp only [joinUnderscore, List.length_nil, List.length_append,
          List.length_cons] at hlen
        omega
  | cons s r ih =>
    intro m hl hm h
    cases m with
    | nil =>
      cases r with
      | nil => exact absurd h (hl s (List.mem_cons_self _ _)).1
      | cons s2 r2 =>
        rw [joinUnderscore_cons s (s2 :: r2) (by simp)] at h
        have hlen := congrArg List.length h
        simp only [joinUnderscore, List.length_nil, List.length_append,
          List.length_cons] at hlen
        omega
    | cons t r2 =>
      cases r with
      | nil =>
        cases r2 with
        | nil =>
          show [s] = [t]
          rw [show joinUnderscore [s] = s from rfl, show joinUnderscore [t] = t from rfl] at h
          rw [h]
        | cons t2 r3 =>
          rw [show joinUnderscore [s] = s from rfl,
            joinUnderscore_cons t (t2 :: r3) (by simp)] at h
          have : '_' ∈ s := by
            rw [h]
            exact List.mem_append.2 (Or.inr (List.mem_cons_self _ _))
          exact absurd this (hl s (List.mem_cons_self _ _)).2
      | cons s2 r3 =>
        cases r2 with
        | nil =>
          rw [show joinUnderscore [t] = t from rfl,
            joinUnderscore_cons s (s2 :: r3) (by simp)] at h
          have : '_' ∈ t := by
            rw [← h]
            exact List.mem_append.2 (Or.inr (List.mem_cons_self _ _))
          exact absurd this (hm t (List.mem_cons_self _ _)).2
        | cons t2 r4 =>
          rw [joinUnderscore_cons s (s2 :: r3) (by simp),
            joinUnderscore_cons t (t2 :: r4) (by simp)] at h
          rcases underscore_split s t _ _ (hl s (List.mem_cons_self _ _)).2
            (hm t (List.mem_cons_self _ _)).2 h with ⟨hst, hjoin⟩
          have hrec := ih (t2 :: r4)
            (fun x hx => hl x (List.mem_cons_of_mem s hx))
            (fun x hx => hm x (List.mem_cons_of_mem t hx)) hjoin
          rw [hst, hrec]

theorem cleanNameB_iff (s : Str) :
    cleanNameB s = true ↔ (s ≠ [] ∧ '_' ∉ s ∧ s ≠ deadS) := by
  unfold cleanNameB
  simp [List.isEmpty_iff, and_assoc]

theorem sortStrs_ne_nil (S : List Str) (h : S ≠ []) : sortStrs S ≠ [] := by
  intro hc
  have := sortStrs_perm S
  rw [hc] at this
  exact h (this.nil_eq).symm

theorem nameState_ne_dead (S : List Str) (hne : S ≠ [])
    (hclean : ∀ s ∈ S, cleanNameB s = true) : nameState S ≠ deadS := by
  unfold nameState
  rw [if_neg (by simpa [List.isEmpty_iff] using hne)]
  have hclean2 : ∀ s ∈ sortStrs S, cleanNameB s = true :=
    fun s hs => hclean s ((sortStrs_perm S).mem_iff.1 hs)
  cases hsort : sortStrs S with
  | nil => exact absurd hsort (sortStrs_ne_nil S hne)
  | cons t r =>
    cases r with
    | nil =>
      show t ≠ deadS
      exact ((cleanNameB_iff t).1 (hclean2 t (by rw [hsort]; exact List.mem_cons_self _ _))).2.2
    | cons t2 r2 =>
      rw [joinUnderscore_cons t (t2 :: r2) (by simp)]
      intro hcon
      have hu : '_' ∈ t ++ '_' :: joinUnderscore (t2 :: r2) :=
        List.mem_append.2 (Or.inr (List.mem_cons_self _ _))
      rw [hcon] at hu
      simp [deadS] at hu

theorem nameState_set_eq (S T : List Str) (hS : S.Nodup) (hT : T.Nodup)
    (h : ∀ x, x ∈ S ↔ x ∈ T) : nameState S = nameState T := by
  cases hSe : S with
  | nil =>
    cases hTe : T with
    | nil => rfl
    | cons t r =>
      have : t ∈ S := (h t).2 (by rw [hTe]; exact List.mem_cons_self _ _)
      rw [hSe] at this
      cases this
  | cons s r =>
    cases hTe : T with
    | nil =>
      have : s ∈ T := (h s).1 (by rw [hSe]; exact List.mem_cons_self _ _)
      rw [hTe] at this
      cases this
    | cons t r2 =>
      unfold nameState
      rw [← hSe, ← hTe,
        if_neg (by simp [List.isEmpty_iff, hSe]),
        if_neg (by simp [List.isEmpty_iff, hTe]),
        sortStrs_eq_of_set_eq S T hS hT h]

theorem nameState_inj (S T : List Str) (hS : S.Nodup) (hT : T.Nodup)
    (hcS : ∀ s ∈ S, cleanNameB s = true) (hcT : ∀ s ∈ T, cleanNameB s = true)
    (h : nameState S = nameState T) : ∀ x, x ∈ S ↔ x ∈ T := by
  cases hSe : S with
  | nil =>
    cases hTe : T with
    | nil => intro x; rfl
    | cons t r =>
      subst hSe hTe
      rw [show nameState [] = deadS from rfl] at h
      exact absurd h.symm (nameState_ne_dead _ (by simp) hcT)
  | cons s r =>
    cases hTe : T with
    | nil =>
      subst hSe hTe
      rw [show nameState [] = deadS from rfl] at h
      exact absurd h (nameState_ne_dead _ (by simp) hcS)
    | cons t r2 =>
      subst hSe hTe
      unfold nameState at h
      rw [if_neg (by simp [List.isEmpty_iff]), if_neg (by simp [List.isEmpty_iff])] at h
      have hsorteq := joinUnderscore_inj _ _
        (fun x hx =>
          have hc := (cleanNameB_iff x).1 (hcS x ((sortStrs_perm _).mem_iff.1 hx))
          ⟨hc.1, hc.2.1⟩)
        (fun x hx =>
          have hc := (cleanNameB_iff x).1 (hcT x ((sortStrs_perm _).mem_iff.1 hx))
          ⟨hc.1, hc.2.1⟩)
        h
      intro x
      rw [← (sortStrs_perm (s :: r)).mem_iff, ← (sortStrs_perm (t :: r2)).mem_iff, hsorteq]

/-! Invariant machinery for the subset-construction worklist. -/

theorem detReach_nodup (a : FiniteAutomaton) (S : List Str) (h : DetReach a S) :
    S.Nodup := by
  cases h with
  | start => exact lambdaClosure_nodup a _ (by simp)
  | step T sym hT hsym => exact moveClosure_nodup a T sym

theorem detReach_subset (a : FiniteAutomaton) (S : List Str) (h : DetReach a S) :
    ∀ x ∈ S, x ∈ detUniverse a := by
  cases h with
  | start =>
    intro x hx
    rcases lambdaClosure_subset a _ x hx with h | h
    · simp only [List.mem_singleton] at h
      subst h
      exact List.mem_cons_self _ _
    · exact List.mem_cons_of_mem _ h
  | step T sym hT hsym =>
    intro x hx
    exact List.mem_cons_of_mem _ (moveClosure_subset_transDests a T sym x hx)

theorem realSyms_nodup (syms : List Symb) : (realSyms syms).Nodup := by
  unfold realSyms
  have aux : ∀ (l : List Symb) (acc : List Symb), acc.Nodup →
      (l.foldl (fun acc s => if s = none ∨ s = some lamS then acc else sinsert acc s) acc).Nodup := by
    intro l
    induction l with
    | nil => intro acc h; exact h
    | cons s rest ih =>
      intro acc h
      rw [List.foldl_cons]
      by_cases hs : s = none ∨ s = some lamS
      · simp only [hs, if_pos]
        exact ih acc h
      · simp only [hs, if_neg, not_false_iff]
        exact ih _ (nodup_sinsert acc s h)
  exact aux syms [] List.nodup_nil

theorem dfaStates_bound (a : FiniteAutomaton) (names : List Str)
    (hnd : names.Nodup)
    (h : ∀ n ∈ names, ∃ S, S.Nodup ∧ (∀ x ∈ S, x ∈ detUniverse a) ∧ n = nameState S) :
    names.length ≤ 2 ^ (detUniverse a).length := by
  have hsub : names.toFinset ⊆
      Finset.image (fun F : Finset Str => nameState (F.sort (fun s t : Str => s ≤ t)))
        (detUniverse a).toFinset.powerset := by
    intro n hn
    rw [List.mem_toFinset] at hn
    rcases h n hn with ⟨S, hSnd, hSsub, rfl⟩
    rw [Finset.mem_image]
    refine ⟨S.toFinset, ?_, ?_⟩
    · rw [Finset.mem_powerset]
      intro x hx
      rw [List.mem_toFinset] at hx
      rw [List.mem_toFinset]
      exact hSsub x hx
    · apply nameState_set_eq
      · exact Finset.sort_nodup _ _
      · exact hSnd
      · intro x
        rw [Finset.mem_sort, List.mem_toFinset]
  calc names.length = names.toFinset.card := (List.toFinset_card_of_nodup hnd).symm
    _ ≤ (Finset.image (fun F : Finset Str => nameState (F.sort (fun s t : Str => s ≤ t)))
        (detUniverse a).toFinset.powerset).card := Finset.card_le_card hsub
    _ ≤ (detUniverse a).toFinset.powerset.card := Finset.card_image_le
    _ = 2 ^ (detUniverse a).toFinset.card := Finset.card_powerset _
    _ ≤ 2 ^ (detUniverse a).length :=
        Nat.pow_le_pow_right (by norm_num) (detUniverse a).toFinset_card_le

theorem detSymStep_mid (a : FiniteAutomaton) (S : List Str) (done : List Symb)
    (st : DetState) (sym : Symb)
    (hS : DetReach a S)
    (hsym : sym ∈ realSyms a.symbols)
    (hdone : sym ∉ done)
    (hmid : DetMid a S done st) :
    DetMid a S (done ++ [sym]) (detSymStep a S (nameState S) st sym) := by
  obtain ⟨H1, H2, H3, H4, H5, ⟨row, hrow, hrc⟩, H7, H8, H9⟩ := hmid
  have hrowc1 := hrc.1
  have hrowc2 := hrc.2
  by_cases hseen : nameState (moveClosure a S sym) ∈ st.dfaStates
  · have hst2 : detSymStep a S (nameState S) st sym =
        ⟨st.unchecked, st.dfaStates,
          dset st.dfaTrans (nameState S)
            (dset row sym [nameState (moveClosure a S sym)]), st.dfaFinals⟩ := by
      unfold detSymStep
      rw [hrow]
      simp only [Option.getD_some, if_pos hseen]
    rw [hst2]
    unfold DetMid
    dsimp only
    have f2 : ∀ m, m ≠ nameState S →
        dget (dset st.dfaTrans (nameState S)
          (dset row sym [nameState (moveClosure a S sym)])) m = dget st.dfaTrans m := by
      intro m hm
      exact dget_dset_ne _ _ _ m (fun h => hm h.symm)
    refine ⟨?_, H2, H3, H4, ?_, ?_, H7, H8, ?_⟩
    · intro T hT
      rcases H1 T hT with ⟨hT1, hT2, hT3⟩
      have hTn : nameState T ≠ nameState S := by
        intro h
        rw [h, hrow] at hT3
        cases hT3
      exact ⟨hT1, hT2, by rw [f2 _ hTn]; exact hT3⟩
    · intro m row2 hm hrow2
      rw [f2 m hm] at hrow2
      exact H5 m row2 hm hrow2
    · refine ⟨dset row sym [nameState (moveClosure a S sym)], dget_dset_self _ _ _, ?_, ?_⟩
      · intro sym2 hsym2
        rcases List.mem_append.1 hsym2 with h | h
        · have hne : sym ≠ sym2 := fun hc => hdone (hc ▸ h)
          rw [dget_dset_ne _ _ _ _ hne]
          exact hrowc1 sym2 h
        · simp only [List.mem_singleton] at h
          subst h
          rw [dget_dset_self]
          exact ⟨rfl, hseen⟩
      · intro sym2 hne
        rw [dget_dset] at hne
        by_cases hs2 : sym = sym2
        · subst hs2
          exact List.mem_append.2 (Or.inr (List.mem_singleton.2 rfl))
        · rw [if_neg hs2] at hne
          exact List.mem_append.2 (Or.inl (hrowc2 sym2 hne))
    · intro m hm hnone
      have hmn : m ≠ nameState S := by
        intro h
        rw [h, dget_dset_self] at hnone
        cases hnone
      rw [f2 m hmn] at hnone
      exact H9 m hm hnone
  · have hst2 : detSymStep a S (nameState S) st sym =
        ⟨moveClosure a S sym :: st.unchecked,
          st.dfaStates ++ [nameState (moveClosure a S sym)],
          dset st.dfaTrans (nameState S)
            (dset row sym [nameState (moveClosure a S sym)]),
          if (moveClosure a S sym).any (fun s => decide (s ∈ a.final_states)) then
            st.dfaFinals ++ [nameState (moveClosure a S sym)]
          else st.dfaFinals⟩ := by
      unfold detSymStep
      rw [hrow]
      simp only [Option.getD_some, if_neg hseen]
    rw [hst2]
    unfold DetMid
    dsimp only
    have hn_in : nameState S ∈ st.dfaStates := H7
    have hnn_ne : nameState (moveClosure a S sym) ≠ nameState S := by
      intro h
      rw [h] at hseen
      exact hseen hn_in
    have f2 : ∀ m, m ≠ nameState S →
        dget (dset st.dfaTrans (nameState S)
          (dset row sym [nameState (moveClosure a S sym)])) m = dget st.dfaTrans m := by
      intro m hm
      exact dget_dset_ne _ _ _ m (fun h => hm h.symm)
    have f3 : dget st.dfaTrans (nameState (moveClosure a S sym)) = none := by
      cases hd : dget st.dfaTrans (nameState (moveClosure a S sym)) with
      | none => rfl
      | some row2 =>
        exact absurd (H5 _ row2 hnn_ne hd).1 hseen
    have hFmem : ∀ m, (m ∈ (if (moveClosure a S sym).any (fun s => decide (s ∈ a.final_states)) then
          st.dfaFinals ++ [nameState (moveClosure a S sym)] else st.dfaFinals)) ↔
        (m ∈ st.dfaFinals ∨
          ((moveClosure a S sym).any (fun s => decide (s ∈ a.final_states)) = true ∧
            m = nameState (moveClosure a S sym))) := by
      intro m
      split
      · rename_i hany
        rw [List.mem_append, List.mem_singleton]
        constructor
        · intro h
          rcases h with h | h
          · exact Or.inl h
          · exact Or.inr ⟨hany, h⟩
        · intro h
          rcases h with h | ⟨h1, h2⟩
          · exact Or.inl h
          · exact Or.inr h2
      · rename_i hany
        constructor
        · intro h; exact Or.inl h
        · intro h
          rcases h with h | ⟨h1, h2⟩
          · exact h
          · exact absurd h1 hany
    refine ⟨?_, ?_, ?_, ?_, ?_, ?_, ?_, ?_, ?_⟩
    · intro T hT
      rcases List.mem_cons.1 hT with hT | hT
      · subst hT
        refine ⟨DetReach.step S sym hS hsym, ?_, ?_⟩
        · exact List.mem_append.2 (Or.inr (List.mem_singleton.2 rfl))
        · rw [f2 _ hnn_ne]
          exact f3
      · rcases H1 T hT with ⟨hT1, hT2, hT3⟩
        have hTn : nameState T ≠ nameState S := by
          intro h
          rw [h, hrow] at hT3
          cases hT3
        exact ⟨hT1, List.mem_append.2 (Or.inl hT2), by rw [f2 _ hTn]; exact hT3⟩
    · show (nameState (moveClosure a S sym) :: st.unchecked.map nameState).Nodup
      rw [List.nodup_cons]
      refine ⟨?_, H2⟩
      intro hc
      rcases List.mem_map.1 hc with ⟨T, hT, hTn⟩
      exact hseen (hTn ▸ (H1 T hT).2.1)
    · intro m hm
      rcases List.mem_append.1 hm with hm | hm
      · rcases H3 m hm with ⟨T, hT1, hT2, hT3⟩
        refine ⟨T, hT1, hT2, ?_⟩
        rw [hFmem m]
        have hmne : m ≠ nameState (moveClosure a S sym) := fun h => hseen (h ▸ hm)
        constructor
        · intro h
          rcases h with h | ⟨h1, h2⟩
          · exact hT3.1 h
          · exact absurd h2 hmne
        · intro h
          exact Or.inl (hT3.2 h)
      · simp only [List.mem_singleton] at hm
        subst hm
        refine ⟨moveClosure a S sym, DetReach.step S sym hS hsym, rfl, ?_⟩
        rw [hFmem _]
        constructor
        · intro h
          rcases h with h | ⟨h1, h2⟩
          · exact absurd (H4 _ h) hseen
          · rw [List.any_eq_true] at h1
            rcases h1 with ⟨x, hx1, hx2⟩
            exact ⟨x, hx1, of_decide_eq_true hx2⟩
        · intro h
          rcases h with ⟨x, hx1, hx2⟩
          refine Or.inr ⟨List.any_eq_true.2 ⟨x, hx1, decide_eq_true hx2⟩, rfl⟩
    · intro m hm
      rw [hFmem m] at hm
      rcases hm with hm | ⟨h1, h2⟩
      · exact List.mem_append.2 (Or.inl (H4 m hm))
      · subst h2
        exact List.mem_append.2 (Or.inr (List.mem_singleton.2 rfl))
    · intro m row2 hm hrow2
      rw [f2 m hm] at hrow2
      rcases H5 m row2 hm hrow2 with ⟨hm1, T, hT1, hT2, hT3⟩
      refine ⟨List.mem_append.2 (Or.inl hm1), T, hT1, hT2, ?_, hT3.2⟩
      intro sym2 hsym2
      rcases hT3.1 sym2 hsym2 with ⟨ha, hb⟩
      exact ⟨ha, List.mem_append.2 (Or.inl hb)⟩
    · refine ⟨dset row sym [nameState (moveClosure a S sym)], dget_dset_self _ _ _, ?_, ?_⟩
      · intro sym2 hsym2
        rcases List.mem_append.1 hsym2 with h | h
        · have hne : sym ≠ sym2 := fun hc => hdone (hc ▸ h)
          rw [dget_dset_ne _ _ _ _ hne]
          rcases hrowc1 sym2 h with ⟨ha, hb⟩
          exact ⟨ha, List.mem_append.2 (Or.inl hb)⟩
        · simp only [List.mem_singleton] at h
          subst h
          rw [dget_dset_self]
          exact ⟨rfl, List.mem_append.2 (Or.inr (List.mem_singleton.2 rfl))⟩
      · intro sym2 hne
        rw [dget_dset] at hne
        by_cases hs2 : sym = sym2
        · subst hs2
          exact List.mem_append.2 (Or.inr (List.mem_singleton.2 rfl))
        · rw [if_neg hs2] at hne
          exact List.mem_append.2 (Or.inl (hrowc2 sym2 hne))
    · exact List.mem_append.2 (Or.inl H7)
    · rw [List.nodup_append]
      exact ⟨H8, List.nodup_singleton _, by
        intro x hx hy
        simp only [List.mem_singleton] at hy
        subst hy
        exact hseen hx⟩
    · intro m hm hnone
      rcases List.mem_append.1 hm with hm | hm
      · have hmn : m ≠ nameState S := by
          intro h
          rw [h, dget_dset_self] at hnone
          cases hnone
        rw [f2 m hmn] at hnone
        have := H9 m hm hnone
        show m ∈ nameState (moveClosure a S sym) :: st.unchecked.map nameState
        exact List.mem_cons_of_mem _ this
      · simp only [List.mem_singleton] at hm
        subst hm
        show nameState (moveClosure a S sym) ∈
          nameState (moveClosure a S sym) :: st.unchecked.map nameState
        exact List.mem_cons_self _ _

theorem detSymsFold_mid (a : FiniteAutomaton) (S : List Str) :
    ∀ (todo done : List Symb) (st : DetState),
      DetReach a S →
      (∀ sym ∈ todo, sym ∈ realSyms a.symbols) →
      (done ++ todo).Nodup →
      DetMid a S done st →
      DetMid a S (done ++ todo) (todo.foldl (detSymStep a S (nameState S)) st) := by
  intro todo
  induction todo with
  | nil =>
    intro done st _ _ _ h
    simpa using h
  | cons sym rest ih =>
    intro done st hS htodo hnd hmid
    rw [List.foldl_cons]
    have hsym : sym ∈ realSyms a.symbols := htodo sym (List.mem_cons_self _ _)
    have hdone : sym ∉ done := by
      intro hc
      exact (List.disjoint_of_nodup_append hnd) hc (List.mem_cons_self _ _)
    have hstep := detSymStep_mid a S done st sym hS hsym hdone hmid
    have hrec := ih (done ++ [sym]) (detSymStep a S (nameState S) st sym) hS
      (fun s hs => htodo s (List.mem_cons_of_mem _ hs))
      (by simpa [List.append_assoc] using hnd) hstep
    simpa [List.append_assoc] using hrec

theorem detSymStep_count (a : FiniteAutomaton) (current : List Str) (n : Str)
    (st : DetState) (sym : Symb) :
    (detSymStep a current n st sym).unchecked.length + st.dfaStates.length =
      st.unchecked.length + (detSymStep a current n st sym).dfaStates.length := by
  unfold detSymStep
  dsimp only
  split
  · rfl
  · dsimp only
    rw [List.length_cons, List.length_append]
    simp
    omega

theorem detSymsFold_count (a : FiniteAutomaton) (current : List Str) (n : Str) :
    ∀ (todo : List Symb) (st : DetState),
      (todo.foldl (detSymStep a current n) st).unchecked.length + st.dfaStates.length =
        st.unchecked.length + (todo.foldl (detSymStep a current n) st).dfaStates.length := by
  intro todo
  induction todo with
  | nil => intro st; rfl
  | cons sym rest ih =>
    intro st
    rw [List.foldl_cons]
    have h1 := detSymStep_count a current n st sym
    have h2 := ih (detSymStep a current n st sym)
    omega

theorem detInv_pop (a : FiniteAutomaton) (st : DetState) (S : List Str) (rest : List (List Str))
    (hu : st.unchecked = S :: rest) (hinv : DetInv a st) :
    DetReach a S ∧
    DetMid a S [] ⟨rest, st.dfaStates, dset st.dfaTrans (nameState S) [], st.dfaFinals⟩ := by
  obtain ⟨H1, H2, H3, H4, H5, H6, H7⟩ := hinv
  have hSm : S ∈ st.unchecked := by rw [hu]; exact List.mem_cons_self _ _
  rcases H1 S hSm with ⟨hSreach, hSname, hSnone⟩
  refine ⟨hSreach, ?_, ?_, ?_, ?_, ?_, ?_, ?_, ?_, ?_⟩
  · intro T hT
    have hTm : T ∈ st.unchecked := by rw [hu]; exact List.mem_cons_of_mem _ hT
    rcases H1 T hTm with ⟨hT1, hT2, hT3⟩
    have hTn : nameState T ≠ nameState S := by
      have := H2
      rw [hu] at this
      simp only [List.map_cons, List.nodup_cons] at this
      intro hc
      exact this.1 (hc ▸ List.mem_map_of_mem nameState hT)
    exact ⟨hT1, hT2, by rw [dget_dset_ne _ _ _ _ (fun h => hTn h.symm)]; exact hT3⟩
  · have := H2
    rw [hu] at this
    simp only [List.map_cons, List.nodup_cons] at this
    exact this.2
  · exact H3
  · exact H4
  · intro m row hm hrow
    rw [dget_dset_ne _ _ _ _ (fun h => hm h.symm)] at hrow
    exact H5 m row hrow
  · refine ⟨[], dget_dset_self _ _ _, ?_, ?_⟩
    · intro sym hsym; cases hsym
    · intro sym hne
      exact absurd rfl hne
  · exact hSname
  · exact H6
  · intro m hm hnone
    have hmn : m ≠ nameState S := by
      intro h
      rw [h, dget_dset_self] at hnone
      cases hnone
    rw [dget_dset_ne _ _ _ _ (fun h => hmn h.symm)] at hnone
    have := H7 m hm hnone
    rw [hu] at this
    simp only [List.map_cons] at this
    rcases List.mem_cons.1 this with h | h
    · exact absurd h hmn
    · exact h

theorem detMid_to_inv (a : FiniteAutomaton) (S : List Str) (st : DetState)
    (hS : DetReach a S)
    (hmid : DetMid a S (realSyms a.symbols) st) : DetInv a st := by
  obtain ⟨H1, H2, H3, H4, H5, ⟨row0, hrow0, hrc0⟩, H7, H8, H9⟩ := hmid
  refine ⟨H1, H2, H3, H4, ?_, H8, H9⟩
  intro m row hmrow
  by_cases hm : m = nameState S
  · subst hm
    rw [hrow0] at hmrow
    injection hmrow with h
    subst h
    exact ⟨H7, S, hS, rfl, hrc0⟩
  · exact H5 m row hm hmrow

theorem detInv_bound (a : FiniteAutomaton) (st : DetState) (hinv : DetInv a st) :
    st.dfaStates.length ≤ 2 ^ (detUniverse a).length := by
  obtain ⟨H1, H2, H3, H4, H5, H6, H7⟩ := hinv
  apply dfaStates_bound a st.dfaStates H6
  intro n hn
  rcases H3 n hn with ⟨T, hT1, hT2, _⟩
  exact ⟨T, detReach_nodup a T hT1, detReach_subset a T hT1, hT2⟩

theorem detLoop_end (a : FiniteAutomaton) :
    ∀ (fuel : Nat) (st : DetState), DetInv a st → detMu a st < fuel →
      (detLoop a (realSyms a.symbols) fuel st).unchecked = [] ∧
      DetInv a (detLoop a (realSyms a.symbols) fuel st) := by
  intro fuel
  induction fuel with
  | zero => intro st _ hmu; omega
  | succ f ih =>
    intro st hinv hmu
    obtain ⟨u, ds, tr, fin⟩ := st
    cases hu : u with
    | nil =>
      subst hu
      exact ⟨rfl, hinv⟩
    | cons S rest =>
      subst hu
      rcases detInv_pop a ⟨S :: rest, ds, tr, fin⟩ S rest rfl hinv with ⟨hSreach, hmid⟩
      have hnone : dget tr (nameState S) = none := by
        obtain ⟨H1, _⟩ := hinv
        exact (H1 S (List.mem_cons_self _ _)).2.2
      have hif : (if (dget tr (nameState S)).isSome then tr else dset tr (nameState S) []) =
          dset tr (nameState S) [] := by
        rw [hnone]
        simp
      have hloopeq : detLoop a (realSyms a.symbols) (f + 1) ⟨S :: rest, ds, tr, fin⟩ =
          detLoop a (realSyms a.symbols) f
            ((realSyms a.symbols).foldl (detSymStep a S (nameState S))
              ⟨rest, ds, dset tr (nameState S) [], fin⟩) := by
        rw [show detLoop a (realSyms a.symbols) (f + 1) ⟨S :: rest, ds, tr, fin⟩ =
            detLoop a (realSyms a.symbols) f
              ((realSyms a.symbols).foldl (detSymStep a S (nameState S))
                ⟨rest, ds, if (dget tr (nameState S)).isSome then tr
                  else dset tr (nameState S) [], fin⟩) from rfl, hif]
      rw [hloopeq]
      have hmid2 := detSymsFold_mid a S (realSyms a.symbols) [] _ hSreach
        (fun s hs => hs) (by simpa using realSyms_nodup a.symbols) hmid
      simp only [List.nil_append] at hmid2
      have hinv2 := detMid_to_inv a S _ hSreach hmid2
      apply ih _ hinv2
      have hcount := detSymsFold_count a S (nameState S) (realSyms a.symbols)
        ⟨rest, ds, dset tr (nameState S) [], fin⟩
      have hb1 : ds.length ≤ 2 ^ (detUniverse a).length := detInv_bound a _ hinv
      have hb2 := detInv_bound a _ hinv2
      unfold detMu at hmu ⊢
      dsimp only at hmu hcount hb1 hb2 ⊢
      simp only [List.length_cons] at hmu
      omega

/-! Supporting lemmas for the language-preservation proof of the subset
construction. -/

theorem mem_realSyms (syms : List Symb) (sym : Symb) :
    sym ∈ realSyms syms ↔ (sym ∈ syms ∧ sym ≠ none ∧ sym ≠ some lamS) := by
  unfold realSyms
  have aux : ∀ (l : List Symb) (acc : List Symb) (sym : Symb),
      sym ∈ l.foldl (fun acc s => if s = none ∨ s = some lamS then acc else sinsert acc s) acc ↔
        (sym ∈ acc ∨ (sym ∈ l ∧ sym ≠ none ∧ sym ≠ some lamS)) := by
    intro l
    induction l with
    | nil => intro acc sym; simp
    | cons s rest ih =>
      intro acc sym
      rw [List.foldl_cons]
      by_cases hs : s = none ∨ s = some lamS
      · rw [if_pos hs, ih]
        constructor
        · intro h
          rcases h with h | ⟨h1, h2⟩
          · exact Or.inl h
          · exact Or.inr ⟨List.mem_cons_of_mem s h1, h2⟩
        · intro h
          rcases h with h | ⟨h1, h2, h3⟩
          · exact Or.inl h
          · rcases List.mem_cons.1 h1 with he | he
            · subst he
              rcases hs with hs | hs
              · exact absurd hs h2
              · exact absurd hs h3
            · exact Or.inr ⟨he, h2, h3⟩
      · rw [if_neg hs, ih]
        push_neg at hs
        constructor
        · intro h
          rcases h with h | ⟨h1, h2⟩
          · rcases (mem_sinsert acc s sym).1 h with h | h
            · exact Or.inl h
            · subst h
              exact Or.inr ⟨List.mem_cons_self _ _, hs.1, hs.2⟩
          · exact Or.inr ⟨List.mem_cons_of_mem s h1, h2⟩
        · intro h
          rcases h with h | ⟨h1, h2, h3⟩
          · exact Or.inl ((mem_sinsert acc s sym).2 (Or.inl h))
          · rcases List.mem_cons.1 h1 with he | he
            · subst he
              exact Or.inl ((mem_sinsert acc sym sym).2 (Or.inr rfl))
            · exact Or.inr ⟨he, h2, h3⟩
  rw [aux syms [] sym]
  simp

theorem acceptsFrom_nil_current (a : FiniteAutomaton) (w : List Str) :
    acceptsFrom a [] w = false := by
  cases w with
  | nil => rfl
  | cons x rest => rfl

theorem valid_init (a : FiniteAutomaton) (hv : nfaValidB a = true) :
    a.initial_state ∈ a.states := by
  unfold nfaValidB at hv
  simp only [Bool.and_eq_true, decide_eq_true_iff] at hv
  exact hv.1

theorem valid_entry (a : FiniteAutomaton) (hv : nfaValidB a = true)
    (st : Str) (sym : Symb) (ds : List Str) (h : tlook a.transitions st sym = some ds) :
    (∀ d ∈ ds, d ∈ a.states) ∧ (sym = none ∨ sym = some lamS ∨ sym ∈ a.symbols) := by
  rcases tlook_some a.transitions st sym ds h with ⟨row, hr, hd⟩
  unfold nfaValidB at hv
  simp only [Bool.and_eq_true, List.all_eq_true, decide_eq_true_iff] at hv
  have hrow := hv.2 (st, row) (dget_mem _ _ _ hr)
  have hent := hrow (sym, ds) (dget_mem _ _ _ hd)
  simp only [Bool.and_eq_true, Bool.or_eq_true, beq_iff_eq, List.all_eq_true,
    decide_eq_true_iff] at hent
  refine ⟨hent.1, ?_⟩
  rcases hent.2 with (h | h) | h
  · exact Or.inl h
  · exact Or.inr (Or.inl h)
  · exact Or.inr (Or.inr h)

theorem lamReach_in_states (a : FiniteAutomaton) (hv : nfaValidB a = true)
    (S : List Str) (hS : ∀ x ∈ S, x ∈ a.states) (x : Str)
    (h : LamReach a.transitions S x) : x ∈ a.states := by
  rcases h with ⟨s, hs, hpath⟩
  induction hpath with
  | refl => exact hS s hs
  | tail hp hstep ih =>
    rename_i y d
    cases hstep with
    | mk hd =>
      unfold lamDests at hd
      rcases List.mem_append.1 hd with h2 | h2
      · cases hl : tlook a.transitions y (some lamS) with
        | none => rw [hl] at h2; cases h2
        | some ds =>
          rw [hl] at h2
          exact (valid_entry a hv y (some lamS) ds hl).1 d h2
      · cases hl : tlook a.transitions y none with
        | none => rw [hl] at h2; cases h2
        | some ds =>
          rw [hl] at h2
          exact (valid_entry a hv y none ds hl).1 d h2

theorem detReach_in_states (a : FiniteAutomaton) (hv : nfaValidB a = true)
    (S : List Str) (h : DetReach a S) : ∀ x ∈ S, x ∈ a.states := by
  cases h with
  | start =>
    intro x hx
    exact lamReach_in_states a hv [a.initial_state]
      (by intro y hy; simp only [List.mem_singleton] at hy; subst hy; exact valid_init a hv)
      x ((mem_lambdaClosure a _ x).1 hx)
  | step T sym hT hsym =>
    intro x hx
    rcases (mem_moveClosure a T sym x).1 hx with ⟨st, hst, ds, hds, d, hd, hcl⟩
    have hdst : d ∈ a.states := (valid_entry a hv st sym ds hds).1 d hd
    exact lamReach_in_states a hv [d]
      (by intro y hy; simp only [List.mem_singleton] at hy; subst hy; exact hdst)
      x ((mem_lambdaClosure a _ x).1 hcl)

theorem detReach_clean (a : FiniteAutomaton) (hv : nfaValidB a = true)
    (hc : cleanStatesB a = true) (S : List Str) (h : DetReach a S) :
    ∀ x ∈ S, cleanNameB x = true := by
  intro x hx
  unfold cleanStatesB at hc
  rw [List.all_eq_true] at hc
  exact hc x (detReach_in_states a hv S h x hx)

theorem names_determine (a : FiniteAutomaton) (hv : nfaValidB a = true)
    (hc : cleanStatesB a = true) (S T : List Str) (hS : DetReach a S) (hT : DetReach a T)
    (h : nameState S = nameState T) : ∀ x, x ∈ S ↔ x ∈ T :=
  nameState_inj S T (detReach_nodup a S hS) (detReach_nodup a T hT)
    (detReach_clean a hv hc S hS) (detReach_clean a hv hc T hT) h

theorem detSymStep_states_mono (a : FiniteAutomaton) (current : List Str) (n : Str)
    (st : DetState) (sym : Symb) (m : Str) (hm : m ∈ st.dfaStates) :
    m ∈ (detSymStep a current n st sym).dfaStates := by
  unfold detSymStep
  dsimp only
  split
  · exact hm
  · exact List.mem_append.2 (Or.inl hm)

theorem detSymsFold_states_mono (a : FiniteAutomaton) (current : List Str) (n : Str) :
    ∀ (todo : List Symb) (st : DetState) (m : Str), m ∈ st.dfaStates →
      m ∈ (todo.foldl (detSymStep a current n) st).dfaStates := by
  intro todo
  induction todo with
  | nil => intro st m hm; exact hm
  | cons sym rest ih =>
    intro st m hm
    rw [List.foldl_cons]
    exact ih _ m (detSymStep_states_mono a current n st sym m hm)

theorem detLoop_states_mono (a : FiniteAutomaton) (syms : List Symb) :
    ∀ (fuel : Nat) (st : DetState) (m : Str), m ∈ st.dfaStates →
      m ∈ (detLoop a syms fuel st).dfaStates := by
  intro fuel
  induction fuel with
  | zero => intro st m hm; exact hm
  | succ f ih =>
    intro st m hm
    obtain ⟨u, ds, tr, fin⟩ := st
    cases u with
    | nil => exact hm
    | cons S rest =>
      show m ∈ (detLoop a syms f _).dfaStates
      exact ih _ m (detSymsFold_states_mono a S (nameState S) syms _ m hm)

theorem detStart_inv (a : FiniteAutomaton) : DetInv a (detStart a) := by
  unfold detStart DetInv
  dsimp only
  refine ⟨?_, ?_, ?_, ?_, ?_, ?_, ?_⟩
  · intro T hT
    simp only [List.mem_singleton] at hT
    subst hT
    exact ⟨DetReach.start, List.mem_singleton.2 rfl, rfl⟩
  · simp
  · intro m hm
    simp only [List.mem_singleton] at hm
    subst hm
    refine ⟨lambdaClosure a [a.initial_state], DetReach.start, rfl, ?_⟩
    split
    · rename_i hany
      rw [List.any_eq_true] at hany
      rcases hany with ⟨z, hz1, hz2⟩
      constructor
      · intro _
        exact ⟨z, hz1, of_decide_eq_true hz2⟩
      · intro _
        exact List.mem_singleton.2 rfl
    · rename_i hany
      constructor
      · intro hmem
        cases hmem
      · intro hex
        rcases hex with ⟨z, hz1, hz2⟩
        exact absurd (List.any_eq_true.2 ⟨z, hz1, decide_eq_true hz2⟩) hany
  · intro m hm
    split at hm
    · exact hm
    · cases hm
  · intro m row hrow
    cases hrow
  · simp
  · intro m hm _
    simp only [List.map_cons, List.map_nil]
    exact hm

theorem detFuel_enough (a : FiniteAutomaton) : detMu a (detStart a) < detFuel a := by
  unfold detMu detStart detFuel
  dsimp only
  have h1 : 1 ≤ 2 ^ (detUniverse a).length := Nat.one_le_two_pow
  simp only [List.length_singleton]
  omega

theorem detFinalState_spec (a : FiniteAutomaton) :
    (detFinalState a).unchecked = [] ∧ DetInv a (detFinalState a) :=
  detLoop_end a (detFuel a) (detStart a) (detStart_inv a) (detFuel_enough a)

theorem detFinal_row (a : FiniteAutomaton) (n : Str)
    (hn : n ∈ (detFinalState a).dfaStates) :
    ∃ row T, dget (detFinalState a).dfaTrans n = some row ∧ DetReach a T ∧
      n = nameState T ∧
      rowComplete a row T (realSyms a.symbols) (detFinalState a).dfaStates := by
  rcases detFinalState_spec a with ⟨hemp, hinv⟩
  obtain ⟨H1, H2, H3, H4, H5, H6, H7⟩ := hinv
  cases hd : dget (detFinalState a).dfaTrans n with
  | none =>
    have := H7 n hn hd
    rw [hemp] at this
    cases this
  | some row =>
    rcases H5 n row hd with ⟨_, T, hT1, hT2, hT3⟩
    exact ⟨row, T, rfl, hT1, hT2, hT3⟩

theorem detReach_registered (a : FiniteAutomaton) (hv : nfaValidB a = true)
    (hc : cleanStatesB a = true) (S : List Str) (h : DetReach a S) :
    nameState S ∈ (detFinalState a).dfaStates := by
  induction h with
  | start =>
    apply detLoop_states_mono
    unfold detStart
    exact List.mem_singleton.2 rfl
  | step S sym hS hsym ih =>
    rcases detFinal_row a (nameState S) ih with ⟨row, T, hrow, hT1, hT2, hT3⟩
    rcases hT3.1 sym hsym with ⟨ha, hb⟩
    have hsets : ∀ z, z ∈ moveClosure a T sym ↔ z ∈ moveClosure a S sym :=
      moveClosure_set_eq a T S sym (fun z => (names_determine a hv hc S T hS hT1 hT2 z).symm)
    have hname : nameState (moveClosure a T sym) = nameState (moveClosure a S sym) :=
      nameState_set_eq _ _ (moveClosure_nodup a T sym) (moveClosure_nodup a S sym) hsets
    rw [← hname]
    exact hb

theorem detFinal_lamDests_nil (a : FiniteAutomaton) (n : Str) :
    lamDests (detFinalState a).dfaTrans n = [] := by
  rcases detFinalState_spec a with ⟨hemp, hinv⟩
  obtain ⟨H1, H2, H3, H4, H5, H6, H7⟩ := hinv
  unfold lamDests tlook
  cases hd : dget (detFinalState a).dfaTrans n with
  | none => rfl
  | some row =>
    rcases H5 n row hd with ⟨_, T, hT1, hT2, hT3⟩
    have hlam : dget row (some lamS) = none := by
      cases hl : dget row (some lamS) with
      | none => rfl
      | some ds =>
        have := hT3.2 (some lamS) (by rw [hl]; exact fun hcon => Option.noConfusion hcon)
        rw [mem_realSyms] at this
        exact absurd rfl this.2.2
    have hnone : dget row none = none := by
      cases hl : dget row none with
      | none => rfl
      | some ds =>
        have := hT3.2 none (by rw [hl]; exact fun hcon => Option.noConfusion hcon)
        rw [mem_realSyms] at this
        exact absurd rfl this.2.1
    show (dget row (some lamS)).getD [] ++ (dget row none).getD [] = []
    rw [hlam, hnone]
    rfl

theorem closureLoop_nil_stack (tr : TTab) (fuel : Nat) (C : List Str) :
    closureLoop tr fuel [] C = C := by
  cases fuel with
  | zero => rfl
  | succ f => rfl

theorem lambdaClosure_single (a2 : FiniteAutomaton) (n : Str)
    (h : lamDests a2.transitions n = []) : lambdaClosure a2 [n] = [n] := by
  unfold lambdaClosure closureFuel
  rw [show [n].length + totalDests a2.transitions + 1 =
    (totalDests a2.transitions + 1) + 1 by simp; omega]
  rw [show closureLoop a2.transitions ((totalDests a2.transitions + 1) + 1) [n] [n] =
      closureLoop a2.transitions (totalDests a2.transitions + 1)
        ((lamDests a2.transitions n).foldl pushNew ([n], [])).2
        ((lamDests a2.transitions n).foldl pushNew ([n], [])).1 from rfl]
  rw [h]
  exact closureLoop_nil_stack _ _ _

theorem det_sim (a : FiniteAutomaton) (hv : nfaValidB a = true)
    (hc : cleanStatesB a = true) :
    ∀ (w : List Str), (∀ x ∈ w, x ≠ lamS) → ∀ (S : List Str), DetReach a S →
      acceptsFrom (toDeterministic a) [nameState S] w = acceptsFrom a S w := by
  intro w
  induction w with
  | nil =>
    intro _ S hS
    show ([nameState S].any (fun st => decide (st ∈ (toDeterministic a).final_states))) =
      (S.any (fun st => decide (st ∈ a.final_states)))
    rcases detFinalState_spec a with ⟨hemp, hinv⟩
    obtain ⟨H1, H2, H3, H4, H5, H6, H7⟩ := hinv
    have hreg := detReach_registered a hv hc S hS
    rcases H3 (nameState S) hreg with ⟨T, hT1, hT2, hT3⟩
    have hiff : nameState S ∈ (toDeterministic a).final_states ↔
        ∃ x ∈ S, x ∈ a.final_states := by
      show nameState S ∈ (detFinalState a).dfaFinals ↔ _
      rw [hT3]
      constructor
      · rintro ⟨x, hx1, hx2⟩
        exact ⟨x, (names_determine a hv hc S T hS hT1 hT2 x).2 hx1, hx2⟩
      · rintro ⟨x, hx1, hx2⟩
        exact ⟨x, (names_determine a hv hc S T hS hT1 hT2 x).1 hx1, hx2⟩
    cases hany : S.any (fun st => decide (st ∈ a.final_states)) with
    | true =>
      rw [List.any_eq_true] at hany
      rcases hany with ⟨x, hx1, hx2⟩
      have hmem : nameState S ∈ (toDeterministic a).final_states :=
        hiff.2 ⟨x, hx1, of_decide_eq_true hx2⟩
      simp [hmem]
    | false =>
      have hnmem : nameState S ∉ (toDeterministic a).final_states := by
        intro hcon
        rcases hiff.1 hcon with ⟨x, hx1, hx2⟩
        have : S.any (fun st => decide (st ∈ a.final_states)) = true :=
          List.any_eq_true.2 ⟨x, hx1, decide_eq_true hx2⟩
        rw [hany] at this
        cases this
      simp [hnmem]
  | cons x rest ih =>
    intro hw S hS
    have hwrest : ∀ y ∈ rest, y ≠ lamS := fun y hy => hw y (List.mem_cons_of_mem x hy)
    have hxlam : x ≠ lamS := hw x (List.mem_cons_self _ _)
    show (if (moveClosure (toDeterministic a) [nameState S] (some x)).isEmpty then false
        else acceptsFrom (toDeterministic a)
          (moveClosure (toDeterministic a) [nameState S] (some x)) rest) =
      (if (moveClosure a S (some x)).isEmpty then false
        else acceptsFrom a (moveClosure a S (some x)) rest)
    have hreg := detReach_registered a hv hc S hS
    rcases detFinal_row a (nameState S) hreg with ⟨row, T, hrow, hT1, hT2, hT3⟩
    have htlook : tlook (toDeterministic a).transitions (nameState S) (some x) =
        dget row (some x) := by
      show tlook (detFinalState a).dfaTrans (nameState S) (some x) = _
      unfold tlook
      rw [hrow]
    by_cases hsym : (some x : Symb) ∈ realSyms a.symbols
    · rcases hT3.1 (some x) hsym with ⟨ha, hb⟩
      have hsets : ∀ z, z ∈ moveClosure a T (some x) ↔ z ∈ moveClosure a S (some x) :=
        moveClosure_set_eq a T S (some x)
          (fun z => (names_determine a hv hc S T hS hT1 hT2 z).symm)
      have hname : nameState (moveClosure a T (some x)) =
          nameState (moveClosure a S (some x)) :=
        nameState_set_eq _ _ (moveClosure_nodup a T (some x)) (moveClosure_nodup a S (some x))
          hsets
      have hmv : moveClosure (toDeterministic a) [nameState S] (some x) =
          [nameState (moveClosure a S (some x))] := by
        show ((match tlook (toDeterministic a).transitions (nameState S) (some x) with
          | some dests => dests.foldl
              (fun acc2 d => sunion acc2 (lambdaClosure (toDeterministic a) [d])) []
          | none => ([] : List Str))) = _
        rw [htlook, ha]
        show sunion [] (lambdaClosure (toDeterministic a) [nameState (moveClosure a T (some x))]) = _
        rw [show lambdaClosure (toDeterministic a) [nameState (moveClosure a T (some x))] =
            [nameState (moveClosure a T (some x))] from
          lambdaClosure_single (toDeterministic a) _ (detFinal_lamDests_nil a _)]
        rw [hname]
        rfl
      rw [hmv]
      have hstep : DetReach a (moveClosure a S (some x)) := DetReach.step S (some x) hS hsym
      have hih := ih hwrest (moveClosure a S (some x)) hstep
      rw [show ([nameState (moveClosure a S (some x))] : List Str).isEmpty = false from rfl]
      simp only [Bool.false_eq_true, if_neg, not_false_iff]
      rw [hih]
      cases hemp : (moveClosure a S (some x)).isEmpty with
      | true =>
        rw [if_pos rfl]
        rw [List.isEmpty_iff] at hemp
        rw [hemp]
        exact acceptsFrom_nil_current a rest
      | false =>
        rw [if_neg (by simp [hemp])]
    · have hmvS : moveClosure a S (some x) = [] := by
        rw [List.eq_nil_iff_forall_not_mem]
        intro z hz
        rcases (mem_moveClosure a S (some x) z).1 hz with ⟨st, hst, ds, hds, _⟩
        rcases (valid_entry a hv st (some x) ds hds).2 with h | h | h
        · cases h
        · injection h with h2
          exact hxlam h2
        · exact hsym ((mem_realSyms a.symbols (some x)).2
            ⟨h, fun hcon => Option.noConfusion hcon,
             fun hcon => hxlam (Option.some.inj hcon)⟩)
      have hnorow : dget row (some x) = none := by
        cases hl : dget row (some x) with
        | none => rfl
        | some ds =>
          have := hT3.2 (some x) (by rw [hl]; exact fun hcon => Option.noConfusion hcon)
          exact absurd this hsym
      have hmvD : moveClosure (toDeterministic a) [nameState S] (some x) = [] := by
        show ((match tlook (toDeterministic a).transitions (nameState S) (some x) with
          | some dests => dests.foldl
              (fun acc2 d => sunion acc2 (lambdaClosure (toDeterministic a) [d])) []
          | none => ([] : List Str))) = _
        rw [htlook, hnorow]
      rw [hmvS, hmvD]
      rfl

/-- C1 (amended): for every automaton satisfying the Automaton Model
invariants whose state names are nonempty, contain no `_` (the join
separator), and differ from the dead label `"∅"` — exactly what makes the
canonical sorted-join naming injective — the subset construction preserves
the accepted language on every input string that does not use the reserved
epsilon marker as an input symbol. -/
theorem determinize_preserves_language (a : FiniteAutomaton)
    (hv : nfaValidB a = true) (hc : cleanStatesB a = true)
    (w : List Str) (hw : ∀ x ∈ w, x ≠ lamS) :
    accepts a w = accepts (toDeterministic a) w := by
  have hsingle : lambdaClosure (toDeterministic a) [(toDeterministic a).initial_state] =
      [(toDeterministic a).initial_state] :=
    lambdaClosure_single (toDeterministic a) _ (detFinal_lamDests_nil a _)
  show acceptsFrom a (lambdaClosure a [a.initial_state]) w =
    acceptsFrom (toDeterministic a)
      (lambdaClosure (toDeterministic a) [(toDeterministic a).initial_state]) w
  rw [hsingle]
  exact (det_sim a hv hc w hw (lambdaClosure a [a.initial_state]) DetReach.start).symm

theorem determinize_preserves_language_witness :
    nfaValidB wA = true ∧ cleanStatesB wA = true ∧ (∀ x ∈ [str "x"], x ≠ lamS) ∧
    accepts wA [str "x"] = accepts (toDeterministic wA) [str "x"] :=
  ⟨by decide, by decide, by decide,
   determinize_preserves_language wA (by decide) (by decide) [str "x"] (by decide)⟩

/-- C6: the subset construction yields a total, single-valued transition
function: every state of the result has exactly one destination for every
symbol of the result's alphabet (the dead state `"∅"` included, like every
other registered state). -/
theorem toDeterministic_total (a : FiniteAutomaton) :
    ∀ st ∈ (toDeterministic a).states, ∀ sym ∈ (toDeterministic a).symbols,
      ∃ d, tlook (toDeterministic a).transitions st sym = some [d] := by
  intro st hst sym hsym
  rcases detFinal_row a st hst with ⟨row, T, hrow, _, _, hrc⟩
  rcases hrc.1 sym hsym with ⟨ha, _⟩
  refine ⟨nameState (moveClosure a T sym), ?_⟩
  show tlook (detFinalState a).dfaTrans st sym = _
  unfold tlook
  rw [hrow]
  exact ha

theorem toDeterministic_total_witness :
    str "q0" ∈ (toDeterministic cexN).states ∧
    some (str "x") ∈ (toDeterministic cexN).symbols ∧
    ∃ d, tlook (toDeterministic cexN).transitions (str "q0") (some (str "x")) = some [d] :=
  ⟨by decide, by decide,
   toDeterministic_total cexN (str "q0") (by decide) (some (str "x")) (by decide)⟩

/-! Lookup lemmas for tables built as maps, and block-index lemmas. -/

theorem dget_map_of_inj {γ κ α : Type} [DecidableEq γ] [DecidableEq κ] (f : γ → κ) (F : γ → α)
    (l : List γ) (j : γ) (hinj : ∀ x ∈ l, f x = f j → x = j) :
    dget (l.map (fun i => (f i, F i))) (f j) = if j ∈ l then some (F j) else none := by
  induction l with
  | nil => rfl
  | cons x rest ih =>
    show dget ((f x, F x) :: rest.map (fun i => (f i, F i))) (f j) = _
    by_cases hfx : f x = f j
    · have hx : x = j := hinj x (List.mem_cons_self _ _) hfx
      subst hx
      simp [dget, hfx]
    · have hxj : x ≠ j := fun h => hfx (h ▸ rfl)
      have : dget ((f x, F x) :: rest.map (fun i => (f i, F i))) (f j) =
          dget (rest.map (fun i => (f i, F i))) (f j) := by
        simp [dget, hfx]
      rw [this, ih (fun y hy hfy => hinj y (List.mem_cons_of_mem x hy) hfy)]
      by_cases hjr : j ∈ rest
      · simp [hjr, List.mem_cons_of_mem x hjr]
      · have : j ∉ x :: rest := by
          intro hc
          rcases List.mem_cons.1 hc with hc | hc
          · exact hxj hc.symm
          · exact hjr hc
        simp [hjr, this]

theorem natToStr_inj (i j : Nat) (h : natToStr i = natToStr j) : i = j := by
  have := congrArg strToNat h
  rwa [strToNat_natToStr, strToNat_natToStr] at this

theorem className_inj (i j : Nat) (h : className i = className j) : i = j := by
  unfold className at h
  injection h with h1 h2
  exact natToStr_inj i j h2

theorem classOf_lt (parts : List (List Str)) (s : Str) (h : ∃ p ∈ parts, s ∈ p) :
    classOf parts s < parts.length := by
  unfold classOf
  apply List.findIdx_lt_length_of_exists
  rcases h with ⟨p, hp, hs⟩
  exact ⟨p, hp, decide_eq_true hs⟩

theorem classOf_mem (parts : List (List Str)) (s : Str) (h : ∃ p ∈ parts, s ∈ p) :
    s ∈ parts.get ⟨classOf parts s, classOf_lt parts s h⟩ := by
  have := @List.findIdx_get _ (fun p => decide (s ∈ p)) parts (classOf_lt parts s h)
  exact of_decide_eq_true this

theorem classOf_eq (parts : List (List Str))
    (hdisj : List.Pairwise (fun p q => ∀ x ∈ p, x ∉ q) parts)
    (i : Nat) (hi : i < parts.length) (s : Str) (hs : s ∈ parts.get ⟨i, hi⟩) :
    classOf parts s = i := by
  have hex : ∃ p ∈ parts, s ∈ p := ⟨parts.get ⟨i, hi⟩, List.get_mem parts i hi, hs⟩
  have hlt := classOf_lt parts s hex
  have hmem := classOf_mem parts s hex
  rcases Nat.lt_trichotomy (classOf parts s) i with h | h | h
  · have hpair := (List.pairwise_iff_get.1 hdisj) ⟨classOf parts s, hlt⟩ ⟨i, hi⟩ h
    exact absurd hs (hpair s hmem)
  · exact h
  · have : (fun p => decide (s ∈ p)) (parts.get ⟨i, hi⟩) = false := by
      have := @List.not_of_lt_findIdx _ (fun p => decide (s ∈ p)) parts i h
      simpa using this
    simp only [decide_eq_false_iff_not] at this
    exact absurd hs this

/-! Characterisation of the reachability scan of `to_minimized`. -/

theorem destsFoldQ_suffix (r2 : List Str) (dests : List Str) :
    ∀ q, ∃ t, dests.foldl (fun q3 d => if d ∈ r2 then q3 else q3 ++ [d]) q = q ++ t ∧
      ∀ x ∈ t, x ∈ dests := by
  induction dests with
  | nil => intro q; exact ⟨[], by simp, by simp⟩
  | cons d rest ih =>
    intro q
    rw [List.foldl_cons]
    by_cases hd : d ∈ r2
    · rw [if_pos hd]
      rcases ih q with ⟨t, ht, hts⟩
      exact ⟨t, ht, fun x hx => List.mem_cons_of_mem d (hts x hx)⟩
    · rw [if_neg hd]
      rcases ih (q ++ [d]) with ⟨t, ht, hts⟩
      refine ⟨[d] ++ t, by simpa using ht, ?_⟩
      intro x hx
      rcases List.mem_append.1 hx with hx | hx
      · simp only [List.mem_singleton] at hx
        subst hx
        exact List.mem_cons_self _ _
      · exact List.mem_cons_of_mem d (hts x hx)

theorem destsFoldQ_cover (r2 : List Str) (dests : List Str) :
    ∀ q, ∀ d ∈ dests, d ∈ r2 ∨
      d ∈ dests.foldl (fun q3 d => if d ∈ r2 then q3 else q3 ++ [d]) q := by
  induction dests with
  | nil => intro q d hd; cases hd
  | cons e rest ih =>
    intro q d hd
    rw [List.foldl_cons]
    rcases List.mem_cons.1 hd with hde | hde
    · subst hde
      by_cases he : d ∈ r2
      · exact Or.inl he
      · rw [if_neg he]
        rcases destsFoldQ_suffix r2 rest (q ++ [d]) with ⟨t, ht, _⟩
        right
        rw [ht]
        exact List.mem_append.2 (Or.inl (List.mem_append.2 (Or.inr (by simp))))
    · by_cases he : e ∈ r2
      · rw [if_pos he]
        exact ih q d hde
      · rw [if_neg he]
        exact ih (q ++ [e]) d hde

theorem destsFoldQ_len (r2 : List Str) (dests : List Str) :
    ∀ q, (dests.foldl (fun q3 d => if d ∈ r2 then q3 else q3 ++ [d]) q).length ≤
      q.length + dests.length := by
  induction dests with
  | nil => intro q; simp
  | cons d rest ih =>
    intro q
    rw [List.foldl_cons]
    by_cases hd : d ∈ r2
    · rw [if_pos hd]
      have := ih q
      simp only [List.length_cons]
      omega
    · rw [if_neg hd]
      have := ih (q ++ [d])
      have hlen : (q ++ [d]).length = q.length + 1 := by simp
      simp only [List.length_cons]
      omega


theorem bfsFold_suffix (tr : TTab) (r2 : List Str) (st : Str) (syms : List Str) :
    ∀ q, ∃ t, syms.foldl (fun q sym =>
        match tlook tr st (some sym) with
        | some dests =>
          if dests.isEmpty then
            if deadS ∈ r2 ∨ deadS ∈ q then q else q ++ [deadS]
          else
            dests.foldl (fun q3 d => if d ∈ r2 then q3 else q3 ++ [d]) q
        | none => if deadS ∈ r2 ∨ deadS ∈ q then q else q ++ [deadS]) q = q ++ t ∧
      ∀ x ∈ t, (∃ sym ∈ syms, ∃ ds, tlook tr st (some sym) = some ds ∧ x ∈ ds) ∨
        (x = deadS ∧ ∃ sym ∈ syms,
          (tlook tr st (some sym) = none ∨ tlook tr st (some sym) = some [])) := by
  induction syms with
  | nil => intro q; exact ⟨[], by simp, by simp⟩
  | cons sym rest ih =>
    intro q
    rw [List.foldl_cons]
    have step : ∀ (q2 : List Str),
        (∃ t0, q2 = q ++ t0 ∧ ∀ x ∈ t0,
          (∃ ds, tlook tr st (some sym) = some ds ∧ x ∈ ds) ∨
          (x = deadS ∧ (tlook tr st (some sym) = none ∨ tlook tr st (some sym) = some []))) →
        ∃ t, rest.foldl (fun q sym =>
          match tlook tr st (some sym) with
          | some dests =>
            if dests.isEmpty then
              if deadS ∈ r2 ∨ deadS ∈ q then q else q ++ [deadS]
            else
              dests.foldl (fun q3 d => if d ∈ r2 then q3 else q3 ++ [d]) q
          | none => if deadS ∈ r2 ∨ deadS ∈ q then q else q ++ [deadS]) q2 = q ++ t ∧
          ∀ x ∈ t, (∃ sym2 ∈ sym :: rest, ∃ ds, tlook tr st (some sym2) = some ds ∧ x ∈ ds) ∨
            (x = deadS ∧ ∃ sym2 ∈ sym :: rest,
              (tlook tr st (some sym2) = none ∨ tlook tr st (some sym2) = some [])) := by
      intro q2 ⟨t0, hq2, ht0⟩
      rcases ih q2 with ⟨t1, ht1, hts1⟩
      refine ⟨t0 ++ t1, by rw [ht1, hq2, List.append_assoc], ?_⟩
      intro x hx
      rcases List.mem_append.1 hx with hx | hx
      · rcases ht0 x hx with ⟨ds, hds, hxds⟩ | ⟨hxd, hmiss⟩
        · exact Or.inl ⟨sym, List.mem_cons_self _ _, ds, hds, hxds⟩
        · exact Or.inr ⟨hxd, sym, List.mem_cons_self _ _, hmiss⟩
      · rcases hts1 x hx with ⟨sym2, hsym2, hrest⟩ | ⟨hxd, sym2, hsym2, hmiss⟩
        · exact Or.inl ⟨sym2, List.mem_cons_of_mem _ hsym2, hrest⟩
        · exact Or.inr ⟨hxd, sym2, List.mem_cons_of_mem _ hsym2, hmiss⟩
    cases htl : tlook tr st (some sym) with
    | none =>
      apply step
      by_cases hg : deadS ∈ r2 ∨ deadS ∈ q
      · rw [if_pos hg]
        exact ⟨[], by simp, by simp⟩
      · rw [if_neg hg]
        exact ⟨[deadS], rfl, by
          intro x hx
          simp only [List.mem_singleton] at hx
          subst hx
          exact Or.inr ⟨rfl, Or.inl htl⟩⟩
    | some dests =>
      cases hde : dests.isEmpty with
      | true =>
        rw [List.isEmpty_iff] at hde
        subst hde
        apply step
        by_cases hg : deadS ∈ r2 ∨ deadS ∈ q
        · rw [if_pos hg]
          exact ⟨[], by simp, by simp⟩
        · rw [if_neg hg]
          exact ⟨[deadS], rfl, by
            intro x hx
            simp only [List.mem_singleton] at hx
            subst hx
            exact Or.inr ⟨rfl, Or.inr htl⟩⟩
      | false =>
        apply step
        have hredeq : (match some dests with
            | some dests =>
              if dests.isEmpty = true then
                if deadS ∈ r2 ∨ deadS ∈ q then q else q ++ [deadS]
              else
                dests.foldl (fun q3 d => if d ∈ r2 then q3 else q3 ++ [d]) q
            | none => if deadS ∈ r2 ∨ deadS ∈ q then q else q ++ [deadS]) =
            dests.foldl (fun q3 d => if d ∈ r2 then q3 else q3 ++ [d]) q := by
          show (if dests.isEmpty = true then
              if deadS ∈ r2 ∨ deadS ∈ q then q else q ++ [deadS]
            else
              dests.foldl (fun q3 d => if d ∈ r2 then q3 else q3 ++ [d]) q) = _
          rw [hde]
          simp
        rw [hredeq]
        rcases destsFoldQ_suffix r2 dests q with ⟨t, ht, hts⟩
        exact ⟨t, ht, fun x hx => Or.inl ⟨dests, htl, hts x hx⟩⟩

theorem bfsFold_mono (tr : TTab) (r2 : List Str) (st : Str) (syms : List Str)
    (q : List Str) (x : Str) (hx : x ∈ q) :
    x ∈ syms.foldl (fun q sym =>
        match tlook tr st (some sym) with
        | some dests =>
          if dests.isEmpty then
            if deadS ∈ r2 ∨ deadS ∈ q then q else q ++ [deadS]
          else
            dests.foldl (fun q3 d => if d ∈ r2 then q3 else q3 ++ [d]) q
        | none => if deadS ∈ r2 ∨ deadS ∈ q then q else q ++ [deadS]) q := by
  rcases bfsFold_suffix tr r2 st syms q with ⟨t, ht, -⟩
  rw [ht]
  exact List.mem_append_left _ hx

theorem bfsFold_cover (tr : TTab) (r2 : List Str) (st : Str) (syms : List Str) :
    ∀ q, ∀ sym0 ∈ syms, ∀ ds, tlook tr st (some sym0) = some ds → ∀ d ∈ ds,
      d ∈ r2 ∨ d ∈ syms.foldl (fun q sym =>
        match tlook tr st (some sym) with
        | some dests =>
          if dests.isEmpty then
            if deadS ∈ r2 ∨ deadS ∈ q then q else q ++ [deadS]
          else
            dests.foldl (fun q3 d => if d ∈ r2 then q3 else q3 ++ [d]) q
        | none => if deadS ∈ r2 ∨ deadS ∈ q then q else q ++ [deadS]) q := by
  induction syms with
  | nil => intro q sym0 h; simp at h
  | cons sym rest ih =>
    intro q sym0 hsym0 ds hds d hd
    rw [List.foldl_cons]
    rcases List.mem_cons.1 hsym0 with he | hmem
    · subst he
      rw [hds]
      cases hde : ds.isEmpty with
      | true =>
        rw [List.isEmpty_iff] at hde
        subst hde
        simp at hd
      | false =>
        have hst : (match some ds with
            | some dests =>
              if dests.isEmpty = true then
                if deadS ∈ r2 ∨ deadS ∈ q then q else q ++ [deadS]
              else
                dests.foldl (fun q3 d => if d ∈ r2 then q3 else q3 ++ [d]) q
            | none => if deadS ∈ r2 ∨ deadS ∈ q then q else q ++ [deadS]) =
            ds.foldl (fun q3 d => if d ∈ r2 then q3 else q3 ++ [d]) q := by
          show (if ds.isEmpty = true then
              if deadS ∈ r2 ∨ deadS ∈ q then q else q ++ [deadS]
            else
              ds.foldl (fun q3 d => if d ∈ r2 then q3 else q3 ++ [d]) q) = _
          rw [hde]
          simp
        rw [hst]
        rcases destsFoldQ_cover r2 ds q d hd with h | h
        · exact Or.inl h
        · exact Or.inr (bfsFold_mono tr r2 st rest _ d h)
    · exact ih _ sym0 hmem ds hds d hd

theorem bfsFold_dead (tr : TTab) (r2 : List Str) (st : Str) (syms : List Str) :
    ∀ q, ∀ sym0 ∈ syms,
      (tlook tr st (some sym0) = none ∨ tlook tr st (some sym0) = some []) →
      deadS ∈ r2 ∨ deadS ∈ syms.foldl (fun q sym =>
        match tlook tr st (some sym) with
        | some dests =>
          if dests.isEmpty then
            if deadS ∈ r2 ∨ deadS ∈ q then q else q ++ [deadS]
          else
            dests.foldl (fun q3 d => if d ∈ r2 then q3 else q3 ++ [d]) q
        | none => if deadS ∈ r2 ∨ deadS ∈ q then q else q ++ [deadS]) q := by
  induction syms with
  | nil => intro q sym0 h; simp at h
  | cons sym rest ih =>
    intro q sym0 hsym0 hmiss
    rw [List.foldl_cons]
    have hin : deadS ∈ r2 ∨
        deadS ∈ (if deadS ∈ r2 ∨ deadS ∈ q then q else q ++ [deadS]) := by
      by_cases hg : deadS ∈ r2 ∨ deadS ∈ q
      · rw [if_pos hg]
        exact hg
      · rw [if_neg hg]
        exact Or.inr (by simp)
    rcases List.mem_cons.1 hsym0 with he | hmem
    · subst he
      rcases hmiss with hn | he2
      · rw [hn]
        rcases hin with h | h
        · exact Or.inl h
        · exact Or.inr (bfsFold_mono tr r2 st rest _ deadS h)
      · rw [he2]
        rcases hin with h | h
        · exact Or.inl h
        · exact Or.inr (bfsFold_mono tr r2 st rest _ deadS h)
    · exact ih _ sym0 hmem hmiss

theorem bfsFold_mu (tr : TTab) (r2 : List Str) (st : Str) (syms : List Str) :
    ∀ q,
      (syms.foldl (fun q sym =>
        match tlook tr st (some sym) with
        | some dests =>
          if dests.isEmpty then
            if deadS ∈ r2 ∨ deadS ∈ q then q else q ++ [deadS]
          else
            dests.foldl (fun q3 d => if d ∈ r2 then q3 else q3 ++ [d]) q
        | none => if deadS ∈ r2 ∨ deadS ∈ q then q else q ++ [deadS]) q).length +
      (if deadS ∈ r2 ∨ deadS ∈ syms.foldl (fun q sym =>
        match tlook tr st (some sym) with
        | some dests =>
          if dests.isEmpty then
            if deadS ∈ r2 ∨ deadS ∈ q then q else q ++ [deadS]
          else
            dests.foldl (fun q3 d => if d ∈ r2 then q3 else q3 ++ [d]) q
        | none => if deadS ∈ r2 ∨ deadS ∈ q then q else q ++ [deadS]) q then 0 else 1) ≤
      q.length + (if deadS ∈ r2 ∨ deadS ∈ q then 0 else 1) + rowCount tr syms st := by
  induction syms with
  | nil =>
    intro q
    simp [rowCount]
  | cons sym rest ih =>
    intro q
    rw [List.foldl_cons]
    have hrc : rowCount tr (sym :: rest) st =
        ((tlook tr st (some sym)).getD []).length + rowCount tr rest st := by
      simp [rowCount]
    have hstep : ∀ (q1 : List Str),
        q1.length + (if deadS ∈ r2 ∨ deadS ∈ q1 then 0 else 1) ≤
          q.length + (if deadS ∈ r2 ∨ deadS ∈ q then 0 else 1) +
            ((tlook tr st (some sym)).getD []).length →
        (rest.foldl (fun q sym =>
          match tlook tr st (some sym) with
          | some dests =>
            if dests.isEmpty then
              if deadS ∈ r2 ∨ deadS ∈ q then q else q ++ [deadS]
            else
              dests.foldl (fun q3 d => if d ∈ r2 then q3 else q3 ++ [d]) q
          | none => if deadS ∈ r2 ∨ deadS ∈ q then q else q ++ [deadS]) q1).length +
        (if deadS ∈ r2 ∨ deadS ∈ rest.foldl (fun q sym =>
          match tlook tr st (some sym) with
          | some dests =>
            if dests.isEmpty then
              if deadS ∈ r2 ∨ deadS ∈ q then q else q ++ [deadS]
            else
              dests.foldl (fun q3 d => if d ∈ r2 then q3 else q3 ++ [d]) q
          | none => if deadS ∈ r2 ∨ deadS ∈ q then q else q ++ [deadS]) q1 then 0 else 1) ≤
          q.length + (if deadS ∈ r2 ∨ deadS ∈ q then 0 else 1) +
            rowCount tr (sym :: rest) st := by
      intro q1 h1
      have h2 := ih q1
      rw [hrc]
      omega
    have hguard : (if deadS ∈ r2 ∨ deadS ∈ q then q else q ++ [deadS]).length +
          (if deadS ∈ r2 ∨
            deadS ∈ (if deadS ∈ r2 ∨ deadS ∈ q then q else q ++ [deadS]) then 0 else 1) ≤
          q.length + (if deadS ∈ r2 ∨ deadS ∈ q then 0 else 1) + 0 := by
      by_cases h : deadS ∈ r2 ∨ deadS ∈ q
      · simp [h]
      · simp [h]
    cases htl : tlook tr st (some sym) with
    | none =>
      apply hstep
      beta_reduce
      rw [htl]
      show (if deadS ∈ r2 ∨ deadS ∈ q then q else q ++ [deadS]).length +
          (if deadS ∈ r2 ∨
            deadS ∈ (if deadS ∈ r2 ∨ deadS ∈ q then q else q ++ [deadS]) then 0 else 1) ≤
          q.length + (if deadS ∈ r2 ∨ deadS ∈ q then 0 else 1) + 0
      exact hguard
    | some ds =>
      cases hde : ds.isEmpty with
      | true =>
        rw [List.isEmpty_iff] at hde
        subst hde
        apply hstep
        beta_reduce
        rw [htl]
        show (if deadS ∈ r2 ∨ deadS ∈ q then q else q ++ [deadS]).length +
            (if deadS ∈ r2 ∨
              deadS ∈ (if deadS ∈ r2 ∨ deadS ∈ q then q else q ++ [deadS]) then 0 else 1) ≤
            q.length + (if deadS ∈ r2 ∨ deadS ∈ q then 0 else 1) + 0
        exact hguard
      | false =>
        apply hstep
        beta_reduce
        have hmred : (match some ds with
            | some dests =>
              if dests.isEmpty = true then
                if deadS ∈ r2 ∨ deadS ∈ q then q else q ++ [deadS]
              else
                dests.foldl (fun q3 d => if d ∈ r2 then q3 else q3 ++ [d]) q
            | none => if deadS ∈ r2 ∨ deadS ∈ q then q else q ++ [deadS]) =
            ds.foldl (fun q3 d => if d ∈ r2 then q3 else q3 ++ [d]) q := by
          show (if ds.isEmpty = true then
              if deadS ∈ r2 ∨ deadS ∈ q then q else q ++ [deadS]
            else
              ds.foldl (fun q3 d => if d ∈ r2 then q3 else q3 ++ [d]) q) = _
          rw [hde]
          simp
        rw [htl, hmred]
        have hlen := destsFoldQ_len r2 ds q
        have hdt : (if deadS ∈ r2 ∨
            deadS ∈ ds.foldl (fun q3 d => if d ∈ r2 then q3 else q3 ++ [d]) q
            then 0 else 1) ≤ (if deadS ∈ r2 ∨ deadS ∈ q then (0:Nat) else 1) := by
          by_cases hq : deadS ∈ r2 ∨ deadS ∈ q
          · rcases hq with hq | hq
            · rw [if_pos (Or.inl hq), if_pos (Or.inl hq)]
            · rw [if_pos (Or.inr hq)]
              rcases destsFoldQ_suffix r2 ds q with ⟨t, ht, -⟩
              rw [ht]
              rw [if_pos (Or.inr (List.mem_append_left _ hq))]
          · rw [if_neg hq]
            by_cases hq2 : deadS ∈ r2 ∨
                deadS ∈ ds.foldl (fun q3 d => if d ∈ r2 then q3 else q3 ++ [d]) q
            · rw [if_pos hq2]
              omega
            · rw [if_neg hq2]
        simp only [Option.getD_some]
        omega

theorem bfsLoop_zero_eq (tr : TTab) (syms : List Str) (q r : List Str) :
    bfsLoop tr syms 0 q r = r := rfl

theorem bfsLoop_nil_eq (tr : TTab) (syms : List Str) (fuel : Nat) (r : List Str) :
    bfsLoop tr syms (fuel + 1) [] r = r := rfl

theorem bfsLoop_cons_eq (tr : TTab) (syms : List Str) (fuel : Nat) (st : Str)
    (rest reachable : List Str) :
    bfsLoop tr syms (fuel + 1) (st :: rest) reachable =
    if st ∈ reachable then bfsLoop tr syms fuel rest reachable
    else
      bfsLoop tr syms fuel
        (syms.foldl (fun q sym =>
          match tlook tr st (some sym) with
          | some dests =>
            if dests.isEmpty then
              if deadS ∈ reachable ++ [st] ∨ deadS ∈ q then q else q ++ [deadS]
            else
              dests.foldl (fun q3 d =>
                if d ∈ reachable ++ [st] then q3 else q3 ++ [d]) q
          | none => if deadS ∈ reachable ++ [st] ∨ deadS ∈ q then q else q ++ [deadS]) rest)
        (reachable ++ [st]) := rfl

theorem wsum_filter_mono (w : Str → Nat) (C : List Str) (st : Str) :
    ∀ univ : List Str,
      ((univ.filter (fun x => decide (x ∉ C ++ [st]))).map w).sum ≤
      ((univ.filter (fun x => decide (x ∉ C))).map w).sum := by
  intro univ
  induction univ with
  | nil => simp
  | cons u tail ih =>
    by_cases hu : u ∈ C
    · have h1 : (decide (u ∉ C ++ [st])) = false := by simp [hu]
      have h2 : (decide (u ∉ C)) = false := by simp [hu]
      simp only [List.filter_cons, h1, h2, Bool.false_eq_true, if_true, if_false,
        ite_true, ite_false]
      exact ih
    · by_cases hu2 : u = st
      · subst hu2
        have h1 : (decide (u ∉ C ++ [u])) = false := by simp
        have h2 : (decide (u ∉ C)) = true := by simp [hu]
        simp only [List.filter_cons, h1, h2, Bool.false_eq_true, if_true, if_false,
        ite_true, ite_false, List.map_cons, List.sum_cons]
        omega
      · have h1 : (decide (u ∉ C ++ [st])) = true := by simp [hu, hu2]
        have h2 : (decide (u ∉ C)) = true := by simp [hu]
        simp only [List.filter_cons, h1, h2, Bool.false_eq_true, if_true, if_false,
        ite_true, ite_false, List.map_cons, List.sum_cons]
        omega

theorem wsum_filter_snoc (w : Str → Nat) (C : List Str) (st : Str) (hst : st ∉ C) :
    ∀ univ : List Str, st ∈ univ →
      ((univ.filter (fun x => decide (x ∉ C ++ [st]))).map w).sum + w st ≤
      ((univ.filter (fun x => decide (x ∉ C))).map w).sum := by
  intro univ
  induction univ with
  | nil => intro h; cases h
  | cons u tail ih =>
    intro hmem
    by_cases hu2 : u = st
    · subst hu2
      have h1 : (decide (u ∉ C ++ [u])) = false := by simp
      have h2 : (decide (u ∉ C)) = true := by simp [hst]
      simp only [List.filter_cons, h1, h2, Bool.false_eq_true, if_true, if_false,
        ite_true, ite_false, List.map_cons, List.sum_cons]
      have := wsum_filter_mono w C u tail
      omega
    · have htail : st ∈ tail := by
        rcases List.mem_cons.1 hmem with h | h
        · exact absurd h.symm hu2
        · exact h
      by_cases hu : u ∈ C
      · have h1 : (decide (u ∉ C ++ [st])) = false := by simp [hu]
        have h2 : (decide (u ∉ C)) = false := by simp [hu]
        simp only [List.filter_cons, h1, h2, Bool.false_eq_true, if_true, if_false,
        ite_true, ite_false]
        exact ih htail
      · have h1 : (decide (u ∉ C ++ [st])) = true := by simp [hu, hu2]
        have h2 : (decide (u ∉ C)) = true := by simp [hu]
        simp only [List.filter_cons, h1, h2, Bool.false_eq_true, if_true, if_false,
        ite_true, ite_false, List.map_cons, List.sum_cons]
        have := ih htail
        omega

theorem bfsLoop_nodup (tr : TTab) (syms : List Str) :
    ∀ fuel queue reachable, reachable.Nodup →
      (bfsLoop tr syms fuel queue reachable).Nodup := by
  intro fuel
  induction fuel with
  | zero => intro queue reachable h; exact h
  | succ fuel ih =>
    intro queue reachable h
    cases queue with
    | nil => exact h
    | cons st rest =>
      rw [bfsLoop_cons_eq]
      by_cases hst : st ∈ reachable
      · rw [if_pos hst]
        exact ih rest reachable h
      · rw [if_neg hst]
        apply ih
        rw [← List.concat_eq_append]
        exact List.Nodup.concat hst h

theorem bfsLoop_sound (tr : TTab) (syms : List Str) (init : Str) :
    ∀ fuel queue reachable,
      (∀ x ∈ reachable, BfsReach tr syms init x) →
      (∀ x ∈ queue, BfsReach tr syms init x) →
      ∀ x ∈ bfsLoop tr syms fuel queue reachable, BfsReach tr syms init x := by
  intro fuel
  induction fuel with
  | zero => intro queue reachable hr _ x hx; exact hr x hx
  | succ fuel ih =>
    intro queue reachable hr hq
    cases queue with
    | nil => exact hr
    | cons st rest =>
      rw [bfsLoop_cons_eq]
      by_cases hst : st ∈ reachable
      · rw [if_pos hst]
        exact ih rest reachable hr (fun x hx => hq x (List.mem_cons_of_mem _ hx))
      · rw [if_neg hst]
        have hstR : BfsReach tr syms init st := hq st (List.mem_cons_self _ _)
        apply ih
        · intro x hx
          rcases List.mem_append.1 hx with hx | hx
          · exact hr x hx
          · simp only [List.mem_singleton] at hx
            subst hx
            exact hstR
        · intro x hx
          rcases bfsFold_suffix tr (reachable ++ [st]) st syms rest with ⟨t, ht, hts⟩
          rw [ht] at hx
          rcases List.mem_append.1 hx with hx | hx
          · exact hq x (List.mem_cons_of_mem _ hx)
          · rcases hts x hx with ⟨sym, hsym, ds, hds, hxds⟩ | ⟨hxd, sym, hsym, hmiss⟩
            · exact BfsReach.step st x sym ds hstR hsym hds hxds
            · subst hxd
              exact BfsReach.dead st sym hstR hsym hmiss

theorem bfsLoop_end (tr : TTab) (syms : List Str) (init : Str) :
    ∀ fuel queue reachable,
      bfsMu tr syms init queue reachable < fuel →
      (∀ x ∈ queue, x ∈ bfsUniverse tr init) →
      BfsInv tr syms queue reachable →
      (∀ x ∈ reachable, x ∈ bfsLoop tr syms fuel queue reachable) ∧
      (∀ x ∈ queue, x ∈ bfsLoop tr syms fuel queue reachable) ∧
      BfsInv tr syms [] (bfsLoop tr syms fuel queue reachable) := by
  intro fuel
  induction fuel with
  | zero =>
    intro queue reachable hmu huniv hinv
    exact absurd hmu (Nat.not_lt_zero _)
  | succ fuel ih =>
    intro queue reachable hmu huniv hinv
    cases queue with
    | nil =>
      rw [bfsLoop_nil_eq]
      exact ⟨fun x hx => hx, fun x hx => (List.not_mem_nil x hx).elim, hinv⟩
    | cons st rest =>
      rw [bfsLoop_cons_eq]
      by_cases hst : st ∈ reachable
      · rw [if_pos hst]
        have hdt : (if deadS ∈ reachable ∨ deadS ∈ rest then (0:Nat) else 1) ≤
            (if deadS ∈ reachable ∨ deadS ∈ st :: rest then 0 else 1) := by
          by_cases h1 : deadS ∈ reachable ∨ deadS ∈ rest
          · rw [if_pos h1]
            exact Nat.zero_le _
          · rw [if_neg h1]
            have h2 : ¬(deadS ∈ reachable ∨ deadS ∈ st :: rest) := by
              rintro (h | h)
              · exact h1 (Or.inl h)
              · rcases List.mem_cons.1 h with he | hr
                · exact h1 (Or.inl (he ▸ hst))
                · exact h1 (Or.inr hr)
            rw [if_neg h2]
        have hmu2 : bfsMu tr syms init rest reachable < fuel := by
          simp only [bfsMu, List.length_cons] at hmu ⊢
          omega
        have hinv2 : BfsInv tr syms rest reachable := by
          intro s hs sym hsym
          obtain ⟨hc, hdd⟩ := hinv s hs sym hsym
          constructor
          · intro ds hds d hd
            rcases hc ds hds d hd with h | h
            · exact Or.inl h
            · rcases List.mem_cons.1 h with he | hr
              · exact Or.inl (he ▸ hst)
              · exact Or.inr hr
          · intro hmiss
            rcases hdd hmiss with h | h
            · exact Or.inl h
            · rcases List.mem_cons.1 h with he | hr
              · exact Or.inl (he ▸ hst)
              · exact Or.inr hr
        obtain ⟨h1, h2, h3⟩ := ih rest reachable hmu2
          (fun x hx => huniv x (List.mem_cons_of_mem _ hx)) hinv2
        refine ⟨h1, ?_, h3⟩
        intro x hx
        rcases List.mem_cons.1 hx with he | hr
        · exact he ▸ h1 st hst
        · exact h2 x hr
      · rw [if_neg hst]
        have hmain : ∀ (q2 : List Str),
            (∀ x ∈ rest, x ∈ q2) →
            (∀ x ∈ q2, x ∈ rest ∨
              (∃ sym ∈ syms, ∃ ds, tlook tr st (some sym) = some ds ∧ x ∈ ds) ∨
              x = deadS) →
            (∀ sym ∈ syms, ∀ ds, tlook tr st (some sym) = some ds →
              ∀ d ∈ ds, d ∈ reachable ++ [st] ∨ d ∈ q2) →
            (∀ sym ∈ syms,
              (tlook tr st (some sym) = none ∨ tlook tr st (some sym) = some []) →
              deadS ∈ reachable ++ [st] ∨ deadS ∈ q2) →
            (q2.length + (if deadS ∈ reachable ++ [st] ∨ deadS ∈ q2 then 0 else 1) ≤
              rest.length +
                (if deadS ∈ reachable ++ [st] ∨ deadS ∈ rest then 0 else 1) +
                rowCount tr syms st) →
            (∀ x ∈ reachable, x ∈ bfsLoop tr syms fuel q2 (reachable ++ [st])) ∧
            (∀ x ∈ st :: rest, x ∈ bfsLoop tr syms fuel q2 (reachable ++ [st])) ∧
            BfsInv tr syms [] (bfsLoop tr syms fuel q2 (reachable ++ [st])) := by
          intro q2 hmono hprov hcov hdead hlen
          have huniv2 : ∀ x ∈ q2, x ∈ bfsUniverse tr init := by
            intro x hx
            rcases hprov x hx with hx | ⟨sym, _, ds, hds, hxds⟩ | hxd
            · exact huniv x (List.mem_cons_of_mem _ hx)
            · exact List.mem_cons_of_mem _ (List.mem_cons_of_mem _
                (dests_subset_transDests tr st (some sym) ds hds x hxds))
            · subst hxd
              exact List.mem_cons_of_mem _ (List.mem_cons_self _ _)
          have hinv2 : BfsInv tr syms q2 (reachable ++ [st]) := by
            intro s hs sym hsym
            rcases List.mem_append.1 hs with hs | hs
            · obtain ⟨hc, hdd⟩ := hinv s hs sym hsym
              constructor
              · intro ds hds d hd
                rcases hc ds hds d hd with h | h
                · exact Or.inl (List.mem_append_left _ h)
                · rcases List.mem_cons.1 h with he | hr
                  · exact Or.inl (List.mem_append_right _ (by simp [he]))
                  · exact Or.inr (hmono d hr)
              · intro hmiss
                rcases hdd hmiss with h | h
                · exact Or.inl (List.mem_append_left _ h)
                · rcases List.mem_cons.1 h with he | hr
                  · exact Or.inl (List.mem_append_right _ (by simp [he]))
                  · exact Or.inr (hmono deadS hr)
            · simp only [List.mem_singleton] at hs
              subst hs
              exact ⟨fun ds hds d hd => hcov sym hsym ds hds d hd,
                fun hmiss => hdead sym hsym hmiss⟩
          have hst_univ : st ∈ bfsUniverse tr init := huniv st (List.mem_cons_self _ _)
          have hbudget := wsum_filter_snoc (rowCount tr syms) reachable st hst
            (bfsUniverse tr init) hst_univ
          have hdtpre : (if deadS ∈ reachable ++ [st] ∨ deadS ∈ rest then (0:Nat) else 1) ≤
              (if deadS ∈ reachable ∨ deadS ∈ st :: rest then 0 else 1) := by
            by_cases h1 : deadS ∈ reachable ∨ deadS ∈ st :: rest
            · rw [if_pos h1]
              have h2 : deadS ∈ reachable ++ [st] ∨ deadS ∈ rest := by
                rcases h1 with h | h
                · exact Or.inl (List.mem_append_left _ h)
                · rcases List.mem_cons.1 h with he | hr
                  · exact Or.inl (List.mem_append_right _ (by simp [he]))
                  · exact Or.inr hr
              rw [if_pos h2]
            · rw [if_neg h1]
              by_cases h2 : deadS ∈ reachable ++ [st] ∨ deadS ∈ rest
              · rw [if_pos h2]
                exact Nat.zero_le _
              · rw [if_neg h2]
          have hmu2 : bfsMu tr syms init q2 (reachable ++ [st]) < fuel := by
            simp only [bfsMu, List.length_cons] at hmu ⊢
            omega
          obtain ⟨h1, h2, h3⟩ := ih q2 (reachable ++ [st]) hmu2 huniv2 hinv2
          refine ⟨fun x hx => h1 x (List.mem_append_left _ hx), ?_, h3⟩
          intro x hx
          rcases List.mem_cons.1 hx with he | hr
          · exact h1 x (by simp [he])
          · exact h2 x (hmono x hr)
        apply hmain
        · exact fun x hx => bfsFold_mono tr (reachable ++ [st]) st syms rest x hx
        · intro x hx
          rcases bfsFold_suffix tr (reachable ++ [st]) st syms rest with ⟨t, ht, hts⟩
          rw [ht] at hx
          rcases List.mem_append.1 hx with hx | hx
          · exact Or.inl hx
          · rcases hts x hx with ⟨sym, hsym, ds, hds, hxds⟩ | ⟨hxd, _, _, _⟩
            · exact Or.inr (Or.inl ⟨sym, hsym, ds, hds, hxds⟩)
            · exact Or.inr (Or.inr hxd)
        · intro sym hsym ds hds d hd
          exact bfsFold_cover tr (reachable ++ [st]) st syms rest sym hsym ds hds d hd
        · intro sym hsym hmiss
          exact bfsFold_dead tr (reachable ++ [st]) st syms rest sym hsym hmiss
        · exact bfsFold_mu tr (reachable ++ [st]) st syms rest

theorem reachableOf_eq (a : FiniteAutomaton) :
    reachableOf a = bfsLoop a.transitions (minSymbols a.symbols)
      (bfsFuel a.transitions (minSymbols a.symbols) a.initial_state)
      [a.initial_state] [] := rfl

theorem bfsMu_start_lt (tr : TTab) (syms : List Str) (init : Str) :
    bfsMu tr syms init [init] [] < bfsFuel tr syms init := by
  have hf : (bfsUniverse tr init).filter (fun x => decide (x ∉ ([] : List Str))) =
      bfsUniverse tr init := by
    simp
  simp only [bfsMu, bfsFuel, hf]
  by_cases h : deadS ∈ ([] : List Str) ∨ deadS ∈ [init]
  · rw [if_pos h]
    simp only [List.length_singleton]
    omega
  · rw [if_neg h]
    simp only [List.length_singleton]
    omega

theorem reachableOf_mem_init (a : FiniteAutomaton) :
    a.initial_state ∈ reachableOf a := by
  rw [reachableOf_eq]
  obtain ⟨h1, h2, h3⟩ := bfsLoop_end a.transitions (minSymbols a.symbols)
    a.initial_state (bfsFuel a.transitions (minSymbols a.symbols) a.initial_state)
    [a.initial_state] []
    (bfsMu_start_lt a.transitions (minSymbols a.symbols) a.initial_state)
    (fun x hx => by
      simp only [List.mem_singleton] at hx
      subst hx
      exact List.mem_cons_self _ _)
    (fun s hs => (List.not_mem_nil s hs).elim)
  exact h2 a.initial_state (List.mem_singleton.2 rfl)

theorem reachableOf_nodup (a : FiniteAutomaton) :
    (reachableOf a).Nodup := by
  rw [reachableOf_eq]
  exact bfsLoop_nodup _ _ _ _ _ List.nodup_nil

theorem reachableOf_sound (a : FiniteAutomaton) :
    ∀ x ∈ reachableOf a,
      BfsReach a.transitions (minSymbols a.symbols) a.initial_state x := by
  rw [reachableOf_eq]
  exact bfsLoop_sound _ _ _ _ _ _
    (fun x hx => (List.not_mem_nil x hx).elim)
    (fun x hx => by
      simp only [List.mem_singleton] at hx
      subst hx
      exact BfsReach.start)

theorem reachableOf_closed (a : FiniteAutomaton) :
    BfsInv a.transitions (minSymbols a.symbols) [] (reachableOf a) := by
  rw [reachableOf_eq]
  obtain ⟨h1, h2, h3⟩ := bfsLoop_end a.transitions (minSymbols a.symbols)
    a.initial_state (bfsFuel a.transitions (minSymbols a.symbols) a.initial_state)
    [a.initial_state] []
    (bfsMu_start_lt a.transitions (minSymbols a.symbols) a.initial_state)
    (fun x hx => by
      simp only [List.mem_singleton] at hx
      subst hx
      exact List.mem_cons_self _ _)
    (fun s hs => (List.not_mem_nil s hs).elim)
  exact h3

theorem dget_append {κ α : Type} [DecidableEq κ] (r l : List (κ × α)) (k : κ) :
    dget (r ++ l) k = match dget r k with
      | some v => some v
      | none => dget l k := by
  induction r with
  | nil => simp [dget]
  | cons e rest ih =>
    cases e with
    | mk k1 v1 =>
      by_cases h : k1 = k
      · subst h
        simp [dget]
      · simp [dget, h, ih]

theorem dget_none_iff {κ α : Type} [DecidableEq κ] (d : List (κ × α)) (k : κ) :
    dget d k = none ↔ ∀ e ∈ d, e.1 ≠ k := by
  induction d with
  | nil => simp [dget]
  | cons e rest ih =>
    cases e with
    | mk k1 v1 =>
      by_cases h : k1 = k
      · subst h
        simp [dget]
      · simp [dget, h, ih]

theorem minSymbols_nodup (syms : List Symb) : (minSymbols syms).Nodup := by
  unfold minSymbols
  have h1 : (ssetOf (syms.filterMap (fun s =>
      match s with
      | none => none
      | some x => if x = lamS then none else some x))).Nodup :=
    nodup_sunion _ [] List.nodup_nil
  exact (sortStrs_perm _).symm.nodup h1

theorem tlook_dset_other (tr : TTab) (row : Row) (s : Str) (sym : Symb)
    (hs : s ≠ deadS) :
    tlook (dset tr deadS row) s sym = tlook tr s sym := by
  unfold tlook
  rw [dget_dset_ne tr deadS row s (fun h => hs h.symm)]

theorem addDeadRows_other (tr : TTab) (syms : List Str) (s : Str) (sym : Symb)
    (hs : s ≠ deadS) :
    tlook (addDeadRows tr syms) s sym = tlook tr s sym :=
  tlook_dset_other tr _ s sym hs

theorem deadFoldAux (syms : List Str) :
    ∀ r : Row, (∀ k v, dget r k = some v → v = [deadS]) →
      (∀ sym0 ∈ syms, ∃ v, dget (syms.foldl (fun r sym =>
        if (dget r (some sym)).isSome then r else r ++ [(some sym, [deadS])]) r)
        (some sym0) = some v) ∧
      (∀ k v, dget (syms.foldl (fun r sym =>
        if (dget r (some sym)).isSome then r else r ++ [(some sym, [deadS])]) r)
        k = some v → v = [deadS]) ∧
      (∀ k v, dget r k = some v → dget (syms.foldl (fun r sym =>
        if (dget r (some sym)).isSome then r else r ++ [(some sym, [deadS])]) r)
        k = some v) := by
  induction syms with
  | nil =>
    intro r hr
    exact ⟨fun sym0 h => (List.not_mem_nil sym0 h).elim, hr, fun k v h => h⟩
  | cons sym rest ih =>
    intro r hr
    rw [List.foldl_cons]
    by_cases hp : (dget r (some sym)).isSome
    · rw [if_pos hp]
      obtain ⟨h1, h2, h3⟩ := ih r hr
      refine ⟨?_, h2, h3⟩
      intro sym0 hsym0
      rcases List.mem_cons.1 hsym0 with he | hmem
      · subst he
        rcases Option.isSome_iff_exists.1 hp with ⟨v, hv⟩
        exact ⟨v, h3 (some sym0) v hv⟩
      · exact h1 sym0 hmem
    · rw [if_neg hp]
      have hr2 : ∀ k v, dget (r ++ [(some sym, [deadS])]) k = some v → v = [deadS] := by
        intro k v h
        rw [dget_append] at h
        cases hg : dget r k with
        | some w =>
          rw [hg] at h
          exact hr k v (by rw [hg, ← h])
        | none =>
          rw [hg] at h
          by_cases hk : (some sym : Symb) = k
          · simp only [dget, if_pos hk] at h
            exact (Option.some_inj.1 h).symm
          · simp only [dget, if_neg hk] at h
            cases h
      obtain ⟨h1, h2, h3⟩ := ih (r ++ [(some sym, [deadS])]) hr2
      refine ⟨?_, h2, ?_⟩
      · intro sym0 hsym0
        rcases List.mem_cons.1 hsym0 with he | hmem
        · subst he
          refine ⟨[deadS], h3 (some sym0) [deadS] ?_⟩
          rw [dget_append]
          have hn : dget r (some sym0) = none := by
            cases hg : dget r (some sym0) with
            | none => rfl
            | some w => rw [hg] at hp; exact absurd rfl hp
          rw [hn]
          simp [dget]
        · exact h1 sym0 hmem
      · intro k v h
        apply h3
        rw [dget_append, h]

theorem addDeadRows_dead (tr : TTab) (syms : List Str) (h : dget tr deadS = none)
    (sym : Str) (hsym : sym ∈ syms) :
    tlook (addDeadRows tr syms) deadS (some sym) = some [deadS] := by
  show tlook (dset tr deadS (syms.foldl (fun r sym =>
    if (dget r (some sym)).isSome then r else r ++ [(some sym, [deadS])])
    ((dget tr deadS).getD []))) deadS (some sym) = some [deadS]
  rw [h]
  unfold tlook
  rw [dget_dset_self]
  obtain ⟨h1, h2, _⟩ := deadFoldAux syms (Option.getD none []) (by
    intro k v hv
    simp [dget] at hv)
  rcases h1 sym hsym with ⟨v, hv⟩
  have hveq : v = [deadS] := h2 (some sym) v hv
  subst hveq
  exact hv

theorem minSelfTTab_other (a : FiniteAutomaton) (s : Str) (sym : Symb)
    (hs : s ≠ deadS) :
    tlook (minSelfTTab a) s sym = tlook a.transitions s sym := by
  by_cases hd : deadS ∈ reachableOf a
  · simp only [minSelfTTab, if_pos hd]
    exact addDeadRows_other a.transitions (minSymbols a.symbols) s sym hs
  · simp only [minSelfTTab, if_neg hd]

theorem minSelfTTab_dead (a : FiniteAutomaton) (h : dget a.transitions deadS = none)
    (hd : deadS ∈ reachableOf a) (sym : Str) (hsym : sym ∈ minSymbols a.symbols) :
    tlook (minSelfTTab a) deadS (some sym) = some [deadS] := by
  simp only [minSelfTTab, if_pos hd]
  exact addDeadRows_dead a.transitions (minSymbols a.symbols) h sym hsym

theorem dfaValid_parts (a : FiniteAutomaton) (hv : dfaValidB a = true) :
    a.initial_state ∈ a.states ∧ a.states.Nodup ∧ a.final_states.Nodup ∧
    (∀ s ∈ a.final_states, s ∈ a.states) ∧
    (∀ e ∈ a.transitions, ∀ d ∈ e.2,
      ∃ x, d.1 = some x ∧ x ∈ minSymbols a.symbols) ∧
    (∀ s ∈ a.states, ∀ sym ∈ minSymbols a.symbols,
      destOkB a.transitions a.states s sym = true) := by
  simp only [dfaValidB, Bool.and_eq_true, List.all_eq_true, decide_eq_true_eq] at hv
  obtain ⟨⟨⟨⟨⟨h1, h2⟩, h2b⟩, h4⟩, h5⟩, h6⟩ := hv
  refine ⟨h1, h2, h2b, h4, ?_, h6⟩
  intro e he d hd
  have := h5 e he d hd
  cases hk : d.1 with
  | none => rw [hk] at this; cases this
  | some x =>
    rw [hk] at this
    simp only [Option.any_some, decide_eq_true_eq] at this
    exact ⟨x, rfl, this⟩

theorem dfaValid_dest (a : FiniteAutomaton) (hv : dfaValidB a = true)
    (s : Str) (hs : s ∈ a.states) (sym : Str) (hsym : sym ∈ minSymbols a.symbols) :
    ∃ d, tlook a.transitions s (some sym) = some [d] ∧ d ∈ a.states := by
  have hok := (dfaValid_parts a hv).2.2.2.2.2 s hs sym hsym
  unfold destOkB at hok
  split at hok
  · rename_i d heq
    exact ⟨d, heq, of_decide_eq_true hok⟩
  · cases hok

theorem bfsReach_sub_states (a : FiniteAutomaton) (hv : dfaValidB a = true) :
    ∀ x, BfsReach a.transitions (minSymbols a.symbols) a.initial_state x →
      x ∈ a.states := by
  intro x hr
  induction hr with
  | start => exact (dfaValid_parts a hv).1
  | step s d sym ds hs hsym htl hd ih =>
    obtain ⟨d2, htl2, hd2⟩ := dfaValid_dest a hv s ih sym hsym
    rw [htl] at htl2
    injection htl2 with hds
    rw [hds] at hd
    simp only [List.mem_singleton] at hd
    subst hd
    exact hd2
  | dead s sym hs hsym hmiss ih =>
    obtain ⟨d2, htl2, _⟩ := dfaValid_dest a hv s ih sym hsym
    rcases hmiss with h | h
    · rw [h] at htl2
      cases htl2
    · rw [h] at htl2
      injection htl2 with hds
      cases hds

theorem reach_sub_states (a : FiniteAutomaton) (hv : dfaValidB a = true) :
    ∀ x ∈ reachableOf a, x ∈ a.states :=
  fun x hx => bfsReach_sub_states a hv x (reachableOf_sound a x hx)

theorem dset_dget_id {κ α : Type} [DecidableEq κ] (d : List (κ × α)) (k : κ)
    (v : α) (h : dget d k = some v) : dset d k v = d := by
  induction d with
  | nil => cases h
  | cons e rest ih =>
    cases e with
    | mk k1 v1 =>
      by_cases hk : k1 = k
      · subst hk
        have : v1 = v := by
          simp only [dget, if_pos rfl] at h
          exact Option.some_inj.1 h
        subst this
        simp [dset]
      · have h2 : dget rest k = some v := by
          simpa only [dget, if_neg hk] using h
        simp [dset, hk, ih h2]

theorem setdefault_fold_preserve (syms : List Str) :
    ∀ (r : Row) (k : Symb) (v : List Str), dget r k = some v →
      dget (syms.foldl (fun r sym =>
        if (dget r (some sym)).isSome then r else r ++ [(some sym, [deadS])]) r)
        k = some v := by
  induction syms with
  | nil => intro r k v h; exact h
  | cons sym rest ih =>
    intro r k v h
    rw [List.foldl_cons]
    by_cases hp : (dget r (some sym)).isSome
    · rw [if_pos hp]
      exact ih r k v h
    · rw [if_neg hp]
      refine ih _ k v ?_
      rw [dget_append, h]

theorem setdefault_fold_id (syms : List Str) :
    ∀ r : Row, (∀ sym ∈ syms, (dget r (some sym)).isSome) →
      syms.foldl (fun r sym =>
        if (dget r (some sym)).isSome then r else r ++ [(some sym, [deadS])]) r = r := by
  induction syms with
  | nil => intro r _; rfl
  | cons sym rest ih =>
    intro r hall
    rw [List.foldl_cons, if_pos (hall sym (List.mem_cons_self _ _))]
    exact ih r (fun sym2 h2 => hall sym2 (List.mem_cons_of_mem _ h2))

theorem dfaValid_dead_row (a : FiniteAutomaton) (hv : dfaValidB a = true)
    (hd : deadS ∈ reachableOf a) (row : Row)
    (hrowc : dget a.transitions deadS = some row) :
    ∀ sym ∈ minSymbols a.symbols, (dget row (some sym)).isSome := by
  intro sym hsym
  obtain ⟨d, htl, _⟩ := dfaValid_dest a hv deadS (reach_sub_states a hv _ hd) sym hsym
  unfold tlook at htl
  rw [hrowc] at htl
  have h2 : dget row (some sym) = some [d] := htl
  rw [h2]
  rfl

theorem minSelfTTab_look (a : FiniteAutomaton) (hv : dfaValidB a = true)
    (s : Str) (hs : s ∈ reachableOf a) (sym : Str)
    (hsym : sym ∈ minSymbols a.symbols) :
    tlook (minSelfTTab a) s (some sym) = tlook a.transitions s (some sym) := by
  by_cases hd : deadS ∈ reachableOf a
  · by_cases hsd : s = deadS
    · subst hsd
      obtain ⟨d, htl, _⟩ := dfaValid_dest a hv deadS (reach_sub_states a hv _ hs) sym hsym
      have hrowc : ∃ row, dget a.transitions deadS = some row ∧
          dget row (some sym) = some [d] := by
        unfold tlook at htl
        cases hg : dget a.transitions deadS with
        | none => rw [hg] at htl; cases htl
        | some row =>
          rw [hg] at htl
          exact ⟨row, rfl, htl⟩
      rcases hrowc with ⟨row, hg, hrs⟩
      rw [htl]
      simp only [minSelfTTab, if_pos hd]
      show tlook (dset a.transitions deadS ((minSymbols a.symbols).foldl
        (fun r sym =>
          if (dget r (some sym)).isSome then r else r ++ [(some sym, [deadS])])
        ((dget a.transitions deadS).getD []))) deadS (some sym) = some [d]
      rw [hg]
      unfold tlook
      rw [dget_dset_self]
      exact setdefault_fold_preserve (minSymbols a.symbols) row (some sym) [d] hrs
    · exact minSelfTTab_other a s (some sym) hsd
  · simp only [minSelfTTab, if_neg hd]

theorem minSelfTTab_total (a : FiniteAutomaton) (hv : dfaValidB a = true)
    (hrow : deadS ∈ reachableOf a → dget a.transitions deadS ≠ none) :
    minSelfTTab a = a.transitions := by
  by_cases hd : deadS ∈ reachableOf a
  · simp only [minSelfTTab, if_pos hd]
    cases hrowc : dget a.transitions deadS with
    | none => exact absurd hrowc (hrow hd)
    | some row =>
      show dset a.transitions deadS ((minSymbols a.symbols).foldl
        (fun r sym =>
          if (dget r (some sym)).isSome then r else r ++ [(some sym, [deadS])])
        ((dget a.transitions deadS).getD [])) = a.transitions
      rw [hrowc]
      rw [show (Option.getD (some row) []) = row from rfl]
      rw [setdefault_fold_id (minSymbols a.symbols) row
        (dfaValid_dead_row a hv hd row hrowc)]
      exact dset_dget_id a.transitions deadS row hrowc
  · simp only [minSelfTTab, if_neg hd]

theorem dtransOf_look (tr2 : TTab) (syms : List Str) (states : List Str)
    (s : Str) (hs : s ∈ states) (sym : Str) (hsym : sym ∈ syms) :
    tlook (dtransOf tr2 syms states) s (some sym) =
      some (match tlook tr2 s (some sym) with
        | some dests => if dests.isEmpty then [deadS] else [dests.headI]
        | none => [deadS]) := by
  have hrow := dget_map_of_inj (fun x : Str => x)
    (fun x => syms.map (fun sym =>
      ((some sym : Symb),
        match tlook tr2 x (some sym) with
        | some dests => if dests.isEmpty then [deadS] else [dests.headI]
        | none => [deadS]))) states s (fun x _ h => h)
  rw [if_pos hs] at hrow
  have hcell := dget_map_of_inj (fun sym : Str => (some sym : Symb))
    (fun sym =>
      match tlook tr2 s (some sym) with
      | some dests => if dests.isEmpty then [deadS] else [dests.headI]
      | none => [deadS]) syms sym (fun x _ h => Option.some_inj.1 h)
  rw [if_pos hsym] at hcell
  unfold tlook dtransOf
  rw [hrow]
  exact hcell

theorem dtransDest_eq (tr2 : TTab) (syms : List Str) (states : List Str)
    (s : Str) (hs : s ∈ states) (sym : Str) (hsym : sym ∈ syms) :
    dtransDest (dtransOf tr2 syms states) s sym =
      match tlook tr2 s (some sym) with
      | some dests => if dests.isEmpty then deadS else dests.headI
      | none => deadS := by
  unfold dtransDest
  rw [dtransOf_look tr2 syms states s hs sym hsym]
  cases htl : tlook tr2 s (some sym) with
  | none => simp
  | some dests =>
    by_cases hde : dests.isEmpty <;> simp [hde]

theorem minDtr_dest_total (a : FiniteAutomaton) (hv : dfaValidB a = true)
    (s : Str) (hs : s ∈ reachableOf a) (sym : Str)
    (hsym : sym ∈ minSymbols a.symbols) :
    ∃ d, tlook a.transitions s (some sym) = some [d] ∧ d ∈ a.states ∧
      dtransDest (minDtr a) s sym = d ∧ d ∈ reachableOf a := by
  obtain ⟨d, htl, hdst⟩ := dfaValid_dest a hv s (reach_sub_states a hv s hs) sym hsym
  refine ⟨d, htl, hdst, ?_, ?_⟩
  · unfold minDtr
    rw [dtransDest_eq _ _ _ s hs sym hsym, minSelfTTab_look a hv s hs sym hsym, htl]
    simp
  · obtain ⟨hcov, _⟩ := reachableOf_closed a s hs sym hsym
    rcases hcov [d] htl d (List.mem_singleton.2 rfl) with h | h
    · exact h
    · exact (List.not_mem_nil _ h).elim

theorem minDtr_dest_reach (a : FiniteAutomaton)
    (hdead : dget a.transitions deadS = none)
    (s : Str) (hs : s ∈ reachableOf a) (sym : Str)
    (hsym : sym ∈ minSymbols a.symbols) :
    dtransDest (minDtr a) s sym ∈ reachableOf a := by
  by_cases hsd : s = deadS
  · subst hsd
    have hdl := minSelfTTab_dead a hdead hs sym hsym
    unfold minDtr
    rw [dtransDest_eq _ _ _ deadS hs sym hsym, hdl]
    simpa using hs
  · have hmt := minSelfTTab_other a s (some sym) hsd
    unfold minDtr
    rw [dtransDest_eq _ _ _ s hs sym hsym, hmt]
    obtain ⟨hcov, hdd⟩ := reachableOf_closed a s hs sym hsym
    cases htl : tlook a.transitions s (some sym) with
    | none =>
      rcases hdd (Or.inl htl) with h | h
      · simpa using h
      · exact (List.not_mem_nil _ h).elim
    | some ds =>
      cases ds with
      | nil =>
        rcases hdd (Or.inr htl) with h | h
        · simpa using h
        · exact (List.not_mem_nil _ h).elim
      | cons d t =>
        rcases hcov (d :: t) htl d (List.mem_cons_self _ _) with h | h
        · simpa using h
        · exact (List.not_mem_nil _ h).elim

theorem dead_reach_of_partial (a : FiniteAutomaton) (hp : minPartialB a = true) :
    deadS ∈ reachableOf a := by
  unfold minPartialB at hp
  simp only [List.any_eq_true] at hp
  obtain ⟨s, hs, sym, hsym, hmiss⟩ := hp
  obtain ⟨_, hdd⟩ := reachableOf_closed a s hs sym hsym
  have hor : tlook a.transitions s (some sym) = none ∨
      tlook a.transitions s (some sym) = some [] := by
    cases htl : tlook a.transitions s (some sym) with
    | none => exact Or.inl rfl
    | some ds =>
      rw [htl] at hmiss
      have : ds.isEmpty = true := hmiss
      rw [List.isEmpty_iff] at this
      subst this
      exact Or.inr rfl
  rcases hdd hor with h | h
  · exact h
  · exact (List.not_mem_nil _ h).elim

theorem dset_split {κ α : Type} [DecidableEq κ] (d : List (κ × α)) (k : κ) (g : α)
    (h : dget d k = some g) (v : α) :
    ∃ pre post, d = pre ++ (k, g) :: post ∧ (∀ e ∈ pre, e.1 ≠ k) ∧
      dset d k v = pre ++ (k, v) :: post := by
  induction d with
  | nil => cases h
  | cons e rest ih =>
    cases e with
    | mk k1 v1 =>
      by_cases hk : k1 = k
      · subst hk
        have hg : v1 = g := by
          simp only [dget, if_pos rfl] at h
          exact Option.some_inj.1 h
        subst hg
        exact ⟨[], rest, rfl, by simp, by simp [dset]⟩
      · have h2 : dget rest k = some g := by
          simpa only [dget, if_neg hk] using h
        rcases ih h2 with ⟨pre, post, hsplit, hpre, hset⟩
        refine ⟨(k1, v1) :: pre, post, by rw [List.cons_append, ← hsplit], ?_, ?_⟩
        · intro e he
          rcases List.mem_cons.1 he with he | he
          · rw [he]
            exact hk
          · exact hpre e he
        · show dset ((k1, v1) :: rest) k v = (k1, v1) :: (pre ++ (k, v) :: post)
          simp only [dset, if_neg hk, hset]

theorem groupInsert_inv (dtr : TTab) (syms : List Str) (parts : List (List Str))
    (processed : List Str) (groups : List (List Nat × List Str)) (st : Str)
    (hinv : GroupsInv dtr syms parts processed groups) (hst : st ∉ processed) :
    GroupsInv dtr syms parts (processed ++ [st])
      (groupInsert groups (sigOf dtr syms parts st) st) := by
  obtain ⟨h1, h2, h3, h4, h5⟩ := hinv
  unfold groupInsert
  cases hd : dget groups (sigOf dtr syms parts st) with
  | some g =>
    rcases dset_split groups (sigOf dtr syms parts st) g hd (sinsert g st)
      with ⟨pre, post, hsplit, hpre, hset⟩
    have hgmem : (sigOf dtr syms parts st, g) ∈ groups := dget_mem _ _ _ hd
    have hstg : st ∉ g := fun hc => hst (h2 _ hgmem st hc).1
    have hins : sinsert g st = g ++ [st] := by
      unfold sinsert
      rw [if_neg hstg]
    show GroupsInv dtr syms parts (processed ++ [st])
      (dset groups (sigOf dtr syms parts st) (sinsert g st))
    rw [hset, hins]
    have hmem_of : ∀ kg, kg ∈ pre ++ (sigOf dtr syms parts st, g ++ [st]) :: post →
        kg ∈ groups ∨ kg = (sigOf dtr syms parts st, g ++ [st]) := by
      intro kg hkg
      rcases List.mem_append.1 hkg with hkg | hkg
      · exact Or.inl (by rw [hsplit]; exact List.mem_append_left _ hkg)
      · rcases List.mem_cons.1 hkg with hkg | hkg
        · exact Or.inr hkg
        · refine Or.inl ?_
          rw [hsplit]
          exact List.mem_append_right _ (List.mem_cons_of_mem _ hkg)
    refine ⟨?_, ?_, ?_, ?_, ?_⟩
    · intro kg hkg
      rcases hmem_of kg hkg with h | h
      · exact h1 kg h
      · rw [h]
        simp
    · intro kg hkg s hs
      rcases hmem_of kg hkg with h | h
      · obtain ⟨hp, hsig⟩ := h2 kg h s hs
        exact ⟨List.mem_append_left _ hp, hsig⟩
      · subst h
        simp only at hs
        rcases List.mem_append.1 hs with hs | hs
        · obtain ⟨hp, hsig⟩ := h2 _ hgmem s hs
          exact ⟨List.mem_append_left _ hp, hsig⟩
        · simp only [List.mem_singleton] at hs
          subst hs
          exact ⟨List.mem_append_right _ (by simp), rfl⟩
    · intro s hs
      rcases List.mem_append.1 hs with hs | hs
      · rcases h3 s hs with ⟨kg, hkg, hskg⟩
        rw [hsplit] at hkg
        rcases List.mem_append.1 hkg with hkg | hkg
        · exact ⟨kg, List.mem_append_left _ hkg, hskg⟩
        · rcases List.mem_cons.1 hkg with hkg | hkg
          · subst hkg
            exact ⟨(sigOf dtr syms parts st, g ++ [st]),
              List.mem_append_right _ (List.mem_cons_self _ _),
              List.mem_append_left _ hskg⟩
          · exact ⟨kg, List.mem_append_right _ (List.mem_cons_of_mem _ hkg), hskg⟩
      · simp only [List.mem_singleton] at hs
        subst hs
        exact ⟨(sigOf dtr syms parts s, g ++ [s]),
          List.mem_append_right _ (List.mem_cons_self _ _),
          List.mem_append_right _ (List.mem_singleton.2 rfl)⟩
    · have : (pre ++ (sigOf dtr syms parts st, g ++ [st]) :: post).map Prod.fst =
          groups.map Prod.fst := by
        rw [hsplit]
        simp
      rw [this]
      exact h4
    · intro kg hkg
      rcases hmem_of kg hkg with h | h
      · exact h5 kg h
      · rw [h]
        rw [← List.concat_eq_append]
        exact List.Nodup.concat hstg (h5 _ hgmem)
  | none =>
    show GroupsInv dtr syms parts (processed ++ [st])
      (groups ++ [(sigOf dtr syms parts st, [st])])
    have hfresh : ∀ kg ∈ groups, kg.1 ≠ sigOf dtr syms parts st :=
      (dget_none_iff groups (sigOf dtr syms parts st)).1 hd
    refine ⟨?_, ?_, ?_, ?_, ?_⟩
    · intro kg hkg
      rcases List.mem_append.1 hkg with h | h
      · exact h1 kg h
      · simp only [List.mem_singleton] at h
        rw [h]
        simp
    · intro kg hkg s hs
      rcases List.mem_append.1 hkg with h | h
      · obtain ⟨hp, hsig⟩ := h2 kg h s hs
        exact ⟨List.mem_append_left _ hp, hsig⟩
      · simp only [List.mem_singleton] at h
        subst h
        simp only [List.mem_singleton] at hs
        subst hs
        exact ⟨List.mem_append_right _ (by simp), rfl⟩
    · intro s hs
      rcases List.mem_append.1 hs with hs | hs
      · rcases h3 s hs with ⟨kg, hkg, hskg⟩
        exact ⟨kg, List.mem_append_left _ hkg, hskg⟩
      · simp only [List.mem_singleton] at hs
        subst hs
        exact ⟨(sigOf dtr syms parts s, [s]),
          List.mem_append_right _ (List.mem_singleton.2 rfl),
          List.mem_singleton.2 rfl⟩
    · rw [List.map_append]
      simp only [List.map_singleton]
      rw [List.nodup_append]
      refine ⟨h4, List.nodup_singleton _, ?_⟩
      intro k hk
      simp only [List.mem_singleton]
      rcases List.mem_map.1 hk with ⟨kg, hkg, hfst⟩
      intro hc
      exact hfresh kg hkg (by rw [hfst, hc])
    · intro kg hkg
      rcases List.mem_append.1 hkg with h | h
      · exact h5 kg h
      · simp only [List.mem_singleton] at h
        rw [h]
        exact List.nodup_singleton _

theorem groupsFold_aux (dtr : TTab) (syms : List Str) (parts : List (List Str)) :
    ∀ (l processed : List Str) (groups : List (List Nat × List Str)),
      GroupsInv dtr syms parts processed groups →
      (∀ x ∈ l, x ∉ processed) → l.Nodup →
      GroupsInv dtr syms parts (processed ++ l)
        (l.foldl (fun gs st => groupInsert gs (sigOf dtr syms parts st) st) groups) := by
  intro l
  induction l with
  | nil =>
    intro processed groups hinv _ _
    simpa using hinv
  | cons st rest ih =>
    intro processed groups hinv hfresh hnd
    rw [List.foldl_cons]
    have hinv2 := groupInsert_inv dtr syms parts processed groups st hinv
      (hfresh st (List.mem_cons_self _ _))
    have hfresh2 : ∀ x ∈ rest, x ∉ processed ++ [st] := by
      intro x hx hc
      rcases List.mem_append.1 hc with hc | hc
      · exact hfresh x (List.mem_cons_of_mem _ hx) hc
      · simp only [List.mem_singleton] at hc
        subst hc
        exact (List.nodup_cons.1 hnd).1 hx
    have := ih (processed ++ [st]) _ hinv2 hfresh2 (List.nodup_cons.1 hnd).2
    rwa [List.append_assoc, List.singleton_append] at this

theorem groupsFold_inv (dtr : TTab) (syms : List Str) (parts : List (List Str))
    (l : List Str) (hnd : l.Nodup) :
    GroupsInv dtr syms parts l
      (l.foldl (fun gs st => groupInsert gs (sigOf dtr syms parts st) st) []) := by
  have h0 : GroupsInv dtr syms parts [] [] := by
    refine ⟨?_, ?_, ?_, ?_, ?_⟩ <;> simp
  have := groupsFold_aux dtr syms parts l [] [] h0 (by simp) hnd
  simpa using this

theorem groups_disjoint (dtr : TTab) (syms : List Str) (parts : List (List Str))
    (processed : List Str) (groups : List (List Nat × List Str))
    (hinv : GroupsInv dtr syms parts processed groups) :
    List.Pairwise (fun g h : List Nat × List Str => ∀ x ∈ g.2, x ∉ h.2) groups := by
  obtain ⟨h1, h2, h3, h4, h5⟩ := hinv
  have hkey : List.Pairwise (fun g h : List Nat × List Str => g.1 ≠ h.1) groups :=
    (List.pairwise_map).1 h4
  refine List.Pairwise.imp_of_mem ?_ hkey
  intro g h hg hh hne x hxg hxh
  have e1 := (h2 g hg x hxg).2
  have e2 := (h2 h hh x hxh).2
  exact hne (by rw [← e1, ← e2])

theorem refinePart_unchanged (dtr : TTab) (syms : List Str) (parts : List (List Str))
    (part : List Str) (hne : part ≠ []) (hnd : part.Nodup)
    (h : (refinePart dtr syms parts part).2 = false) :
    (refinePart dtr syms parts part).1 = [part] ∧
    ∀ s ∈ part, ∀ t ∈ part,
      sigOf dtr syms parts s = sigOf dtr syms parts t := by
  have hginv := groupsFold_inv dtr syms parts (sortStrs part)
    ((sortStrs_perm part).symm.nodup hnd)
  simp only [refinePart] at h ⊢
  by_cases hlen : ((sortStrs part).foldl
      (fun gs st => groupInsert gs (sigOf dtr syms parts st) st) []).length = 1
  · rw [if_pos hlen] at h ⊢
    refine ⟨rfl, ?_⟩
    rcases List.length_eq_one.1 hlen with ⟨kg, hkg⟩
    obtain ⟨g1, g2, g3, g4, g5⟩ := hginv
    rw [hkg] at g2 g3
    intro s hs t ht
    rcases g3 s ((sortStrs_perm part).mem_iff.2 hs) with ⟨kg1, hkg1, hskg⟩
    rcases g3 t ((sortStrs_perm part).mem_iff.2 ht) with ⟨kg2, hkg2, htkg⟩
    simp only [List.mem_singleton] at hkg1 hkg2
    rw [hkg1] at hskg
    rw [hkg2] at htkg
    rw [(g2 kg (List.mem_singleton.2 rfl) s hskg).2,
      (g2 kg (List.mem_singleton.2 rfl) t htkg).2]
  · rw [if_neg hlen] at h
    cases h

theorem refinePart_changed (dtr : TTab) (syms : List Str) (parts : List (List Str))
    (part : List Str) (hne : part ≠ []) (hnd : part.Nodup)
    (h : (refinePart dtr syms parts part).2 = true) :
    2 ≤ (refinePart dtr syms parts part).1.length ∧
    (∀ b ∈ (refinePart dtr syms parts part).1, b ≠ [] ∧ b.Nodup ∧ ∀ s ∈ b, s ∈ part) ∧
    (∀ s ∈ part, ∃ b ∈ (refinePart dtr syms parts part).1, s ∈ b) ∧
    List.Pairwise (fun p q => ∀ x ∈ p, x ∉ q) (refinePart dtr syms parts part).1 := by
  have hginv := groupsFold_inv dtr syms parts (sortStrs part)
    ((sortStrs_perm part).symm.nodup hnd)
  have hdisj := groups_disjoint dtr syms parts (sortStrs part) _ hginv
  obtain ⟨g1, g2, g3, g4, g5⟩ := hginv
  simp only [refinePart] at h ⊢
  by_cases hlen : ((sortStrs part).foldl
      (fun gs st => groupInsert gs (sigOf dtr syms parts st) st) []).length = 1
  · rw [if_pos hlen] at h
    cases h
  · rw [if_neg hlen] at h ⊢
    have hGne : ((sortStrs part).foldl
        (fun gs st => groupInsert gs (sigOf dtr syms parts st) st) []) ≠ [] := by
      intro hc
      rcases List.exists_mem_of_ne_nil part hne with ⟨s, hs⟩
      rcases g3 s ((sortStrs_perm part).mem_iff.2 hs) with ⟨kg, hkg, _⟩
      rw [hc] at hkg
      exact List.not_mem_nil kg hkg
    refine ⟨?_, ?_, ?_, ?_⟩
    · rw [List.length_map]
      have h1 : 1 ≤ ((sortStrs part).foldl
          (fun gs st => groupInsert gs (sigOf dtr syms parts st) st) []).length :=
        List.length_pos.2 hGne
      omega
    · intro b hb
      rcases List.mem_map.1 hb with ⟨kg, hkg, hb2⟩
      subst hb2
      exact ⟨g1 kg hkg, g5 kg hkg,
        fun s hs => (sortStrs_perm part).mem_iff.1 (g2 kg hkg s hs).1⟩
    · intro s hs
      rcases g3 s ((sortStrs_perm part).mem_iff.2 hs) with ⟨kg, hkg, hskg⟩
      exact ⟨kg.2, List.mem_map.2 ⟨kg, hkg, rfl⟩, hskg⟩
    · exact (List.pairwise_map).2 hdisj

theorem refinePass_eq (dtr : TTab) (syms : List Str) (parts : List (List Str)) :
    refinePass dtr syms parts = parts.foldl (fun acc part =>
      (acc.1 ++ (refinePart dtr syms parts part).1,
       acc.2 || (refinePart dtr syms parts part).2)) ([], false) := rfl

theorem refinePass_fold_spec (dtr : TTab) (syms : List Str) (parts : List (List Str)) :
    ∀ (l : List (List Str)) (acc : List (List Str) × Bool),
      (l.foldl (fun acc part =>
        (acc.1 ++ (refinePart dtr syms parts part).1,
         acc.2 || (refinePart dtr syms parts part).2)) acc).1 =
        acc.1 ++ (l.map (fun part => (refinePart dtr syms parts part).1)).flatten ∧
      (l.foldl (fun acc part =>
        (acc.1 ++ (refinePart dtr syms parts part).1,
         acc.2 || (refinePart dtr syms parts part).2)) acc).2 =
        (acc.2 || l.any (fun part => (refinePart dtr syms parts part).2)) := by
  intro l
  induction l with
  | nil =>
    intro acc
    simp
  | cons part rest ih =>
    intro acc
    rw [List.foldl_cons]
    obtain ⟨ha, hb⟩ := ih (acc.1 ++ (refinePart dtr syms parts part).1,
      acc.2 || (refinePart dtr syms parts part).2)
    constructor
    · rw [ha]
      simp [List.append_assoc]
    · rw [hb]
      simp [Bool.or_assoc]

theorem refinePass_fst (dtr : TTab) (syms : List Str) (parts : List (List Str)) :
    (refinePass dtr syms parts).1 =
      (parts.map (fun part => (refinePart dtr syms parts part).1)).flatten := by
  rw [refinePass_eq]
  have := (refinePass_fold_spec dtr syms parts parts ([], false)).1
  simpa using this

theorem refinePass_snd (dtr : TTab) (syms : List Str) (parts : List (List Str)) :
    (refinePass dtr syms parts).2 =
      parts.any (fun part => (refinePart dtr syms parts part).2) := by
  rw [refinePass_eq]
  have := (refinePass_fold_spec dtr syms parts parts ([], false)).2
  simpa using this

theorem headI_mem {α : Type} [Inhabited α] (l : List α) (h : l ≠ []) : l.headI ∈ l := by
  cases l with
  | nil => exact absurd rfl h
  | cons x xs => exact List.mem_cons_self _ _

theorem sum_ge_count (g : List Str → Nat) :
    ∀ l : List (List Str), (∀ x ∈ l, 1 ≤ g x) →
      l.length ≤ (l.map g).sum ∧
      (∀ x ∈ l, 2 ≤ g x → l.length + 1 ≤ (l.map g).sum) := by
  intro l
  induction l with
  | nil => intro _; simp
  | cons x rest ih =>
    intro hall
    obtain ⟨h1, h2⟩ := ih (fun y hy => hall y (List.mem_cons_of_mem _ hy))
    have hx := hall x (List.mem_cons_self _ _)
    simp only [List.map_cons, List.sum_cons, List.length_cons]
    constructor
    · omega
    · intro y hy hgy
      rcases List.mem_cons.1 hy with he | hr
      · rw [← he]
        omega
      · have := h2 y hr hgy
        omega

theorem flatten_singletons {α : Type} : ∀ l : List α, (l.map (fun x => [x])).flatten = l := by
  intro l
  induction l with
  | nil => rfl
  | cons x rest ih => simp [ih]

theorem partsInv_length_le (reach finals : List Str) (parts : List (List Str))
    (hinv : PartsInv reach finals parts) (hreach : reach.Nodup) :
    parts.length ≤ reach.length := by
  obtain ⟨h1, h2, h3, h4, h5, h6⟩ := hinv
  have hheads : (parts.map (fun p => p.headI)).Nodup := by
    refine (List.pairwise_map).2 ?_
    refine List.Pairwise.imp_of_mem ?_ h4
    intro p q hp hq hdisj heq
    exact hdisj p.headI (headI_mem p (h1 p hp)) (heq ▸ headI_mem q (h1 q hq))
  have hsub : parts.map (fun p => p.headI) ⊆ reach := by
    intro x hx
    rcases List.mem_map.1 hx with ⟨p, hp, hx2⟩
    exact h2 p hp x (hx2 ▸ headI_mem p (h1 p hp))
  have := (List.subperm_of_subset hheads hsub).length_le
  rwa [List.length_map] at this

theorem refinePass_parts_inv (reach finals : List Str) (dtr : TTab) (syms : List Str)
    (parts : List (List Str)) (hinv : PartsInv reach finals parts) :
    PartsInv reach finals (refinePass dtr syms parts).1 ∧
    parts.length ≤ (refinePass dtr syms parts).1.length ∧
    ((refinePass dtr syms parts).2 = true →
      parts.length + 1 ≤ (refinePass dtr syms parts).1.length) ∧
    ((refinePass dtr syms parts).2 = false → (refinePass dtr syms parts).1 = parts) := by
  obtain ⟨h1, h2, h3, h4, h5, h6⟩ := hinv
  have hblocks : ∀ part ∈ parts, ∀ b ∈ (refinePart dtr syms parts part).1,
      b ≠ [] ∧ b.Nodup ∧ ∀ s ∈ b, s ∈ part := by
    intro part hp b hb
    cases hflag : (refinePart dtr syms parts part).2 with
    | false =>
      obtain ⟨heq, _⟩ := refinePart_unchanged dtr syms parts part
        (h1 part hp) (h5 part hp) hflag
      rw [heq] at hb
      simp only [List.mem_singleton] at hb
      subst hb
      exact ⟨h1 b hp, h5 b hp, fun s hs => hs⟩
    | true =>
      obtain ⟨_, hB, _, _⟩ := refinePart_changed dtr syms parts part
        (h1 part hp) (h5 part hp) hflag
      exact hB b hb
  have hcover : ∀ part ∈ parts, ∀ s ∈ part,
      ∃ b ∈ (refinePart dtr syms parts part).1, s ∈ b := by
    intro part hp s hs
    cases hflag : (refinePart dtr syms parts part).2 with
    | false =>
      obtain ⟨heq, _⟩ := refinePart_unchanged dtr syms parts part
        (h1 part hp) (h5 part hp) hflag
      rw [heq]
      exact ⟨part, List.mem_singleton.2 rfl, hs⟩
    | true =>
      obtain ⟨_, _, hC, _⟩ := refinePart_changed dtr syms parts part
        (h1 part hp) (h5 part hp) hflag
      exact hC s hs
  have hinner : ∀ part ∈ parts,
      List.Pairwise (fun p q => ∀ x ∈ p, x ∉ q) (refinePart dtr syms parts part).1 := by
    intro part hp
    cases hflag : (refinePart dtr syms parts part).2 with
    | false =>
      obtain ⟨heq, _⟩ := refinePart_unchanged dtr syms parts part
        (h1 part hp) (h5 part hp) hflag
      rw [heq]
      exact List.pairwise_singleton _ _
    | true =>
      exact (refinePart_changed dtr syms parts part
        (h1 part hp) (h5 part hp) hflag).2.2.2
  have hmemP2 : ∀ b, b ∈ (parts.map
      (fun part => (refinePart dtr syms parts part).1)).flatten ↔
      ∃ part ∈ parts, b ∈ (refinePart dtr syms parts part).1 := by
    intro b
    rw [List.mem_flatten]
    constructor
    · rintro ⟨l, hl, hbl⟩
      rcases List.mem_map.1 hl with ⟨part, hp, hl2⟩
      exact ⟨part, hp, hl2 ▸ hbl⟩
    · rintro ⟨part, hp, hb⟩
      exact ⟨_, List.mem_map.2 ⟨part, hp, rfl⟩, hb⟩
  have hlen1 : ∀ part ∈ parts, 1 ≤ (refinePart dtr syms parts part).1.length := by
    intro part hp
    rcases List.exists_mem_of_ne_nil part (h1 part hp) with ⟨s, hs⟩
    rcases hcover part hp s hs with ⟨b, hb, _⟩
    exact List.length_pos.2 (List.ne_nil_of_mem hb)
  rw [refinePass_fst, refinePass_snd]
  refine ⟨⟨?_, ?_, ?_, ?_, ?_, ?_⟩, ?_, ?_, ?_⟩
  · intro p hp
    rcases (hmemP2 p).1 hp with ⟨part, hpart, hb⟩
    exact (hblocks part hpart p hb).1
  · intro p hp s hs
    rcases (hmemP2 p).1 hp with ⟨part, hpart, hb⟩
    exact h2 part hpart s ((hblocks part hpart p hb).2.2 s hs)
  · intro s hs
    rcases h3 s hs with ⟨part, hpart, hsp⟩
    rcases hcover part hpart s hsp with ⟨b, hb, hsb⟩
    exact ⟨b, (hmemP2 b).2 ⟨part, hpart, hb⟩, hsb⟩
  · rw [List.pairwise_flatten]
    constructor
    · intro l hl
      rcases List.mem_map.1 hl with ⟨part, hp, hl2⟩
      exact hl2 ▸ hinner part hp
    · refine (List.pairwise_map).2 ?_
      refine List.Pairwise.imp_of_mem ?_ h4
      intro p q hp hq hdisj bp hbp bq hbq x hxbp hxbq
      exact hdisj x ((hblocks p hp bp hbp).2.2 x hxbp)
        ((hblocks q hq bq hbq).2.2 x hxbq)
  · intro p hp
    rcases (hmemP2 p).1 hp with ⟨part, hpart, hb⟩
    exact (hblocks part hpart p hb).2.1
  · intro p hp
    rcases (hmemP2 p).1 hp with ⟨part, hpart, hb⟩
    have hsub := (hblocks part hpart p hb).2.2
    rcases h6 part hpart with hf | hf
    · exact Or.inl (fun s hs => hf s (hsub s hs))
    · exact Or.inr (fun s hs => hf s (hsub s hs))
  · rw [List.length_flatten, List.map_map]
    exact (sum_ge_count (fun part => (refinePart dtr syms parts part).1.length)
      parts hlen1).1
  · intro hany
    rw [List.length_flatten, List.map_map]
    rcases List.any_eq_true.1 hany with ⟨part, hp, hflag⟩
    have h2le := (refinePart_changed dtr syms parts part
      (h1 part hp) (h5 part hp) hflag).1
    exact (sum_ge_count (fun part => (refinePart dtr syms parts part).1.length)
      parts hlen1).2 part hp h2le
  · intro hall
    have hall2 := List.any_eq_false.1 hall
    have hmapeq : parts.map (fun part => (refinePart dtr syms parts part).1) =
        parts.map (fun part => [part]) := by
      apply List.map_eq_map_iff.2
      intro part hp
      exact (refinePart_unchanged dtr syms parts part
        (h1 part hp) (h5 part hp) (Bool.eq_false_iff.2 (hall2 part hp))).1
    rw [hmapeq, flatten_singletons]

theorem refineLoop_fix (reach finals : List Str) (dtr : TTab) (syms : List Str)
    (hreach : reach.Nodup) :
    ∀ fuel parts, PartsInv reach finals parts →
      reach.length + 1 ≤ fuel + parts.length →
      PartsInv reach finals (refineLoop dtr syms fuel parts) ∧
      (∀ part ∈ refineLoop dtr syms fuel parts, ∀ s ∈ part, ∀ t ∈ part,
        sigOf dtr syms (refineLoop dtr syms fuel parts) s =
          sigOf dtr syms (refineLoop dtr syms fuel parts) t) := by
  intro fuel
  induction fuel with
  | zero =>
    intro parts hinv hfuel
    have := partsInv_length_le reach finals parts hinv hreach
    exact absurd hfuel (by omega)
  | succ fuel ih =>
    intro parts hinv hfuel
    obtain ⟨hinvP, hle, hinc, hfix⟩ := refinePass_parts_inv reach finals dtr syms parts hinv
    rw [show refineLoop dtr syms (fuel + 1) parts =
        (if (refinePass dtr syms parts).2 then
          refineLoop dtr syms fuel (refinePass dtr syms parts).1
        else (refinePass dtr syms parts).1) from rfl]
    by_cases hflag : (refinePass dtr syms parts).2 = true
    · rw [if_pos hflag]
      exact ih (refinePass dtr syms parts).1 hinvP (by
        have := hinc hflag
        omega)
    · rw [if_neg hflag]
      have hfalse : (refinePass dtr syms parts).2 = false := Bool.eq_false_iff.2 hflag
      rw [hfix hfalse]
      refine ⟨hinv, ?_⟩
      intro part hp s hs t ht
      have hall2 := List.any_eq_false.1 (by rw [← refinePass_snd]; exact hfalse)
      obtain ⟨h1, _, _, _, h5, _⟩ := hinv
      exact (refinePart_unchanged dtr syms parts part (h1 part hp) (h5 part hp)
        (Bool.eq_false_iff.2 (hall2 part hp))).2 s hs t ht

theorem mem_minFinalsOf (a : FiniteAutomaton) (s : Str) :
    s ∈ minFinalsOf a ↔ s ∈ a.final_states ∧ s ∈ reachableOf a := by
  simp [minFinalsOf]

theorem minParts0_inv (a : FiniteAutomaton) (hfnd : a.final_states.Nodup) :
    PartsInv (reachableOf a) (minFinalsOf a) (minParts0 a) := by
  have hreach := reachableOf_nodup a
  have hfinnd : (minFinalsOf a).Nodup := List.Nodup.filter _ hfnd
  have hnfnd : ((reachableOf a).filter
      (fun s => decide (s ∉ minFinalsOf a))).Nodup := List.Nodup.filter _ hreach
  have hmemNF : ∀ s, s ∈ (reachableOf a).filter
      (fun s => decide (s ∉ minFinalsOf a)) ↔
      s ∈ reachableOf a ∧ s ∉ minFinalsOf a := by
    intro s
    simp [List.mem_filter]
  have hfinreach : ∀ s ∈ minFinalsOf a, s ∈ reachableOf a :=
    fun s hs => ((mem_minFinalsOf a s).1 hs).2
  show PartsInv (reachableOf a) (minFinalsOf a)
    ((if ((reachableOf a).filter (fun s => decide (s ∉ minFinalsOf a))).isEmpty
      then ([] : List (List Str))
      else [(reachableOf a).filter (fun s => decide (s ∉ minFinalsOf a))]) ++
      (if (minFinalsOf a).isEmpty then [] else [minFinalsOf a]))
  have hblock : ∀ p, p ∈ (if ((reachableOf a).filter
        (fun s => decide (s ∉ minFinalsOf a))).isEmpty
      then ([] : List (List Str))
      else [(reachableOf a).filter (fun s => decide (s ∉ minFinalsOf a))]) ++
      (if (minFinalsOf a).isEmpty then [] else [minFinalsOf a]) →
      (p = (reachableOf a).filter (fun s => decide (s ∉ minFinalsOf a)) ∧ p ≠ []) ∨
      (p = minFinalsOf a ∧ p ≠ []) := by
    intro p hp
    rcases List.mem_append.1 hp with hp | hp
    · split at hp
      · exact absurd hp (List.not_mem_nil p)
      · rename_i hne
        simp only [List.mem_singleton] at hp
        refine Or.inl ⟨hp, ?_⟩
        rw [hp]
        intro hc
        exact hne (by rw [hc]; rfl)
    · split at hp
      · exact absurd hp (List.not_mem_nil p)
      · rename_i hne
        simp only [List.mem_singleton] at hp
        refine Or.inr ⟨hp, ?_⟩
        rw [hp]
        intro hc
        exact hne (by rw [hc]; rfl)
  refine ⟨?_, ?_, ?_, ?_, ?_, ?_⟩
  · intro p hp
    rcases hblock p hp with ⟨_, h⟩ | ⟨_, h⟩ <;> exact h
  · intro p hp s hs
    rcases hblock p hp with ⟨he, _⟩ | ⟨he, _⟩
    · rw [he] at hs
      exact ((hmemNF s).1 hs).1
    · rw [he] at hs
      exact hfinreach s hs
  · intro s hs
    by_cases hsf : s ∈ minFinalsOf a
    · refine ⟨minFinalsOf a, ?_, hsf⟩
      refine List.mem_append_right _ ?_
      rw [if_neg (by
        intro hc
        rw [List.isEmpty_iff] at hc
        rw [hc] at hsf
        exact List.not_mem_nil s hsf)]
      exact List.mem_singleton.2 rfl
    · refine ⟨(reachableOf a).filter (fun s => decide (s ∉ minFinalsOf a)), ?_,
        (hmemNF s).2 ⟨hs, hsf⟩⟩
      refine List.mem_append_left _ ?_
      rw [if_neg (by
        intro hc
        rw [List.isEmpty_iff] at hc
        have := (hmemNF s).2 ⟨hs, hsf⟩
        rw [hc] at this
        exact List.not_mem_nil s this)]
      exact List.mem_singleton.2 rfl
  · have hdisj : ∀ x ∈ (reachableOf a).filter
        (fun s => decide (s ∉ minFinalsOf a)), x ∉ minFinalsOf a :=
      fun x hx => ((hmemNF x).1 hx).2
    split
    · split
      · exact List.Pairwise.nil
      · exact List.pairwise_singleton _ _
    · split
      · exact List.pairwise_singleton _ _
      · refine List.pairwise_cons.2 ⟨?_, List.pairwise_singleton _ _⟩
        intro q hq
        cases hq with
        | head => exact hdisj
        | tail _ h => exact absurd h (List.not_mem_nil q)
  · intro p hp
    rcases hblock p hp with ⟨he, _⟩ | ⟨he, _⟩
    · rw [he]; exact hnfnd
    · rw [he]; exact hfinnd
  · intro p hp
    rcases hblock p hp with ⟨he, _⟩ | ⟨he, _⟩
    · refine Or.inr ?_
      rw [he]
      intro s hs
      exact ((hmemNF s).1 hs).2
    · refine Or.inl ?_
      rw [he]
      exact fun s hs => hs

theorem minParts_spec (a : FiniteAutomaton) (hfnd : a.final_states.Nodup) :
    PartsInv (reachableOf a) (minFinalsOf a) (minParts a) ∧
    (∀ part ∈ minParts a, ∀ s ∈ part, ∀ t ∈ part,
      sigOf (minDtr a) (minSymbols a.symbols) (minParts a) s =
        sigOf (minDtr a) (minSymbols a.symbols) (minParts a) t) := by
  have h0 := minParts0_inv a hfnd
  have := refineLoop_fix (reachableOf a) (minFinalsOf a) (minDtr a)
    (minSymbols a.symbols) (reachableOf_nodup a) ((reachableOf a).length + 1)
    (minParts0 a) h0 (by omega)
  exact this

theorem toMinimized_states_eq (a : FiniteAutomaton) :
    (toMinimized a).states = (List.range (minParts a).length).map className := rfl

theorem toMinimized_initial_eq (a : FiniteAutomaton) :
    (toMinimized a).initial_state = className (classOf (minParts a) a.initial_state) := rfl

theorem toMinimized_symbols_eq (a : FiniteAutomaton) :
    (toMinimized a).symbols = (minSymbols a.symbols).map some := rfl

theorem toMinimized_finals_eq (a : FiniteAutomaton) :
    (toMinimized a).final_states = ((List.range (minParts a).length).filter (fun i =>
      ((minParts a).getD i []).any (fun s => decide (s ∈ minFinalsOf a)))).map
        className := rfl

theorem toMinimized_trans_eq (a : FiniteAutomaton) :
    (toMinimized a).transitions = (List.range (minParts a).length).map (fun i =>
      (className i, (minSymbols a.symbols).map (fun sym =>
        ((some sym : Symb), [className (classOf (minParts a)
          (dtransDest (minDtr a) ((minParts a).getD i []).headI sym))])))) := rfl

theorem minSymbols_no_lam (syms : List Symb) : lamS ∉ minSymbols syms := by
  unfold minSymbols
  intro hc
  rw [(sortStrs_perm _).mem_iff, mem_ssetOf] at hc
  rcases List.mem_filterMap.1 hc with ⟨y, _, hf⟩
  cases y with
  | none => cases hf
  | some x =>
    by_cases hx : x = lamS
    · simp [hx] at hf
    · simp [hx] at hf

theorem lamDests_nil_of_real_keys (tr : TTab)
    (hkeys : ∀ e ∈ tr, ∀ d ∈ e.2, ∃ x, d.1 = some x ∧ x ≠ lamS) (st : Str) :
    lamDests tr st = [] := by
  unfold lamDests tlook
  cases hrow : dget tr st with
  | none => rfl
  | some row =>
    have hrmem := dget_mem tr st row hrow
    have h1 : dget row (some lamS) = none := by
      rw [dget_none_iff]
      intro d hd
      rcases hkeys (st, row) hrmem d hd with ⟨x, hx, hxl⟩
      rw [hx]
      intro hc
      exact hxl (Option.some_inj.1 hc)
    have h2 : dget row none = none := by
      rw [dget_none_iff]
      intro d hd
      rcases hkeys (st, row) hrmem d hd with ⟨x, hx, _⟩
      rw [hx]
      intro hc
      cases hc
    show (dget row (some lamS)).getD [] ++ (dget row none).getD [] = []
    rw [h1, h2]
    rfl

theorem dfa_lamDests_nil (a : FiniteAutomaton) (hv : dfaValidB a = true) (st : Str) :
    lamDests a.transitions st = [] := by
  apply lamDests_nil_of_real_keys
  intro e he d hd
  rcases (dfaValid_parts a hv).2.2.2.2.1 e he d hd with ⟨x, hx, hxm⟩
  exact ⟨x, hx, fun hc => minSymbols_no_lam a.symbols (hc ▸ hxm)⟩

theorem minimized_lamDests_nil (a : FiniteAutomaton) (st : Str) :
    lamDests (toMinimized a).transitions st = [] := by
  apply lamDests_nil_of_real_keys
  intro e he d hd
  rw [toMinimized_trans_eq] at he
  rcases List.mem_map.1 he with ⟨i, _, he2⟩
  rw [← he2] at hd
  simp only at hd
  rcases List.mem_map.1 hd with ⟨sym, hsym, hd2⟩
  refine ⟨sym, by rw [← hd2], fun hc => minSymbols_no_lam a.symbols (hc ▸ hsym)⟩

theorem minTrans_look (a : FiniteAutomaton) (i : Nat) (hi : i < (minParts a).length)
    (sym : Str) (hsym : sym ∈ minSymbols a.symbols) :
    tlook (toMinimized a).transitions (className i) (some sym) =
      some [className (classOf (minParts a)
        (dtransDest (minDtr a) ((minParts a).getD i []).headI sym))] := by
  rw [toMinimized_trans_eq]
  unfold tlook
  have hrow := dget_map_of_inj className (fun i => (minSymbols a.symbols).map (fun sym =>
      ((some sym : Symb), [className (classOf (minParts a)
        (dtransDest (minDtr a) ((minParts a).getD i []).headI sym))])))
    (List.range (minParts a).length) i (fun x _ h => className_inj x i h)
  rw [if_pos (List.mem_range.2 hi)] at hrow
  rw [hrow]
  have hcell := dget_map_of_inj (fun sym : Str => (some sym : Symb))
    (fun sym => [className (classOf (minParts a)
      (dtransDest (minDtr a) ((minParts a).getD i []).headI sym))])
    (minSymbols a.symbols) sym (fun x _ h => Option.some_inj.1 h)
  rw [if_pos hsym] at hcell
  exact hcell

theorem minTrans_look_none (a : FiniteAutomaton) (i : Nat)
    (hi : i < (minParts a).length) (x : Str) (hx : x ∉ minSymbols a.symbols) :
    tlook (toMinimized a).transitions (className i) (some x) = none := by
  rw [toMinimized_trans_eq]
  unfold tlook
  have hrow := dget_map_of_inj className (fun i => (minSymbols a.symbols).map (fun sym =>
      ((some sym : Symb), [className (classOf (minParts a)
        (dtransDest (minDtr a) ((minParts a).getD i []).headI sym))])))
    (List.range (minParts a).length) i (fun x _ h => className_inj x i h)
  rw [if_pos (List.mem_range.2 hi)] at hrow
  rw [hrow]
  have hcell := dget_map_of_inj (fun sym : Str => (some sym : Symb))
    (fun sym => [className (classOf (minParts a)
      (dtransDest (minDtr a) ((minParts a).getD i []).headI sym))])
    (minSymbols a.symbols) x (fun y _ h => Option.some_inj.1 h)
  rw [if_neg hx] at hcell
  exact hcell

theorem acceptsFrom_nil_eq (b : FiniteAutomaton) (cur : List Str) :
    acceptsFrom b cur [] = cur.any (fun st => decide (st ∈ b.final_states)) := rfl

theorem acceptsFrom_cons_eq (b : FiniteAutomaton) (cur : List Str) (x : Str)
    (w : List Str) :
    acceptsFrom b cur (x :: w) =
      if (moveClosure b cur (some x)).isEmpty then false
      else acceptsFrom b (moveClosure b cur (some x)) w := rfl

theorem moveClosure_single (b : FiniteAutomaton) (s : Str) (sym : Symb) (d : Str)
    (htl : tlook b.transitions s sym = some [d])
    (hld : lamDests b.transitions d = []) :
    moveClosure b [s] sym = [d] := by
  unfold moveClosure
  simp only [List.foldl_cons, List.foldl_nil]
  rw [htl]
  show [d].foldl (fun acc2 d2 => sunion acc2 (lambdaClosure b [d2])) [] = [d]
  simp only [List.foldl_cons, List.foldl_nil]
  rw [lambdaClosure_single b d hld]
  simp [sunion, sinsert]

theorem moveClosure_single_none (b : FiniteAutomaton) (s : Str) (sym : Symb)
    (htl : tlook b.transitions s sym = none) :
    moveClosure b [s] sym = [] := by
  unfold moveClosure
  simp only [List.foldl_cons, List.foldl_nil]
  rw [htl]

theorem dfa_tlook_none (a : FiniteAutomaton) (hv : dfaValidB a = true) (s : Str)
    (x : Str) (hx : x ∉ minSymbols a.symbols) :
    tlook a.transitions s (some x) = none := by
  unfold tlook
  cases hrow : dget a.transitions s with
  | none => rfl
  | some row =>
    show dget row (some x) = none
    rw [dget_none_iff]
    intro d hd
    rcases (dfaValid_parts a hv).2.2.2.2.1 (s, row) (dget_mem _ _ _ hrow) d hd
      with ⟨y, hy, hym⟩
    rw [hy]
    intro hc
    exact hx (Option.some_inj.1 hc ▸ hym)

theorem minimized_final_iff (a : FiniteAutomaton) (hfnd : a.final_states.Nodup)
    (s : Str) (hs : s ∈ reachableOf a) :
    (className (classOf (minParts a) s) ∈ (toMinimized a).final_states) ↔
      s ∈ minFinalsOf a := by
  obtain ⟨⟨hP1, hP2, hP3, hP4, hP5, hP6⟩, _⟩ := minParts_spec a hfnd
  have hex : ∃ p ∈ minParts a, s ∈ p := hP3 s hs
  have hlt := classOf_lt (minParts a) s hex
  have hmem := classOf_mem (minParts a) s hex
  have hgetD : (minParts a).getD (classOf (minParts a) s) [] =
      (minParts a).get ⟨classOf (minParts a) s, hlt⟩ := List.getD_eq_get _ _ hlt
  rw [toMinimized_finals_eq]
  constructor
  · intro hc
    rcases List.mem_map.1 hc with ⟨i, hi, hci⟩
    have hieq : i = classOf (minParts a) s := className_inj _ _ hci
    subst hieq
    rcases List.mem_filter.1 hi with ⟨_, hpred⟩
    rcases List.any_eq_true.1 hpred with ⟨t, ht, htf⟩
    rw [hgetD] at ht
    rcases hP6 _ (List.get_mem (minParts a) _ hlt) with hall | hnone
    · exact hall s hmem
    · exact absurd (of_decide_eq_true htf) (hnone t ht)
  · intro hsf
    refine List.mem_map.2 ⟨classOf (minParts a) s, ?_, rfl⟩
    refine List.mem_filter.2 ⟨List.mem_range.2 hlt, ?_⟩
    refine List.any_eq_true.2 ⟨s, ?_, decide_eq_true hsf⟩
    rw [hgetD]
    exact hmem

theorem min_sim (a : FiniteAutomaton) (hv : dfaValidB a = true) :
    ∀ w : List Str, ∀ s ∈ reachableOf a,
      acceptsFrom (toMinimized a) [className (classOf (minParts a) s)] w =
        acceptsFrom a [s] w := by
  have hfnd := (dfaValid_parts a hv).2.2.1
  obtain ⟨⟨hP1, hP2, hP3, hP4, hP5, hP6⟩, hsig⟩ := minParts_spec a hfnd
  intro w
  induction w with
  | nil =>
    intro s hs
    rw [acceptsFrom_nil_eq, acceptsFrom_nil_eq]
    simp only [List.any_cons, List.any_nil, Bool.or_false]
    have hiff := minimized_final_iff a hfnd s hs
    rw [mem_minFinalsOf] at hiff
    exact decide_eq_decide.2 (hiff.trans ⟨fun h => h.1, fun h => ⟨h, hs⟩⟩)
  | cons x rest ih =>
    intro s hs
    rw [acceptsFrom_cons_eq, acceptsFrom_cons_eq]
    have hex : ∃ p ∈ minParts a, s ∈ p := hP3 s hs
    have hlt := classOf_lt (minParts a) s hex
    by_cases hx : x ∈ minSymbols a.symbols
    · obtain ⟨d, htl, hdstates, hdd, hdreach⟩ := minDtr_dest_total a hv s hs x hx
      have hmvD : moveClosure a [s] (some x) = [d] :=
        moveClosure_single a s (some x) d htl (dfa_lamDests_nil a hv d)
      have hgetD : (minParts a).getD (classOf (minParts a) s) [] =
          (minParts a).get ⟨classOf (minParts a) s, hlt⟩ := List.getD_eq_get _ _ hlt
      have hblkmem : (minParts a).get ⟨classOf (minParts a) s, hlt⟩ ∈ minParts a :=
        List.get_mem _ _ _
      have hrepmem : ((minParts a).getD (classOf (minParts a) s) []).headI ∈
          (minParts a).get ⟨classOf (minParts a) s, hlt⟩ := by
        rw [hgetD]
        exact headI_mem _ (hP1 _ hblkmem)
      have hsmem : s ∈ (minParts a).get ⟨classOf (minParts a) s, hlt⟩ :=
        classOf_mem _ _ hex
      have hsigeq := hsig _ hblkmem _ hrepmem s hsmem
      have hpt : classOf (minParts a) (dtransDest (minDtr a)
          ((minParts a).getD (classOf (minParts a) s) []).headI x) =
          classOf (minParts a) (dtransDest (minDtr a) s x) := by
        unfold sigOf at hsigeq
        exact List.map_eq_map_iff.1 hsigeq x hx
      have hmvM : moveClosure (toMinimized a) [className (classOf (minParts a) s)]
          (some x) = [className (classOf (minParts a) d)] := by
        refine moveClosure_single _ _ _ _ ?_ (minimized_lamDests_nil a _)
        rw [minTrans_look a (classOf (minParts a) s) hlt x hx, hpt, hdd]
      rw [hmvD, hmvM]
      show acceptsFrom (toMinimized a) [className (classOf (minParts a) d)] rest =
        acceptsFrom a [d] rest
      exact ih d hdreach
    · have hmvD : moveClosure a [s] (some x) = [] :=
        moveClosure_single_none a s (some x) (dfa_tlook_none a hv s x hx)
      have hmvM : moveClosure (toMinimized a) [className (classOf (minParts a) s)]
          (some x) = [] :=
        moveClosure_single_none _ _ _ (minTrans_look_none a _ hlt x hx)
      rw [hmvD, hmvM]
      rfl

/-- C2: for every deterministic, total automaton `D` — a valid Model whose
states avoid the reserved dead name `∅`, with duplicate-free state and final
lists, real-symbol transition keys, and exactly one known destination per
state and alphabet symbol — and every input string `w`,
`accepts(D, w) == accepts(to_minimized(D), w)`: partition-refinement
minimization preserves the accepted language. -/
theorem minimize_preserves_language (a : FiniteAutomaton)
    (hv : dfaValidB a = true) (w : List Str) :
    accepts (toMinimized a) w = accepts a w := by
  unfold accepts
  rw [lambdaClosure_single a _ (dfa_lamDests_nil a hv _),
    lambdaClosure_single (toMinimized a) _ (minimized_lamDests_nil a _),
    toMinimized_initial_eq]
  exact min_sim a hv w a.initial_state (reachableOf_mem_init a)

/-- Witness for C2, exercising a total DFA that contains the dead name `∅` as
an ordinary reachable state (as determinize outputs do): it is valid and
minimization preserves its verdict on the string `aa`. -/
theorem minimize_preserves_language_witness :
    dfaValidB ⟨str "q", [str "q", str "∅"], [some (str "a")],
      [(str "q", [(some (str "a"), [str "∅"])]),
       (str "∅", [(some (str "a"), [str "∅"])])], [str "q"]⟩ = true ∧
    accepts (toMinimized ⟨str "q", [str "q", str "∅"], [some (str "a")],
      [(str "q", [(some (str "a"), [str "∅"])]),
       (str "∅", [(some (str "a"), [str "∅"])])], [str "q"]⟩)
      [str "a", str "a"] =
    accepts ⟨str "q", [str "q", str "∅"], [some (str "a")],
      [(str "q", [(some (str "a"), [str "∅"])]),
       (str "∅", [(some (str "a"), [str "∅"])])], [str "q"]⟩
      [str "a", str "a"] :=
  ⟨by decide, minimize_preserves_language _ (by decide) _⟩

theorem addLambdaSelf_id (tr : TTab) (src dst : Str)
    (h : ∀ e ∈ tr, dget e.2 (some lamS) = none) :
    addLambdaSelf tr src dst = tr := by
  unfold addLambdaSelf
  cases hg : dget tr src with
  | none => rfl
  | some row =>
    have hl := h (src, row) (dget_mem _ _ _ hg)
    show (match dget row (some lamS) with
      | some existing => dset tr src (dset row (some lamS) (existing ++ [dst]))
      | none => tr) = tr
    rw [hl]

theorem starFull_self_id (a : FiniteAutomaton) (c : Nat)
    (h : ∀ e ∈ a.transitions, dget e.2 (some lamS) = none) :
    (createAutomatonStarFull a c).2 = a.transitions := by
  have hfold : ∀ (dst : Str) (l : List Str),
      l.foldl (fun tr f => addLambdaSelf tr f dst) a.transitions = a.transitions := by
    intro dst l
    induction l with
    | nil => rfl
    | cons f rest ih =>
      rw [List.foldl_cons, addLambdaSelf_id _ _ _ h]
      exact ih
  show a.final_states.foldl (fun tr f => addLambdaSelf tr f (natToStr (c + 1)))
    (a.final_states.foldl (fun tr f => addLambdaSelf tr f a.initial_state)
      (addLambdaSelf (addLambdaSelf a.transitions (natToStr c) a.initial_state)
        (natToStr c) (natToStr (c + 1)))) = a.transitions
  rw [addLambdaSelf_id _ _ _ h, addLambdaSelf_id _ _ _ h, hfold, hfold]

/-- C5 (amended): the boundary of the observable effects on input transition
tables.  On a deterministic total automaton whose `∅` row exists whenever `∅`
is reachable (forced: with an empty alphabet and initial state `∅`,
`to_minimized` inserts an empty `∅` row), `to_minimized` leaves the input's
transition table unchanged; the star rule leaves its input's table unchanged
when no input row already has a λ destination list; and star does mutate its
input otherwise: on an automaton whose final state has a λ row, the input's
λ-list is appended through the shared list object. -/
theorem transform_input_table_boundary :
    (∀ a : FiniteAutomaton, dfaValidB a = true →
      (deadS ∈ reachableOf a → dget a.transitions deadS ≠ none) →
      (toMinimizedFull a).2 = a.transitions) ∧
    (∀ (a : FiniteAutomaton) (c : Nat),
      (∀ e ∈ a.transitions, dget e.2 (some lamS) = none) →
      (createAutomatonStarFull a c).2 = a.transitions) ∧
    (createAutomatonStarFull ⟨str "0", [str "0"], [],
      [(str "0", [(some lamS, [str "0"])])], [str "0"]⟩ 1).2 ≠
      [(str "0", [(some lamS, [str "0"])])] :=
  ⟨fun a hv hrow => minSelfTTab_total a hv hrow,
   fun a c h => starFull_self_id a c h,
   by decide⟩

/-- Witness for the amended C5: a total DFA that uses `∅` as an ordinary state
keeps its table through `to_minimized`, and star does not touch the symbol
automaton's table (which has no λ rows). -/
theorem transform_input_table_boundary_witness :
    (toMinimizedFull ⟨str "q", [str "q", str "∅"], [some (str "a")],
      [(str "q", [(some (str "a"), [str "∅"])]),
       (str "∅", [(some (str "a"), [str "∅"])])], [str "q"]⟩).2 =
    (⟨str "q", [str "q", str "∅"], [some (str "a")],
      [(str "q", [(some (str "a"), [str "∅"])]),
       (str "∅", [(some (str "a"), [str "∅"])])], [str "q"]⟩ :
        FiniteAutomaton).transitions ∧
    (createAutomatonStarFull symA 2).2 = symA.transitions :=
  ⟨transform_input_table_boundary.1 _ (by decide) (by decide),
   transform_input_table_boundary.2.1 symA 2 (by decide)⟩

/-- C10: on a deterministic automaton with a partial transition function on
its reachable part (no row for the reserved dead name, duplicate-free final
list), `to_minimized` synthesizes the dead state `∅`: it becomes reachable,
its row in the completed table self-loops on every alphabet symbol, every
missing or empty transition of a reachable state is routed to it, and the
returned automaton's transition function is total: every state and alphabet
symbol has exactly one destination, itself a state of the result. -/
theorem minimize_dead_completion (a : FiniteAutomaton)
    (hfnd : a.final_states.Nodup)
    (hdead : dget a.transitions deadS = none)
    (hp : minPartialB a = true) :
    deadS ∈ reachableOf a ∧
    (∀ sym ∈ minSymbols a.symbols,
      tlook (toMinimizedFull a).2 deadS (some sym) = some [deadS]) ∧
    (∀ s ∈ reachableOf a, ∀ sym ∈ minSymbols a.symbols,
      (tlook a.transitions s (some sym) = none ∨
        tlook a.transitions s (some sym) = some []) →
      dtransDest (minDtr a) s sym = deadS) ∧
    (∀ st ∈ (toMinimized a).states, ∀ symb ∈ (toMinimized a).symbols,
      ∃ d ∈ (toMinimized a).states,
        tlook (toMinimized a).transitions st symb = some [d]) := by
  have hdreach := dead_reach_of_partial a hp
  obtain ⟨⟨hP1, hP2, hP3, hP4, hP5, hP6⟩, _⟩ := minParts_spec a hfnd
  refine ⟨hdreach, ?_, ?_, ?_⟩
  · intro sym hsym
    show tlook (minSelfTTab a) deadS (some sym) = some [deadS]
    exact minSelfTTab_dead a hdead hdreach sym hsym
  · intro s hs sym hsym hmiss
    by_cases hsd : s = deadS
    · subst hsd
      have hdl := minSelfTTab_dead a hdead hdreach sym hsym
      unfold minDtr
      rw [dtransDest_eq _ _ _ deadS hs sym hsym, hdl]
      rfl
    · have hmt := minSelfTTab_other a s (some sym) hsd
      unfold minDtr
      rw [dtransDest_eq _ _ _ s hs sym hsym, hmt]
      rcases hmiss with h | h
      · rw [h]
      · rw [h]
        rfl
  · intro st hst symb hsymb
    rw [toMinimized_states_eq] at hst
    rw [toMinimized_symbols_eq] at hsymb
    rcases List.mem_map.1 hst with ⟨i, hi, hci⟩
    rcases List.mem_map.1 hsymb with ⟨sym, hsym, hcs⟩
    have hilt : i < (minParts a).length := List.mem_range.1 hi
    subst hci
    subst hcs
    have hgetD : (minParts a).getD i [] = (minParts a).get ⟨i, hilt⟩ :=
      List.getD_eq_get _ _ hilt
    have hblkmem : (minParts a).get ⟨i, hilt⟩ ∈ minParts a := List.get_mem _ _ _
    have hrep : ((minParts a).getD i []).headI ∈ reachableOf a := by
      rw [hgetD]
      exact hP2 _ hblkmem _ (headI_mem _ (hP1 _ hblkmem))
    have hdest := minDtr_dest_reach a hdead _ hrep sym hsym
    have hjlt := classOf_lt (minParts a) _ (hP3 _ hdest)
    refine ⟨className (classOf (minParts a)
      (dtransDest (minDtr a) ((minParts a).getD i []).headI sym)), ?_, ?_⟩
    · rw [toMinimized_states_eq]
      exact List.mem_map.2 ⟨_, List.mem_range.2 hjlt, rfl⟩
    · exact minTrans_look a i hilt sym hsym

/-- Witness for C10: the one-state automaton with symbol `a` and no
transitions satisfies the hypotheses, and the dead state becomes reachable. -/
theorem minimize_dead_completion_witness :
    partialA.final_states.Nodup ∧ dget partialA.transitions deadS = none ∧
    minPartialB partialA = true ∧ deadS ∈ reachableOf partialA :=
  ⟨by decide, by decide, by decide,
    (minimize_dead_completion partialA (by decide) (by decide) (by decide)).1⟩
